import Mathlib

/-!
Verification development for the cursor-deeplink HTTP request executor
(src/httpRequestExecutor.ts) and the code-lens section parser.

Strings are modelled as lists of characters (type Str).  The JavaScript
string/regex operations used by the source (trim, toLowerCase, replace of
whitespace runs, the specific regular expressions of the source) are embedded
as executable functions on Str.  JSON.parse / JSON.stringify, which are
platform builtins (not repository code), are modelled by an executable JSON
parser and printers covering the fragment the source exercises: objects,
arrays, strings with the standard escapes (\x75-escapes excluded), integer
numbers, true/false/null.
-/

/-- Character-list strings, the carrier for the whole embedding. -/
abbrev Str := List Char

/-- Convert a Lean string literal to the model representation. -/
def str (s : String) : Str := s.data

/-- The ASCII part of the JavaScript whitespace class (regex \s and
String.prototype.trim): space, tab, newline, carriage return, vertical tab,
form feed. -/
def wsChar (c : Char) : Bool :=
  c = ' ' || c = '\t' || c = '\n' || c = '\r' || c = '\x0b' || c = '\x0c'

/-- Drop leading JavaScript whitespace. -/
def trimLeft (s : Str) : Str := s.dropWhile wsChar

/-- Drop trailing JavaScript whitespace. -/
def trimRight (s : Str) : Str := (s.reverse.dropWhile wsChar).reverse

/-- JavaScript String.prototype.trim. -/
def jsTrim (s : Str) : Str := trimRight (trimLeft s)

/-- ASCII lower-casing, as String.prototype.toLowerCase on ASCII input. -/
def lowerStr (s : Str) : Str := s.map Char.toLower

/-- Auxiliary state machine for collapseWs: the flag records whether the
previous character was whitespace (so that a run emits a single space). -/
def collapseWsAux : Bool → Str → Str
  | _, [] => []
  | prevWs, c :: cs =>
    if wsChar c then
      if prevWs then collapseWsAux true cs else ' ' :: collapseWsAux true cs
    else c :: collapseWsAux false cs

/-- JavaScript replace of /\s+/g by a single space. -/
def collapseWs (s : Str) : Str := collapseWsAux false s

/-- Does the pattern occur at the head of the string? -/
def strStarts : Str → Str → Bool
  | [], _ => true
  | _ :: _, [] => false
  | p :: ps, c :: cs => p = c && strStarts ps cs

/-- Does the pattern occur anywhere in the string (String.prototype.includes)? -/
def containsSub : Str → Str → Bool
  | [], pat => strStarts pat []
  | c :: cs, pat => strStarts pat (c :: cs) || containsSub cs pat

/-- Does the string end with the pattern? -/
def strEnds (s pat : Str) : Bool := strStarts pat.reverse s.reverse

/-- Numeric value of a decimal digit character. -/
def digitVal (c : Char) : Nat := c.toNat - '0'.toNat

/-- Decimal value of a digit string (most significant digit first). -/
def digitsToNat (ds : Str) : Nat := ds.foldl (fun a c => 10 * a + digitVal c) 0

/-- JavaScript split on a single character (String.prototype.split with a
one-character separator): an empty string yields one empty field, and every
separator occurrence starts a new field. -/
def splitOnChar (sep : Char) : Str → List Str
  | [] => [[]]
  | c :: cs =>
    let rest := splitOnChar sep cs
    if c = sep then [] :: rest
    else match rest with
      | [] => [[c]]
      | f :: fs => (c :: f) :: fs

/-- Split on /\r?\n/ as the source does for header lines: a newline, optionally
preceded by a carriage return, separates fields. -/
def splitCrLf : Str → List Str
  | [] => [[]]
  | '\r' :: '\n' :: cs =>
    [] :: splitCrLf cs
  | c :: cs =>
    let rest := splitCrLf cs
    if c = '\n' then [] :: rest
    else match rest with
      | [] => [[c]]
      | f :: fs => (c :: f) :: fs

/-- Count of leading space characters of a line (used to talk about the
indentation level the XML formatter emitted). -/
def leadingSpaces (s : Str) : Nat := (s.takeWhile (fun c => c = ' ')).length

/-- JSON values, the model of what JSON.parse returns.  Numbers are modelled
as integers: the claims only exercise integer literals, and the fraction and
exponent forms of the platform parser are outside this embedding. -/
inductive Json where
  | null : Json
  | bool (b : Bool) : Json
  | num (n : Int) : Json
  | str (s : Str) : Json
  | arr (xs : List Json) : Json
  | obj (fs : List (Str × Json)) : Json

/-- JSON whitespace (the four characters the JSON grammar allows between
tokens). -/
def jsonWs (c : Char) : Bool := c = ' ' || c = '\t' || c = '\n' || c = '\r'

/-- Skip JSON whitespace. -/
def skipWs (s : Str) : Str := s.dropWhile jsonWs

/-- Resolve a one-character JSON string escape. -/
def unescapeChar (c : Char) : Option Char :=
  if c = '"' then some '"'
  else if c = '\\' then some '\\'
  else if c = '/' then some '/'
  else if c = 'b' then some '\x08'
  else if c = 'f' then some '\x0c'
  else if c = 'n' then some '\n'
  else if c = 'r' then some '\r'
  else if c = 't' then some '\t'
  else none

/-- Parse the body of a JSON string literal (after the opening quote); returns
the unescaped contents and the remainder after the closing quote.  Raw control
characters are rejected, as JSON.parse rejects them. -/
def parseStrBody : Str → Option (Str × Str)
  | [] => none
  | c :: rest =>
    if c = '"' then some ([], rest)
    else if c = '\\' then
      match rest with
      | [] => none
      | e :: rest2 =>
        match unescapeChar e with
        | none => none
        | some u =>
          match parseStrBody rest2 with
          | none => none
          | some (s, r) => some (u :: s, r)
    else if c.toNat < 0x20 then none
    else
      match parseStrBody rest with
      | none => none
      | some (s, r) => some (c :: s, r)

/-- Parse an unsigned JSON integer (leading-zero rule: a leading 0 is a
complete number). -/
def parseNatTok : Str → Option (Nat × Str)
  | [] => none
  | c :: cs =>
    if c = '0' then some (0, cs)
    else if c.isDigit then
      let ds := (c :: cs).takeWhile Char.isDigit
      some (digitsToNat ds, (c :: cs).drop ds.length)
    else none

/-- Parse a JSON integer with optional minus sign. -/
def parseIntTok : Str → Option (Int × Str)
  | [] => none
  | c :: rest =>
    if c = '-' then (parseNatTok rest).map (fun p => (-(p.1 : Int), p.2))
    else (parseNatTok (c :: rest)).map (fun p => ((p.1 : Int), p.2))

/-- Insert a key into an object under JavaScript property semantics: a later
duplicate key overwrites the value but keeps the first occurrence's position. -/
def jsSet (fs : List (Str × Json)) (k : Str) (v : Json) : List (Str × Json) :=
  if fs.any (fun p => p.1 = k) then
    fs.map (fun p => if p.1 = k then (k, v) else p)
  else fs ++ [(k, v)]

mutual

/-- Fueled JSON value parser (model of JSON.parse's grammar). -/
def parseVal : Nat → Str → Option (Json × Str)
  | 0, _ => none
  | Nat.succ f, s =>
    match skipWs s with
    | [] => none
    | c :: rest =>
      if c = '"' then (parseStrBody rest).map (fun p => (Json.str p.1, p.2))
      else if c = '[' then
        (if (skipWs rest).head? = some ']' then some (Json.arr [], (skipWs rest).tail)
         else (parseElems f (skipWs rest)).map (fun p => (Json.arr p.1, p.2)))
      else if c = '\x7b' then
        (if (skipWs rest).head? = some '\x7d' then some (Json.obj [], (skipWs rest).tail)
         else (parseFields f [] (skipWs rest)).map (fun p => (Json.obj p.1, p.2)))
      else if c = 't' then
        (if strStarts (str "rue") rest then some (Json.bool true, rest.drop 3) else none)
      else if c = 'f' then
        (if strStarts (str "alse") rest then some (Json.bool false, rest.drop 4) else none)
      else if c = 'n' then
        (if strStarts (str "ull") rest then some (Json.null, rest.drop 3) else none)
      else (parseIntTok (c :: rest)).map (fun p => (Json.num p.1, p.2))

/-- Fueled parser for the elements of a non-empty JSON array, including the
closing bracket. -/
def parseElems : Nat → Str → Option (List Json × Str)
  | 0, _ => none
  | Nat.succ f, s =>
    match parseVal f s with
    | none => none
    | some (v, r) =>
      match skipWs r with
      | [] => none
      | c :: r2 =>
        if c = ',' then
          match parseElems f r2 with
          | none => none
          | some (xs, r3) => some (v :: xs, r3)
        else if c = ']' then some ([v], r2)
        else none

/-- Fueled parser for the members of a non-empty JSON object, including the
closing brace; fields accumulate left to right with jsSet (overwrite
semantics). -/
def parseFields : Nat → List (Str × Json) → Str → Option (List (Str × Json) × Str)
  | 0, _, _ => none
  | Nat.succ f, acc, s =>
    match skipWs s with
    | [] => none
    | c :: rest =>
      if c = '"' then
        match parseStrBody rest with
        | none => none
        | some (k, r) =>
          match skipWs r with
          | [] => none
          | c2 :: r2 =>
            if c2 = ':' then
              match parseVal f r2 with
              | none => none
              | some (v, r3) =>
                match skipWs r3 with
                | [] => none
                | c3 :: r4 =>
                  if c3 = ',' then parseFields f (jsSet acc k v) r4
                  else if c3 = '\x7d' then some (jsSet acc k v, r4)
                  else none
            else none
      else none

end

/-- Model of JSON.parse: parse one value, then require only whitespace to
remain.  The fuel bound is generous (the parser consumes at least one
character per two fuel units). -/
def jsonParse (s : Str) : Option Json :=
  match parseVal (2 * s.length + 2) s with
  | some (v, r) => if skipWs r = [] then some v else none
  | none => none

/-- Decimal digit character for a value below ten. -/
def digitChar : Nat → Char
  | 0 => '0'
  | 1 => '1'
  | 2 => '2'
  | 3 => '3'
  | 4 => '4'
  | 5 => '5'
  | 6 => '6'
  | 7 => '7'
  | 8 => '8'
  | 9 => '9'
  | _ => '*'

/-- Decimal representation of a natural number, most significant digit first
(fueled; one fuel unit per digit, so the value itself over-supplies it). -/
def natReprF : Nat → Nat → Str
  | 0, _ => []
  | Nat.succ fuel, n =>
    if n < 10 then [digitChar n]
    else natReprF fuel (n / 10) ++ [digitChar (n % 10)]

/-- Decimal representation of a natural number at its natural fuel. -/
def natRepr (n : Nat) : Str := natReprF (n + 1) n

/-- Decimal representation of an integer (String(n) / JSON for integers). -/
def intRepr : Int → Str
  | Int.ofNat n => natRepr n
  | Int.negSucc m => '-' :: natRepr (m + 1)

/-- JSON.stringify escaping of one string character.  Control characters
outside the named escapes are emitted raw; such characters cannot occur in a
value produced by jsonParse. -/
def quoteEsc (c : Char) : Str :=
  if c = '"' then ['\\', '"']
  else if c = '\\' then ['\\', '\\']
  else if c = '\n' then ['\\', 'n']
  else if c = '\r' then ['\\', 'r']
  else if c = '\t' then ['\\', 't']
  else if c = '\x08' then ['\\', 'b']
  else if c = '\x0c' then ['\\', 'f']
  else [c]

/-- JSON string literal for the given contents. -/
def quoteStr (s : Str) : Str := '"' :: (s.map quoteEsc).flatten ++ ['"']

mutual

/-- Compact JSON serialization, the model of JSON.stringify(v). -/
def stringifyC : Json → Str
  | Json.null => str "null"
  | Json.bool true => str "true"
  | Json.bool false => str "false"
  | Json.num n => intRepr n
  | Json.str s => quoteStr s
  | Json.arr xs => '[' :: stringifyCItems xs ++ [']']
  | Json.obj fs => '\x7b' :: stringifyCFields fs ++ ['\x7d']

/-- Comma-joined compact serializations of array elements. -/
def stringifyCItems : List Json → Str
  | [] => []
  | [x] => stringifyC x
  | x :: y :: xs => stringifyC x ++ ',' :: stringifyCItems (y :: xs)

/-- Comma-joined compact serializations of object members. -/
def stringifyCFields : List (Str × Json) → Str
  | [] => []
  | [(k, v)] => quoteStr k ++ ':' :: stringifyC v
  | (k, v) :: f :: fs => quoteStr k ++ ':' :: stringifyC v ++ ',' :: stringifyCFields (f :: fs)

end

/-- Two-space indentation at the given depth. -/
def ind (d : Nat) : Str := List.replicate (2 * d) ' '

mutual

/-- Pretty JSON serialization at a nesting depth, the model of
JSON.stringify(v, null, 2). -/
def stringifyP : Nat → Json → Str
  | _, Json.null => str "null"
  | _, Json.bool true => str "true"
  | _, Json.bool false => str "false"
  | _, Json.num n => intRepr n
  | _, Json.str s => quoteStr s
  | _, Json.arr [] => str "[]"
  | d, Json.arr (x :: xs) =>
    '[' :: '\n' :: stringifyPItems (d + 1) (x :: xs) ++ '\n' :: ind d ++ [']']
  | _, Json.obj [] => str "\x7b\x7d"
  | d, Json.obj (f :: fs) =>
    '\x7b' :: '\n' :: stringifyPFields (d + 1) (f :: fs) ++ '\n' :: ind d ++ ['\x7d']

/-- Indented, comma-newline-joined pretty serializations of array elements. -/
def stringifyPItems : Nat → List Json → Str
  | _, [] => []
  | d, [x] => ind d ++ stringifyP d x
  | d, x :: y :: xs => ind d ++ stringifyP d x ++ ',' :: '\n' :: stringifyPItems d (y :: xs)

/-- Indented, comma-newline-joined pretty serializations of object members. -/
def stringifyPFields : Nat → List (Str × Json) → Str
  | _, [] => []
  | d, [(k, v)] => ind d ++ quoteStr k ++ ':' :: ' ' :: stringifyP d v
  | d, (k, v) :: f :: fs =>
    ind d ++ quoteStr k ++ ':' :: ' ' :: stringifyP d v ++ ',' :: '\n' :: stringifyPFields d (f :: fs)

end

/-- Model of JSON.stringify(v, null, 2). -/
def jsonPretty (v : Json) : Str := stringifyP 0 v

/-- JavaScript truthiness of a JSON value. -/
def jsTruthy : Json → Bool
  | Json.null => false
  | Json.bool b => b
  | Json.num n => decide (n ≠ 0)
  | Json.str s => decide (s ≠ [])
  | Json.arr _ => true
  | Json.obj _ => true

mutual

/-- JavaScript string coercion of a JSON value (template-literal semantics). -/
def jsToString : Json → Str
  | Json.null => str "null"
  | Json.bool true => str "true"
  | Json.bool false => str "false"
  | Json.num n => intRepr n
  | Json.str s => s
  | Json.arr xs => jsJoinItems xs
  | Json.obj _ => str "[object Object]"

/-- Array.prototype.toString: elements joined by commas, null rendered empty. -/
def jsJoinItems : List Json → Str
  | [] => []
  | [Json.null] => []
  | [x] => jsToString x
  | Json.null :: y :: xs => ',' :: jsJoinItems (y :: xs)
  | x :: y :: xs => jsToString x ++ ',' :: jsJoinItems (y :: xs)

end

/-- First binding of a key in a parsed object (objects built by jsonParse have
unique keys, so this is the JavaScript property lookup). -/
def lookupField (fs : List (Str × Json)) (k : Str) : Option Json :=
  match fs with
  | [] => none
  | (k2, v) :: rest => if k2 = k then some v else lookupField rest k

/-- A quote character as the source's regexes treat them (single or double). -/
def quoteCh (c : Char) : Bool := c = '\'' || c = '"'

/-- Word character of the regex class backslash-w. -/
def wordChar (c : Char) : Bool := c.isAlpha || c.isDigit || c = '_'

/-- Case-insensitive literal match at the head of a string (the pattern is
given lower-case). -/
def strStartsCI : Str → Str → Bool
  | [], _ => true
  | _ :: _, [] => false
  | p :: ps, c :: cs => p = c.toLower && strStartsCI ps cs

/-- Leftmost-match scan: apply the single-position matcher at every suffix,
left to right, and return the first hit. -/
def scanFirst (f : Str → Option α) : Str → Option α
  | [] => f []
  | c :: cs =>
    match f (c :: cs) with
    | some r => some r
    | none => scanFirst f cs

/-- Match the scheme part https?:// (case-insensitive) at the head of the
string; returns the matched characters and the remainder. -/
def matchHttpAt : Str → Option (Str × Str)
  | c1 :: c2 :: c3 :: c4 :: rest =>
    if c1.toLower = 'h' && c2.toLower = 't' && c3.toLower = 't' && c4.toLower = 'p' then
      match rest with
      | ':' :: '/' :: '/' :: r => some ([c1, c2, c3, c4, ':', '/', '/'], r)
      | c5 :: ':' :: '/' :: '/' :: r =>
        if c5.toLower = 's' then some ([c1, c2, c3, c4, c5, ':', '/', '/'], r) else none
      | _ => none
    else none
  | _ => none

/-- Single-position matcher for the quoted URL pattern
(a quote, https?://, one or more non-quote characters, a quote). -/
def matchUrlQuotedAt : Str → Option Str
  | [] => none
  | q :: rest =>
    if quoteCh q then
      match matchHttpAt rest with
      | some (pre, r) =>
        let run := r.takeWhile (fun c => !quoteCh c)
        if run = [] then none
        else
          match r.drop run.length with
          | q2 :: _ => if quoteCh q2 then some (q :: pre ++ run ++ [q2]) else none
          | [] => none
      | none => none
    else none

/-- Single-position matcher for the unquoted URL pattern
(https?:// followed by one or more characters that are not whitespace or
quotes). -/
def matchUrlUnquotedAt (s : Str) : Option Str :=
  match matchHttpAt s with
  | some (pre, r) =>
    let run := r.takeWhile (fun c => !(wsChar c || quoteCh c))
    if run = [] then none else some (pre ++ run)
  | none => none

/-- JavaScript replace of all single and double quotes by nothing. -/
def stripQuotes (s : Str) : Str := s.filter (fun c => !quoteCh c)

/-- URL extraction of parseCurlCommand: the quoted pattern is tried over the
whole command first, then the unquoted one; the match has its quotes
stripped. -/
def urlOfCommand (command : Str) : Option Str :=
  match scanFirst matchUrlQuotedAt command with
  | some m => some (stripQuotes m)
  | none => (scanFirst matchUrlUnquotedAt command).map stripQuotes

/-- Single-position matcher for -X whitespace (word characters), returning the
captured method token. -/
def matchMethodAt : Str → Option Str
  | c1 :: c2 :: rest =>
    if c1 = '-' && (c2 = 'X' || c2 = 'x') then
      let ws := rest.takeWhile wsChar
      if ws = [] then none
      else
        let w := (rest.drop ws.length).takeWhile wordChar
        if w = [] then none else some w
    else none
  | _ => none

/-- Parse the inside of a quoted argument for the header and data regexes:
content is a sequence of escape pairs (backslash + non-line-terminator) or
plain characters other than backslash and the opening quote, up to a closing
quote matching the opening one.  Escapes are kept verbatim, as the source
keeps them.  Returns the content and the remainder after the closing
quote. -/
def quotedContent (q : Char) : Str → Option (Str × Str)
  | [] => none
  | '\\' :: c :: rest =>
    if c = '\n' || c = '\r' then none
    else
      match quotedContent q rest with
      | none => none
      | some (s, r) => some ('\\' :: c :: s, r)
  | ['\\'] => none
  | c :: rest =>
    if c = q then some ([], rest)
    else
      match quotedContent q rest with
      | none => none
      | some (s, r) => some (c :: s, r)

/-- After a matched flag: require whitespace, then a quoted argument; returns
the quote's content and the remainder after the match. -/
def quotedArgAfterFlag (rest : Str) : Option (Str × Str) :=
  let ws := rest.takeWhile wsChar
  if ws = [] then none
  else
    match rest.drop ws.length with
    | q :: r2 => if quoteCh q then quotedContent q r2 else none
    | [] => none

/-- Single-position matcher for -H or --header followed by a quoted argument
(both alternatives are tried at the position, as the regex engine does). -/
def matchHeaderAt (s : Str) : Option (Str × Str) :=
  (match s with
   | c1 :: c2 :: rest =>
     if c1 = '-' && c2.toLower = 'h' then quotedArgAfterFlag rest else none
   | _ => none) <|>
  (if strStartsCI (str "--header") s then quotedArgAfterFlag (s.drop 8) else none)

/-- Global scan for header matches: continue after each match, advance one
position otherwise.  The fuel (instantiated with the string length) dominates
the number of iterations, since every iteration consumes at least one
character. -/
def scanHeadersF : Nat → Str → List Str
  | 0, _ => []
  | _, [] => []
  | Nat.succ f, c :: cs =>
    match matchHeaderAt (c :: cs) with
    | some (content, rest) => content :: scanHeadersF f rest
    | none => scanHeadersF f cs

/-- Split a header line at its first colon (colon required at a positive
index); both sides trimmed. -/
def headerPairOf (content : Str) : Option (Str × Str) :=
  match content.findIdx? (fun c => c = ':') with
  | some i => if 0 < i then some (jsTrim (content.take i), jsTrim (content.drop (i + 1))) else none
  | none => none

/-- JavaScript object property write on an association list: a later duplicate
key overwrites the value but keeps the first occurrence's position. -/
def setStrField (hs : List (Str × Str)) (k v : Str) : List (Str × Str) :=
  if hs.any (fun p => p.1 = k) then
    hs.map (fun p => if p.1 = k then (k, v) else p)
  else hs ++ [(k, v)]

/-- Header extraction of parseCurlCommand. -/
def headersOfCommand (command : Str) : List (Str × Str) :=
  (scanHeadersF command.length command).foldl
    (fun hs content =>
      match headerPairOf content with
      | some (k, v) => setStrField hs k v
      | none => hs)
    []

/-- After a matched flag: require whitespace, then an unquoted token (one or
more non-whitespace characters). -/
def tokenArgAfterFlag (rest : Str) : Option Str :=
  let ws := rest.takeWhile wsChar
  if ws = [] then none
  else
    let tok := (rest.drop ws.length).takeWhile (fun c => !wsChar c)
    if tok = [] then none else some tok

/-- Try a list of case-insensitive literal flags at one position, each
followed by the given argument matcher (regex alternation order). -/
def tryFlagsThen (flags : List Str) (after : Str → Option Str) (s : Str) : Option Str :=
  match flags with
  | [] => none
  | f :: fs =>
    (if strStartsCI f s then after (s.drop f.length) else none) <|> tryFlagsThen fs after s

/-- Body extraction of parseCurlCommand: the four data patterns are tried in
the source's order, each over the whole command. -/
def bodyOfCommand (command : Str) : Option Str :=
  scanFirst (tryFlagsThen [str "--data-raw", str "--data-binary"]
    (fun r => (quotedArgAfterFlag r).map Prod.fst)) command <|>
  scanFirst (tryFlagsThen [str "-d", str "--data"]
    (fun r => (quotedArgAfterFlag r).map Prod.fst)) command <|>
  scanFirst (tryFlagsThen [str "--data-raw", str "--data-binary"] tokenArgAfterFlag) command <|>
  scanFirst (tryFlagsThen [str "-d", str "--data"] tokenArgAfterFlag) command

/-- Normalization prelude of parseCurlCommand: trim, strip a leading
case-insensitive curl token, collapse whitespace runs, trim again. -/
def curlNormalize (curlCommand : Str) : Str :=
  let command := jsTrim curlCommand
  let command := if strStartsCI (str "curl") command then jsTrim (command.drop 4) else command
  jsTrim (collapseWs command)

/-- The canonical request representation, after the declared TypeScript
interface HttpRequestConfig: method?, url, headers, body (text or structured
value). -/
structure HttpRequestConfig where
  method : Option Str
  url : Str
  headers : List (Str × Str)
  body : Option Json

/-- Model of parseCurlCommand. -/
def parseCurlCommand (curlCommand : Str) : Option HttpRequestConfig :=
  let command := curlNormalize curlCommand
  match urlOfCommand command with
  | none => none
  | some url =>
    let method :=
      match scanFirst matchMethodAt command with
      | some w => w.map Char.toUpper
      | none => str "GET"
    some
      { method := some method
        url := url
        headers := headersOfCommand command
        body := (bodyOfCommand command).map Json.str }

/-- The method field of the structured branch: parsed.method or GET on a
falsy value, coerced to text. -/
def methodOfField : Option Json → Str
  | none => str "GET"
  | some v => if jsTruthy v then jsToString v else str "GET"

/-- Object.entries on a JSON value, with values coerced to text (the declared
interface types header values as strings; non-string values are outside the
typed embedding and are represented by their string coercion). -/
def jsEntries : Json → List (Str × Str)
  | Json.obj fs => fs.map (fun p => (p.1, jsToString p.2))
  | Json.arr xs => xs.enum.map (fun p => (natRepr p.1, jsToString p.2))
  | Json.str s => s.enum.map (fun p => (natRepr p.1, [p.2]))
  | _ => []

/-- The headers field of the structured branch: parsed.headers or empty on a
falsy value. -/
def headersOfField : Option Json → List (Str × Str)
  | none => []
  | some v => if jsTruthy v then jsEntries v else []

/-- The structured branch of parseHttpRequest: a decoded JSON value yields a
config exactly when it carries a truthy url field (any truthy value passes
the guard, also a non-string one such as a number; the declared interface
types url as a string, so a non-string value is represented by its string
coercion, the convention already used for method and header values); the
body field is carried through verbatim. -/
def configOfJson (parsed : Json) : Option HttpRequestConfig :=
  match parsed with
  | Json.obj fs =>
    (match lookupField fs (str "url") with
     | some uval =>
       if jsTruthy uval then
         some
           { method := some (methodOfField (lookupField fs (str "method")))
             url := jsToString uval
             headers := headersOfField (lookupField fs (str "headers"))
             body := lookupField fs (str "body") }
       else none
     | none => none)
  | _ => none

/-- Model of parseHttpRequest: brace- or bracket-led input tries the
structured branch; on any failure there the input falls through to curl
parsing. -/
def parseHttpRequest (content : Str) : Option HttpRequestConfig :=
  let trimmed := jsTrim content
  if trimmed.head? = some '\x7b' || trimmed.head? = some '[' then
    match (jsonParse trimmed).bind configOfJson with
    | some cfg => some cfg
    | none => parseCurlCommand trimmed
  else parseCurlCommand trimmed

/-- Escape double quotes with a backslash (for header values and the URL). -/
def escDq (s : Str) : Str :=
  (s.map (fun c => if c = '"' then ['\\', '"'] else [c])).flatten

/-- Shell-escape single quotes (quote, backslash, quote, quote). -/
def escSq (s : Str) : Str :=
  (s.map (fun c => if c = '\'' then ['\'', '\\', '\'', '\''] else [c])).flatten

/-- The body text the builder embeds: a string body verbatim, any other value
through compact JSON serialization. -/
def bodyStrOf : Json → Str
  | Json.str s => s
  | v => stringifyC v

/-- Model of buildCurlCommand: the fixed flags, the write-out status marker,
the method flag when truthy and not GET, one -H per header, the body behind
-d, and the quote-escaped URL last. -/
def buildCurlCommand (config : HttpRequestConfig) : Str :=
  let c1 := str "curl" ++ str " -i" ++ str " -s" ++ str " -S"
  let c2 := c1 ++ str " -w \"\\nHTTPSTATUS:%\x7bhttp_code\x7d\""
  let c3 :=
    match config.method with
    | some m => if m ≠ [] ∧ m ≠ str "GET" then c2 ++ str " -X " ++ m else c2
    | none => c2
  let c4 := config.headers.foldl
    (fun acc kv => acc ++ str " -H \"" ++ kv.1 ++ str ": " ++ escDq kv.2 ++ str "\"") c3
  let c5 :=
    match config.body with
    | some b => if jsTruthy b then c4 ++ str " -d '" ++ escSq (bodyStrOf b) ++ str "'" else c4
    | none => c4
  c5 ++ str " \"" ++ escDq config.url ++ str "\""

/-- The fixed status-text lookup table of getStatusText. -/
def getStatusText (code : Nat) : Str :=
  if code = 200 then str "OK"
  else if code = 201 then str "Created"
  else if code = 204 then str "No Content"
  else if code = 400 then str "Bad Request"
  else if code = 401 then str "Unauthorized"
  else if code = 403 then str "Forbidden"
  else if code = 404 then str "Not Found"
  else if code = 422 then str "Unprocessable Entity"
  else if code = 500 then str "Internal Server Error"
  else if code = 502 then str "Bad Gateway"
  else if code = 503 then str "Service Unavailable"
  else str "Unknown"

/-- Match HTTPSTATUS: followed by exactly-scanned three digits at the head;
returns the code and the remainder after the digits. -/
def markerAt (s : Str) : Option (Nat × Str) :=
  if strStarts (str "HTTPSTATUS:") s then
    match s.drop 11 with
    | d1 :: d2 :: d3 :: rest =>
      if d1.isDigit && d2.isDigit && d3.isDigit then
        some (100 * digitVal d1 + 10 * digitVal d2 + digitVal d3, rest)
      else none
    | _ => none
  else none

/-- The first status-marker code in the text (the match of
HTTPSTATUS:(three digits)). -/
def markerCodeOf (s : Str) : Option Nat :=
  scanFirst (fun t => (markerAt t).map Prod.fst) s

/-- Global substitution removing every scan-time match of the marker followed
by optional whitespace (fueled; the fuel, instantiated with the length,
dominates the iteration count since every step consumes a character). -/
def gsubMarkerF : Nat → Str → Str
  | 0, s => s
  | _, [] => []
  | Nat.succ f, c :: cs =>
    match markerAt (c :: cs) with
    | some (_, rest) => gsubMarkerF f (rest.dropWhile wsChar)
    | none => c :: gsubMarkerF f cs

/-- JavaScript replace of all HTTPSTATUS markers (and trailing whitespace)
by nothing. -/
def gsubMarker (s : Str) : Str := gsubMarkerF s.length s

/-- The suffix after the next newline, if any (for multiline anchors). -/
def afterNextNl : Str → Option Str
  | [] => none
  | c :: cs => if c = '\n' then some cs else afterNextNl cs

/-- Dropping to after a newline shortens the string. -/
theorem afterNextNl_length {s s2 : Str} (h : afterNextNl s = some s2) :
    s2.length < s.length := by
  induction s with
  | nil => simp [afterNextNl] at h
  | cons c cs ih =>
    rw [afterNextNl] at h
    by_cases hc : c = '\n'
    · subst hc
      rw [if_pos rfl] at h
      cases h
      simp
    · rw [if_neg hc] at h
      exact Nat.lt_trans (ih h) (by simp)

/-- Leftmost match of a single-position matcher over all line starts
(the multiline caret).  Fueled: every hop moves past a newline, so the
number of hops is at most the length. -/
def lineStartsScanF (f : Str → Option α) : Nat → Str → Option α
  | 0, _ => none
  | Nat.succ fu, s =>
    match f s with
    | some r => some r
    | none =>
      match afterNextNl s with
      | some s2 => lineStartsScanF f fu s2
      | none => none

/-- The line-start scan at its natural fuel. -/
def lineStartsScan (f : Str → Option α) (s : Str) : Option α :=
  lineStartsScanF f (s.length + 1) s

/-- Core of the four protocol status-line patterns: HTTP/ then digits and
dots, a space, three digits, and (when a phrase is required) a space and a
lazily-matched phrase running to the line end.  Returns the code and the raw
phrase (empty without a phrase). -/
def httpStatusAt (needPhrase : Bool) (s : Str) : Option (Nat × Str) :=
  if strStarts (str "HTTP/") s then
    let rest := s.drop 5
    let run := rest.takeWhile (fun c => c.isDigit || c = '.')
    if run = [] then none
    else
      match rest.drop run.length with
      | ' ' :: d1 :: d2 :: d3 :: r2 =>
        if d1.isDigit && d2.isDigit && d3.isDigit then
          let code := 100 * digitVal d1 + 10 * digitVal d2 + digitVal d3
          if needPhrase then
            match r2 with
            | ' ' :: r3 =>
              let phrase := r3.takeWhile (fun c => c ≠ '\n' && c ≠ '\r')
              if phrase = [] then none
              else
                (match r3.drop phrase.length with
                 | [] => some (code, phrase)
                 | '\n' :: _ => some (code, phrase)
                 | '\r' :: '\n' :: _ => some (code, phrase)
                 | _ => none)
            | _ => none
          else
            (match r2 with
             | [] => some (code, [])
             | '\n' :: _ => some (code, [])
             | '\r' :: '\n' :: _ => some (code, [])
             | _ => none)
        else none
      | _ => none
  else none

/-- The verbose-mode variants, prefixed by a less-than sign and a space,
matched anywhere. -/
def verboseStatusAt (needPhrase : Bool) (s : Str) : Option (Nat × Str) :=
  match s with
  | '<' :: ' ' :: r => httpStatusAt needPhrase r
  | _ => none

/-- The four status-line patterns in the source's order; the second component
is the captured phrase when the matching pattern had one. -/
def statusFromLines (out : Str) : Option (Nat × Option Str) :=
  match lineStartsScan (httpStatusAt true) out with
  | some (c, p) => some (c, some p)
  | none =>
    match lineStartsScan (httpStatusAt false) out with
    | some (c, _) => some (c, none)
    | none =>
      match scanFirst (verboseStatusAt true) out with
      | some (c, p) => some (c, some p)
      | none =>
        match scanFirst (verboseStatusAt false) out with
        | some (c, _) => some (c, none)
        | none => none

/-- Three consecutive digits at the head. -/
def find3DigitsAt : Str → Option Nat
  | d1 :: d2 :: d3 :: _ =>
    if d1.isDigit && d2.isDigit && d3.isDigit then
      some (100 * digitVal d1 + 10 * digitVal d2 + digitVal d3)
    else none
  | _ => none

/-- Leftmost index of a pattern occurrence (String.prototype.indexOf). -/
def idxOfSubAux (i : Nat) (pat : Str) : Str → Option Nat
  | [] => if strStarts pat [] then some i else none
  | c :: cs => if strStarts pat (c :: cs) then some i else idxOfSubAux (i + 1) pat cs

/-- Leftmost index of a pattern occurrence, from the start. -/
def idxOfSub (s pat : Str) : Option Nat := idxOfSubAux 0 pat s

/-- The header-end heuristic used when no blank-line separator exists: walk
lines, skip protocol status lines without moving the counter, stop at the
first non-empty line without a colon. -/
def headerEndIdxGo (i acc : Nat) : List Str → Nat
  | [] => acc
  | l :: ls =>
    let t := jsTrim l
    if strStarts (str "HTTP/") t then headerEndIdxGo (i + 1) acc ls
    else if t ≠ [] ∧ containsSub t [':'] = false then i
    else headerEndIdxGo (i + 1) (i + 1) ls

/-- Split the tool output into header and body sections: a double CRLF
boundary, then a double LF boundary, then the heuristic scan. -/
def splitHeadersBody (output : Str) : Str × Str :=
  match idxOfSub output (str "\r\n\r\n") with
  | some i => (output.take i, output.drop (i + 4))
  | none =>
    match idxOfSub output (str "\n\n") with
    | some i => (output.take i, output.drop (i + 2))
    | none =>
      let lines := splitCrLf output
      let hEnd := headerEndIdxGo 0 0 lines
      (List.intercalate ['\n'] (lines.take hEnd), List.intercalate ['\n'] (lines.drop hEnd))

/-- Parse the header section: per line, skip protocol status lines, split at
the first colon, trim both sides, keep pairs with a non-empty key. -/
def parseHeaderLines (headerSection : Str) : List (Str × Str) :=
  (splitCrLf headerSection).foldl
    (fun hs line =>
      let t := jsTrim line
      if strStarts (str "HTTP/") t then hs
      else if containsSub t [':'] then
        match t.findIdx? (fun c => c = ':') with
        | some i =>
          let key := jsTrim (t.take i)
          let value := jsTrim (t.drop (i + 1))
          if key ≠ [] then setStrField hs key value else hs
        | none => hs
      else hs)
    []

/-- The canonical response representation, after the TypeScript interface
HttpRequestResult; parseCurlResponse never sets the optional error field. -/
structure HttpRequestResult where
  statusCode : Nat
  statusText : Str
  headers : List (Str × Str)
  body : Str
  error : Option Str

/-- Output-stream selection of parseCurlResponse: trimmed stdout, falling
back to trimmed stderr when stdout is blank and stderr mentions HTTP/. -/
def selectOutput (stdout stderr : Str) : Str :=
  let o := jsTrim stdout
  if o = [] then
    if stderr ≠ [] ∧ containsSub stderr (str "HTTP/") then jsTrim stderr else o
  else o

/-- Model of parseCurlResponse. -/
def parseCurlResponse (stdout stderr : Str) : HttpRequestResult :=
  let output0 := selectOutput stdout stderr
  if output0 = [] then
    { statusCode := 0, statusText := str "Unknown", headers := [], body := [], error := none }
  else
    let marker := markerCodeOf output0
    let output := match marker with
      | some _ => jsTrim (gsubMarker output0)
      | none => output0
    let st1 : Nat × Str := match marker with
      | some n => (n, getStatusText n)
      | none => (0, str "Unknown")
    let st2 : Nat × Str :=
      if st1.1 = 0 then
        match statusFromLines output with
        | some (c, some p) => (c, jsTrim p)
        | some (c, none) => (c, getStatusText c)
        | none => st1
      else st1
    let st3 : Nat × Str :=
      if st2.1 = 0 then
        match scanFirst find3DigitsAt ((splitCrLf output).headD []) with
        | some c => (c, getStatusText c)
        | none => st2
      else st2
    let hb := splitHeadersBody output
    { statusCode := st3.1
      statusText := st3.2
      headers := parseHeaderLines hb.1
      body := jsTrim (gsubMarker hb.2)
      error := none }

/-- dropWhile never lengthens a list. -/
theorem dropWhile_length_le (p : Char → Bool) (l : Str) :
    (l.dropWhile p).length ≤ l.length := by
  induction l with
  | nil => simp
  | cons c cs ih =>
    rw [List.dropWhile_cons]
    by_cases h : p c = true
    · simp only [h, if_true]
      exact Nat.le_trans ih (Nat.le_succ _)
    · simp [h]

/-- Is the head of the string a whitespace character? -/
def headWs : Str → Bool
  | c :: _ => wsChar c
  | [] => false

/-- The whitespace-compression pass of formatXML: every occurrence of a
greater-than sign, whitespace, less-than sign loses the whitespace.  Fueled
structural recursion; the fuel, instantiated with the length, dominates the
iteration count since every step consumes at least one character. -/
def xmlCompressF : Nat → Str → Str
  | 0, s => s
  | Nat.succ f, s =>
    match s with
    | [] => []
    | c :: cs =>
      if c = '>' then
        if headWs cs ∧ (cs.dropWhile wsChar).head? = some '<' then
          '>' :: xmlCompressF f (cs.dropWhile wsChar)
        else '>' :: xmlCompressF f cs
      else c :: xmlCompressF f cs

/-- JavaScript replace of greater-than, whitespace run, less-than by the
adjacent pair, globally. -/
def xmlCompress (s : Str) : Str := xmlCompressF s.length s

/-- The indentation loop of formatXML: at every boundary between a
greater-than and a less-than sign, emit a newline and the indent; a single
slash after the less-than sign is a closing tag (depth decreases before the
emit), anything else is treated as an opening tag (depth increases after the
emit).  A closing boundary at depth zero is the model of the negative-count
RangeError the source's repeat call throws.  Fueled as xmlCompressF. -/
def xmlInsertF : Nat → Str → Nat → Option Str
  | 0, s, _ => some s
  | Nat.succ f, s, d =>
    match s with
    | [] => some []
    | c :: cs =>
      if c = '>' ∧ cs.head? = some '<' then
        let rest := cs.tail
        let sl := rest.takeWhile (fun x => x = '/')
        let rest2 := rest.drop sl.length
        if sl = ['/'] then
          if d = 0 then none
          else (xmlInsertF f rest2 (d - 1)).map
            (fun t => '>' :: '\n' :: (ind (d - 1) ++ '<' :: sl ++ t))
        else (xmlInsertF f rest2 (d + 1)).map
          (fun t => '>' :: '\n' :: (ind d ++ '<' :: sl ++ t))
      else (xmlInsertF f cs d).map (fun t => c :: t)

/-- The indentation loop at its natural fuel. -/
def xmlInsert (s : Str) (d : Nat) : Option Str := xmlInsertF s.length s d

/-- Model of formatXML: compress inter-tag whitespace, trim, then run the
indentation loop at depth zero; none models the thrown RangeError. -/
def formatXML (xml : Str) : Option Str :=
  xmlInsert (jsTrim (xmlCompress xml)) 0

/-- The JSON-branch guard of formatResponseBody: a JSON content type or
brace/bracket delimiters on the trimmed body. -/
def jsonBranchCond (trimmedBody : Str) (contentType : Option Str) : Bool :=
  (match contentType with
   | some ct => containsSub ct (str "application/json")
   | none => false)
  || (trimmedBody.head? = some '\x7b' && strEnds trimmedBody (str "\x7d"))
  || (trimmedBody.head? = some '[' && strEnds trimmedBody (str "]"))

/-- The XML-branch guard of formatResponseBody (evaluated on the trimmed
body). -/
def xmlBranchCond (trimmedBody : Str) (contentType : Option Str) : Bool :=
  (match contentType with
   | some ct => containsSub ct (str "xml")
   | none => false)
  || ((strStarts (str "<?xml") trimmedBody || trimmedBody.head? = some '<')
      && strEnds trimmedBody (str ">"))

/-- Model of formatResponseBody continued: blank bodies pass through; the
JSON branch pretty-prints a decodable trimmed body (decode failure falls
through); the XML branch formats (a formatter throw falls through to the
original body); otherwise the body is returned unchanged. -/
def formatResponseBody (body : Str) (contentType : Option Str) : Str :=
  if body = [] ∨ jsTrim body = [] then body
  else
    let trimmedBody := jsTrim body
    match (if jsonBranchCond trimmedBody contentType
           then (jsonParse trimmedBody).map jsonPretty else none) with
    | some out => out
    | none =>
      if xmlBranchCond trimmedBody contentType then
        match formatXML trimmedBody with
        | some out => out
        | none => body
      else body

/-- One markdown-style request section of the code-lens provider (line
numbers 0-based, inclusive). -/
structure RequestSection where
  title : Str
  titleLine : Nat
  startLine : Nat
  endLine : Nat

/-- The capture group of the heading regex (two hashes, whitespace, a
non-empty remainder of non-line-terminator characters); the greedy
whitespace run is maximized, as the regex engine does. -/
def headingCapAux : Str → Option Str
  | [] => none
  | c :: cs =>
    if wsChar c then
      match headingCapAux cs with
      | some t => some t
      | none =>
        if cs ≠ [] ∧ cs.all (fun ch => ch ≠ '\n' && ch ≠ '\r') then some cs else none
    else none

/-- Match a line against the heading pattern, returning the captured title. -/
def headingCapture : Str → Option Str
  | '#' :: '#' :: rest => headingCapAux rest
  | _ => none

/-- Does a line open a section? -/
def isHeading (line : Str) : Bool := (headingCapture line).isSome

/-- The section-collection loop of parseRequestSections: a heading closes the
open section at the previous line and opens a new one reaching, tentatively,
the last document line. -/
def parseSectionsLoop (n : Nat) : List Str → Nat → Option RequestSection → List RequestSection
  | [], _, cur =>
    (match cur with
     | none => []
     | some s => [{ s with endLine := n - 1 }])
  | l :: ls, i, cur =>
    match headingCapture l with
    | some t =>
      let newSec : RequestSection :=
        { title := jsTrim t, titleLine := i, startLine := i, endLine := n - 1 }
      (match cur with
       | some s => { s with endLine := i - 1 } :: parseSectionsLoop n ls (i + 1) (some newSec)
       | none => parseSectionsLoop n ls (i + 1) (some newSec))
    | none => parseSectionsLoop n ls (i + 1) cur

/-- Model of HttpCodeLensProvider.parseRequestSections: the document text is
split on newlines and scanned for headings. -/
def parseRequestSections (text : Str) : List RequestSection :=
  let lines := splitOnChar '\n' text
  parseSectionsLoop lines.length lines 0 none

/-- strStarts is prefix decomposition. -/
theorem strStarts_iff {p s : Str} : strStarts p s = true ↔ ∃ r, s = p ++ r := by
  induction p generalizing s with
  | nil => simp [strStarts]
  | cons a ps ih =>
    cases s with
    | nil =>
      simp [strStarts]
    | cons c cs =>
      simp only [strStarts, Bool.and_eq_true, decide_eq_true_eq, ih, List.cons_append,
        List.cons.injEq]
      constructor
      · rintro ⟨rfl, r, rfl⟩
        exact ⟨r, rfl, rfl⟩
      · rintro ⟨r, rfl, rfl⟩
        exact ⟨rfl, r, rfl⟩

/-- A string starts with itself followed by anything. -/
theorem strStarts_self_append (p z : Str) : strStarts p (p ++ z) = true :=
  strStarts_iff.mpr ⟨z, rfl⟩

/-- Substring containment is middle decomposition. -/
theorem containsSub_iff {s pat : Str} : containsSub s pat = true ↔ ∃ x y, s = x ++ pat ++ y := by
  induction s with
  | nil =>
    simp only [containsSub, strStarts_iff]
    constructor
    · rintro ⟨r, hr⟩
      exact ⟨[], r, by simp [← hr]⟩
    · rintro ⟨x, y, hxy⟩
      cases x with
      | nil => exact ⟨y, by simpa using hxy.symm⟩
      | cons a as => simp at hxy
  | cons c cs ih =>
    simp only [containsSub, Bool.or_eq_true, strStarts_iff, ih]
    constructor
    · rintro (⟨r, hr⟩ | ⟨x, y, hxy⟩)
      · exact ⟨[], r, by simp [hr]⟩
      · exact ⟨c :: x, y, by simp [hxy]⟩
    · rintro ⟨x, y, hxy⟩
      cases x with
      | nil => exact Or.inl ⟨y, by simpa using hxy⟩
      | cons a as =>
        simp only [List.cons_append, List.cons.injEq] at hxy
        exact Or.inr ⟨as, y, by simp [hxy.2]⟩

/-- Containment extends to a superstring on the left. -/
theorem containsSub_append_right {s pat : Str} (a : Str) (h : containsSub s pat = true) :
    containsSub (a ++ s) pat = true := by
  rcases containsSub_iff.mp h with ⟨x, y, rfl⟩
  exact containsSub_iff.mpr ⟨a ++ x, y, by simp⟩

/-- Containment extends to a superstring on the right. -/
theorem containsSub_append_left {s pat : Str} (h : containsSub s pat = true) (b : Str) :
    containsSub (s ++ b) pat = true := by
  rcases containsSub_iff.mp h with ⟨x, y, rfl⟩
  exact containsSub_iff.mpr ⟨x, y ++ b, by simp⟩

/-- Every string ends with its own suffix. -/
theorem strEnds_append (x y : Str) : strEnds (x ++ y) y = true := by
  unfold strEnds
  rw [List.reverse_append]
  exact strStarts_self_append _ _

/-- A successful leftmost scan comes from a successful match at some suffix. -/
theorem scanFirst_some {f : Str → Option α} {s : Str} {r : α} (h : scanFirst f s = some r) :
    ∃ t, f t = some r := by
  induction s with
  | nil =>
    exact ⟨[], by simpa [scanFirst] using h⟩
  | cons c cs ih =>
    rw [scanFirst] at h
    cases hf : f (c :: cs) with
    | some v =>
      rw [hf] at h
      exact ⟨c :: cs, by rw [hf]; exact h⟩
    | none =>
      rw [hf] at h
      exact ih h

/-- The head surviving a dropWhile fails the predicate. -/
theorem dropWhile_head_not {p : Char → Bool} {l : Str} {c : Char}
    (h : (l.dropWhile p).head? = some c) : p c = false := by
  induction l with
  | nil => simp [List.dropWhile] at h
  | cons a as ih =>
    rw [List.dropWhile_cons] at h
    by_cases hp : p a = true
    · rw [if_pos hp] at h
      exact ih h
    · rw [if_neg hp] at h
      simp only [List.head?_cons, Option.some.injEq] at h
      subst h
      simpa using hp

/-- dropWhile is the identity when the head fails the predicate. -/
theorem dropWhile_eq_self_of_head {p : Char → Bool} {l : Str}
    (h : ∀ c, l.head? = some c → p c = false) : l.dropWhile p = l := by
  cases l with
  | nil => rfl
  | cons a as =>
    rw [List.dropWhile_cons, if_neg]
    simp [h a rfl]

/-- dropWhile is idempotent. -/
theorem dropWhile_idem (p : Char → Bool) (l : Str) :
    (l.dropWhile p).dropWhile p = l.dropWhile p :=
  dropWhile_eq_self_of_head (fun _ h => dropWhile_head_not h)

/-- trimRight keeps the head or empties the string. -/
theorem trimRight_head (x : Str) : trimRight x = [] ∨ (trimRight x).head? = x.head? := by
  cases x with
  | nil => exact Or.inl rfl
  | cons c cs =>
    unfold trimRight
    rw [List.reverse_cons, List.dropWhile_append]
    by_cases he : (cs.reverse.dropWhile wsChar).isEmpty
    · rw [if_pos he]
      by_cases hw : wsChar c = true
      · simp [List.dropWhile, hw]
      · simp [List.dropWhile, hw]
    · rw [if_neg he]
      rw [List.reverse_append]
      simp

/-- trimRight is idempotent. -/
theorem trimRight_idem (x : Str) : trimRight (trimRight x) = trimRight x := by
  unfold trimRight
  rw [List.reverse_reverse, dropWhile_idem]

/-- The full trim is idempotent. -/
theorem jsTrim_idem (s : Str) : jsTrim (jsTrim s) = jsTrim s := by
  unfold jsTrim
  have hx : trimLeft (trimRight (trimLeft s)) = trimRight (trimLeft s) := by
    rcases trimRight_head (trimLeft s) with he | hh
    · rw [he]; rfl
    · apply dropWhile_eq_self_of_head
      intro c hc
      rw [hh] at hc
      exact dropWhile_head_not hc
  rw [hx, trimRight_idem]

/-- trim is the identity on strings with non-whitespace ends. -/
theorem jsTrim_eq_self {t : Str} (h1 : ∀ c, t.head? = some c → wsChar c = false)
    (h2 : ∀ c, t.getLast? = some c → wsChar c = false) : jsTrim t = t := by
  unfold jsTrim trimLeft trimRight
  rw [dropWhile_eq_self_of_head h1, dropWhile_eq_self_of_head (fun c hc => by
    rw [List.head?_reverse] at hc
    exact h2 c hc), List.reverse_reverse]

/-- C2: ResponseParser.parse on the synthetic tool output consisting of the
line HTTP/1.1 200 OK, CRLF, a Content-Type header, a blank line, the JSON
body, a newline and HTTPSTATUS:200, with empty stderr, yields statusCode 200,
the Content-Type header mapped to application/json, and exactly the JSON body
with the marker stripped. -/
theorem responseParse_synthetic :
    parseCurlResponse
      (str "HTTP/1.1 200 OK\r\nContent-Type: application/json\r\n\r\n\x7b\"a\":1\x7d\nHTTPSTATUS:200")
      (str "") =
    { statusCode := 200
      statusText := str "OK"
      headers := [(str "Content-Type", str "application/json")]
      body := str "\x7b\"a\":1\x7d"
      error := none } := by
  rfl

/-- C7 counterexample: on the input with two self-closing siblings inside a
root element, the formatter emits the element following the self-closing
sibling two spaces deeper than that sibling (leading-space counts 0 and 2),
refuting the claim that self-closing tags do not alter the depth. -/
theorem formatXML_selfclosing_counterexample :
    formatXML (str "<r><a/><b/></r>") = some (str "<r>\n<a/>\n  <b/>\n  </r>") ∧
    (splitOnChar '\n' (str "<r>\n<a/>\n  <b/>\n  </r>")).map leadingSpaces = [0, 0, 2, 2] := by
  constructor
  · rfl
  · rfl

/-- C7 amended: the boundary classifier only inspects the slashes after the
less-than sign, so a boundary whose next tag is not a closing tag — in
particular any boundary right after a self-closing tag, and the boundary
before a self-closing sibling — increments the depth exactly like an opening
tag, and only a closing boundary decrements it before emitting; hence an
element following a self-closing sibling tag is emitted one level deeper than
that sibling, as the concrete instance shows. -/
theorem formatXML_depth_amended :
    (∀ f rest d, rest.takeWhile (fun c => c = '/') ≠ ['/'] →
      xmlInsertF (f + 1) ('>' :: '<' :: rest) d =
        (xmlInsertF f (rest.drop (rest.takeWhile (fun c => c = '/')).length) (d + 1)).map
          (fun t => '>' :: '\n' :: (ind d ++ '<' :: rest.takeWhile (fun c => c = '/') ++ t)))
    ∧ (∀ f rest d, rest.takeWhile (fun c => c = '/') = ['/'] → d ≠ 0 →
      xmlInsertF (f + 1) ('>' :: '<' :: rest) d =
        (xmlInsertF f (rest.drop 1) (d - 1)).map
          (fun t => '>' :: '\n' :: (ind (d - 1) ++ '<' :: '/' :: t)))
    ∧ (formatXML (str "<r><a/><b/></r>") = some (str "<r>\n<a/>\n  <b/>\n  </r>") ∧
       (splitOnChar '\n' (str "<r>\n<a/>\n  <b/>\n  </r>")).map leadingSpaces = [0, 0, 2, 2]) := by
  refine ⟨?_, ?_, rfl, rfl⟩
  · intro f rest d hsl
    rw [xmlInsertF]
    simp only [List.head?_cons, List.tail_cons]
    rw [if_pos ⟨trivial, trivial⟩, if_neg hsl]
  · intro f rest d hsl hd
    rw [xmlInsertF]
    simp only [List.head?_cons, List.tail_cons]
    rw [if_pos ⟨trivial, trivial⟩]
    simp [hsl, hd]

/-- C7 amended witness: the step equations instantiated at a concrete opening
boundary and a concrete closing boundary. -/
theorem formatXML_depth_amended_witness :
    xmlInsertF 4 ('>' :: '<' :: str "a/>") 0 =
      (xmlInsertF 3 (str "a/>") 1).map (fun t => '>' :: '\n' :: (ind 0 ++ '<' :: [] ++ t)) ∧
    xmlInsertF 3 ('>' :: '<' :: str "/r>") 1 =
      (xmlInsertF 2 (str "r>") 0).map (fun t => '>' :: '\n' :: (ind 0 ++ '<' :: '/' :: t)) := by
  constructor
  · exact formatXML_depth_amended.1 3 (str "a/>") 0 (by decide)
  · exact formatXML_depth_amended.2.1 2 (str "/r>") 1 (by decide) (by decide)

/-- C10 counterexample: the single left-to-right substitution pass can create
a new marker occurrence out of the removed one, so the returned body can still
contain a marker: on this stdout the final body is exactly HTTPSTATUS:789,
which the marker matcher still matches. -/
theorem response_body_marker_counterexample :
    (parseCurlResponse (str "A: B\n\nHTTPSTATUS:HTTPSTATUS:HTTPSTATUS:123456789") (str "")).body
      = str "HTTPSTATUS:789" ∧
    markerCodeOf (str "HTTPSTATUS:789") = some 789 := by
  exact ⟨rfl, rfl⟩

/-- The body section of the tool output before the final cleanup: stream
selection, marker stripping of the whole output, and the header/body split. -/
def responseBodySection (stdout stderr : Str) : Str :=
  let output0 := selectOutput stdout stderr
  if output0 = [] then []
  else
    (splitHeadersBody
      (match markerCodeOf output0 with
       | some _ => jsTrim (gsubMarker output0)
       | none => output0)).2

/-- C10 amended: the returned body is the recovered body section with one
left-to-right global marker-substitution pass applied and the result trimmed
(so it never carries leading or trailing whitespace); marker occurrences newly
formed by the removal itself can survive the pass. -/
theorem response_body_amended (stdout stderr : Str) :
    (parseCurlResponse stdout stderr).body
      = jsTrim (gsubMarker (responseBodySection stdout stderr)) ∧
    jsTrim (parseCurlResponse stdout stderr).body = (parseCurlResponse stdout stderr).body := by
  have hbody : (parseCurlResponse stdout stderr).body
      = jsTrim (gsubMarker (responseBodySection stdout stderr)) := by
    unfold parseCurlResponse responseBodySection
    by_cases h : selectOutput stdout stderr = []
    · simp only [h, if_pos rfl]
      rfl
    · simp only [if_neg h]
  exact ⟨hbody, by rw [hbody, jsTrim_idem]⟩

/-- C1 counterexample: a zero marker (HTTPSTATUS:000) leaves the parser's
status code at zero, so a protocol status line with a different code is
consulted and wins, refuting the unconditional precedence of the marker. -/
theorem marker_precedence_counterexample :
    markerCodeOf (selectOutput (str "HTTP/1.1 404 Not Found\n\nx\nHTTPSTATUS:000") (str ""))
      = some 0 ∧
    (parseCurlResponse (str "HTTP/1.1 404 Not Found\n\nx\nHTTPSTATUS:000") (str "")).statusCode
      = 404 ∧
    (parseCurlResponse (str "HTTP/1.1 404 Not Found\n\nx\nHTTPSTATUS:000") (str "")).statusText
      = str "Not Found" := by
  exact ⟨rfl, rfl, rfl⟩

/-- C1 amended: whenever the selected output carries a marker with a non-zero
code, that code is the result's status code and the status text comes from
the fixed lookup table, regardless of any protocol status line also present;
a zero marker leaves the code unresolved and the status-line fallbacks run. -/
theorem marker_precedence_amended (stdout stderr : Str) (n : Nat)
    (hm : markerCodeOf (selectOutput stdout stderr) = some n) (hn : n ≠ 0) :
    (parseCurlResponse stdout stderr).statusCode = n ∧
    (parseCurlResponse stdout stderr).statusText = getStatusText n := by
  have hne : selectOutput stdout stderr ≠ [] := by
    intro he
    rw [he] at hm
    rw [show markerCodeOf [] = none from rfl] at hm
    exact Option.noConfusion hm
  unfold parseCurlResponse
  simp only [if_neg hne, hm, if_neg hn]
  exact ⟨trivial, trivial⟩

/-- C1 amended witness: the amended precedence at a concrete output carrying
marker 201 and a disagreeing status line. -/
theorem marker_precedence_amended_witness :
    markerCodeOf (selectOutput (str "HTTP/1.1 404 Not Found\n\nHTTPSTATUS:201") (str ""))
      = some 201 ∧ 201 ≠ 0 ∧
    (parseCurlResponse (str "HTTP/1.1 404 Not Found\n\nHTTPSTATUS:201") (str "")).statusCode
      = 201 ∧
    (parseCurlResponse (str "HTTP/1.1 404 Not Found\n\nHTTPSTATUS:201") (str "")).statusText
      = getStatusText 201 :=
  ⟨rfl, by decide,
    (marker_precedence_amended (str "HTTP/1.1 404 Not Found\n\nHTTPSTATUS:201") (str "") 201
      rfl (by decide)).1,
    (marker_precedence_amended (str "HTTP/1.1 404 Not Found\n\nHTTPSTATUS:201") (str "") 201
      rfl (by decide)).2⟩

/-- C5 counterexample: on a document whose first line precedes the first
heading, the two sections cover only lines 1-2 and 3-4 of the five lines, so
the ranges do not partition the document (line 0 is in no section: every
startLine is at least 1). -/
theorem sections_partition_counterexample :
    (splitOnChar '\n' (str "x\n## A\nbody\n## B\ny")).countP isHeading = 2 ∧
    (splitOnChar '\n' (str "x\n## A\nbody\n## B\ny")).length = 5 ∧
    (parseRequestSections (str "x\n## A\nbody\n## B\ny")).map
      (fun s => (s.titleLine, s.startLine, s.endLine)) = [(1, 1, 2), (3, 3, 4)] ∧
    (parseRequestSections (str "x\n## A\nbody\n## B\ny")).all
      (fun s => decide (1 ≤ s.startLine)) = true := by
  exact ⟨rfl, rfl, rfl, rfl⟩

/-- A non-heading line advances the loop without touching the open section. -/
theorem parseSectionsLoop_skip {l : Str} (hl : headingCapture l = none)
    (n : Nat) (ls : List Str) (i : Nat) (cur : Option RequestSection) :
    parseSectionsLoop n (l :: ls) i cur = parseSectionsLoop n ls (i + 1) cur := by
  rw [parseSectionsLoop, hl]

/-- A run of non-heading lines advances the loop by its length. -/
theorem parseSectionsLoop_skip_run {p : List Str} (hp : ∀ l ∈ p, isHeading l = false)
    (n : Nat) (ls : List Str) (i : Nat) (cur : Option RequestSection) :
    parseSectionsLoop n (p ++ ls) i cur = parseSectionsLoop n ls (i + p.length) cur := by
  induction p generalizing i with
  | nil => simp
  | cons l pp ih =>
    have hl : headingCapture l = none := by
      have hx := hp l (by simp)
      unfold isHeading at hx
      cases hc : headingCapture l with
      | none => rfl
      | some t => rw [hc] at hx; simp at hx
    rw [List.cons_append, parseSectionsLoop_skip hl, ih (fun u hu => hp u (by simp [hu]))]
    congr 1
    simp only [List.length_cons]
    omega

/-- With no heading left, the loop closes the open section at the last
document line. -/
theorem parseSectionsLoop_tail {p : List Str} (hp : ∀ l ∈ p, isHeading l = false)
    (n : Nat) (i : Nat) (sec : RequestSection) :
    parseSectionsLoop n p i (some sec) = [{ sec with endLine := n - 1 }] := by
  have := parseSectionsLoop_skip_run hp n [] i (some sec)
  simpa using this

/-- A heading line with no open section opens one. -/
theorem parseSectionsLoop_open {l : Str} {t : Str} (hl : headingCapture l = some t)
    (n : Nat) (ls : List Str) (i : Nat) :
    parseSectionsLoop n (l :: ls) i none =
      parseSectionsLoop n ls (i + 1)
        (some { title := jsTrim t, titleLine := i, startLine := i, endLine := n - 1 }) := by
  rw [parseSectionsLoop, hl]

/-- A heading line with an open section closes it at the previous line and
opens a new one. -/
theorem parseSectionsLoop_close {l : Str} {t : Str} (hl : headingCapture l = some t)
    (n : Nat) (ls : List Str) (i : Nat) (sec : RequestSection) :
    parseSectionsLoop n (l :: ls) i (some sec) =
      { sec with endLine := i - 1 } ::
        parseSectionsLoop n ls (i + 1)
          (some { title := jsTrim t, titleLine := i, startLine := i, endLine := n - 1 }) := by
  rw [parseSectionsLoop, hl]

/-- A list with exactly one satisfying element decomposes around it. -/
theorem countP_one_decomp {p : Str → Bool} :
    ∀ {l : List Str}, l.countP p = 1 →
      ∃ a x b, l = a ++ x :: b ∧ p x = true ∧
        (∀ u ∈ a, p u = false) ∧ (∀ u ∈ b, p u = false) := by
  intro l
  induction l with
  | nil => intro h; simp [List.countP_nil] at h
  | cons c cs ih =>
    intro h
    rw [List.countP_cons] at h
    by_cases hc : p c = true
    · rw [if_pos hc] at h
      have hz : cs.countP p = 0 := by omega
      refine ⟨[], c, cs, by simp, hc, by simp, ?_⟩
      intro u hu
      have := List.countP_eq_zero.mp hz u hu
      simpa using this
    · rw [if_neg hc] at h
      simp only [Nat.add_zero] at h
      obtain ⟨a, x, b, rfl, hx, ha, hb⟩ := ih h
      exact ⟨c :: a, x, b, rfl, hx, by
        intro u hu
        rcases List.mem_cons.mp hu with rfl | hu2
        · simpa using hc
        · exact ha u hu2, hb⟩

/-- A list with exactly two satisfying elements decomposes around them. -/
theorem countP_two_decomp {p : Str → Bool} :
    ∀ {l : List Str}, l.countP p = 2 →
      ∃ a x b y c, l = a ++ x :: b ++ y :: c ∧ p x = true ∧ p y = true ∧
        (∀ u ∈ a, p u = false) ∧ (∀ u ∈ b, p u = false) ∧ (∀ u ∈ c, p u = false) := by
  intro l
  induction l with
  | nil => intro h; simp [List.countP_nil] at h
  | cons d ds ih =>
    intro h
    rw [List.countP_cons] at h
    by_cases hd : p d = true
    · rw [if_pos hd] at h
      have h1 : ds.countP p = 1 := by omega
      obtain ⟨b, y, c, rfl, hy, hb, hc⟩ := countP_one_decomp h1
      exact ⟨[], d, b, y, c, by simp, hd, hy, by simp, hb, hc⟩
    · rw [if_neg hd] at h
      simp only [Nat.add_zero] at h
      obtain ⟨a, x, b, y, c, rfl, hx, hy, ha, hb, hc⟩ := ih h
      exact ⟨d :: a, x, b, y, c, rfl, hx, hy, by
        intro u hu
        rcases List.mem_cons.mp hu with rfl | hu2
        · simpa using hd
        · exact ha u hu2, hb, hc⟩

/-- C5 amended: on a document with exactly two heading lines, the extractor
returns exactly two sections whose ranges partition the lines from the first
heading line through the document's last line: each section starts at its
heading (titleLine = startLine), the first section's endLine is one less than
the second's titleLine, and the second's endLine is the last document line.
Lines before the first heading belong to no section. -/
theorem sections_two_headings_amended (text : Str)
    (h : (splitOnChar '\n' text).countP isHeading = 2) :
    ∃ (a : List Str) (x : Str) (b : List Str) (y : Str) (c : List Str),
      splitOnChar '\n' text = a ++ x :: b ++ y :: c ∧
      isHeading x = true ∧ isHeading y = true ∧
      (∀ u ∈ a, isHeading u = false) ∧ (∀ u ∈ b, isHeading u = false) ∧
      (∀ u ∈ c, isHeading u = false) ∧
      (parseRequestSections text).map (fun s => (s.titleLine, s.startLine, s.endLine)) =
        [(a.length, a.length, a.length + b.length),
         (a.length + b.length + 1, a.length + b.length + 1,
          (splitOnChar '\n' text).length - 1)] := by
  obtain ⟨a, x, b, y, c, hl, hx, hy, ha, hb, hc⟩ := countP_two_decomp h
  obtain ⟨t1, ht1⟩ := Option.isSome_iff_exists.mp hx
  obtain ⟨t2, ht2⟩ := Option.isSome_iff_exists.mp hy
  refine ⟨a, x, b, y, c, hl, hx, hy, ha, hb, hc, ?_⟩
  unfold parseRequestSections
  rw [hl]
  rw [show (a ++ x :: b ++ y :: c : List Str) = a ++ (x :: (b ++ y :: c)) by simp]
  rw [parseSectionsLoop_skip_run ha, Nat.zero_add, parseSectionsLoop_open ht1]
  rw [parseSectionsLoop_skip_run hb, parseSectionsLoop_close ht2]
  rw [parseSectionsLoop_tail hc]
  simp only [List.map_cons, List.map_nil]
  have e1 : a.length + 1 + b.length - 1 = a.length + b.length := by omega
  have e2 : a.length + 1 + b.length = a.length + b.length + 1 := by omega
  rw [e1, e2]

/-- C5 amended witness: the amended description at a concrete two-heading
document with a preamble line. -/
theorem sections_two_headings_amended_witness :
    (splitOnChar '\n' (str "x\n## A\nbody\n## B\ny")).countP isHeading = 2 ∧
    (∃ (a : List Str) (x : Str) (b : List Str) (y : Str) (c : List Str),
      splitOnChar '\n' (str "x\n## A\nbody\n## B\ny") = a ++ x :: b ++ y :: c ∧
      isHeading x = true ∧ isHeading y = true ∧
      (∀ u ∈ a, isHeading u = false) ∧ (∀ u ∈ b, isHeading u = false) ∧
      (∀ u ∈ c, isHeading u = false) ∧
      (parseRequestSections (str "x\n## A\nbody\n## B\ny")).map
          (fun s => (s.titleLine, s.startLine, s.endLine)) =
        [(a.length, a.length, a.length + b.length),
         (a.length + b.length + 1, a.length + b.length + 1,
          (splitOnChar '\n' (str "x\n## A\nbody\n## B\ny")).length - 1)]) :=
  ⟨rfl, sections_two_headings_amended (str "x\n## A\nbody\n## B\ny") rfl⟩

/-- C3 counterexample: a structured input whose url field is not an http or
https URL is accepted by the structured branch even though neither URL
pattern matches anywhere in the text, so request parsing does not return
null on every input without an http(s) URL match. -/
theorem parse_no_url_counterexample :
    urlOfCommand (curlNormalize (str "\x7b\"url\":\"ftp://x\"\x7d")) = none ∧
    (parseHttpRequest (str "\x7b\"url\":\"ftp://x\"\x7d")).map (fun cfg => cfg.url)
      = some (str "ftp://x") := by
  exact ⟨rfl, rfl⟩

/-- A filter keeping some member is non-empty. -/
theorem stripQuotes_ne_of_mem {m : Str} {c : Char} (hc : c ∈ m) (hq : quoteCh c = false) :
    stripQuotes m ≠ [] := by
  intro he
  unfold stripQuotes at he
  have := List.filter_eq_nil_iff.mp he c hc
  simp [hq] at this

/-- A successful quoted-URL match strips to a non-empty URL. -/
theorem matchUrlQuotedAt_stripQuotes_ne {s m : Str} (h : matchUrlQuotedAt s = some m) :
    stripQuotes m ≠ [] := by
  cases s with
  | nil => simp [matchUrlQuotedAt] at h
  | cons q rest =>
    simp only [matchUrlQuotedAt] at h
    by_cases hq : quoteCh q = true
    swap
    · rw [if_neg hq] at h; exact Option.noConfusion h
    rw [if_pos hq] at h
    cases hh : matchHttpAt rest with
    | none => rw [hh] at h; exact Option.noConfusion h
    | some pr =>
      rw [hh] at h
      obtain ⟨pre, r⟩ := pr
      simp only at h
      by_cases hrn : r.takeWhile (fun c => !quoteCh c) = []
      · rw [if_pos hrn] at h; exact Option.noConfusion h
      · rw [if_neg hrn] at h
        split at h
        swap
        · exact Option.noConfusion h
        rename_i q2 rr hd
        split at h
        swap
        · exact Option.noConfusion h
        rename_i hq2
        injection h with hm
        cases hrc : r.takeWhile (fun c => !quoteCh c) with
          | nil => exact absurd hrc hrn
          | cons rh rt =>
            have hmem : rh ∈ m := by
              rw [← hm, hrc]
              simp
            have hpred : quoteCh rh = false := by
              have := List.mem_takeWhile_imp
                (show rh ∈ r.takeWhile (fun c => !quoteCh c) from by
                  rw [hrc]; exact List.mem_cons_self rh rt)
              simpa using this
            exact stripQuotes_ne_of_mem hmem hpred

/-- A successful unquoted-URL match strips to a non-empty URL. -/
theorem matchUrlUnquotedAt_stripQuotes_ne {s m : Str} (h : matchUrlUnquotedAt s = some m) :
    stripQuotes m ≠ [] := by
  unfold matchUrlUnquotedAt at h
  cases hh : matchHttpAt s with
  | none => rw [hh] at h; exact Option.noConfusion h
  | some pr =>
    rw [hh] at h
    obtain ⟨pre, r⟩ := pr
    simp only at h
    by_cases hrn : r.takeWhile (fun c => !(wsChar c || quoteCh c)) = []
    · rw [if_pos hrn] at h; exact Option.noConfusion h
    · rw [if_neg hrn] at h
      injection h with hm
      cases hrc : r.takeWhile (fun c => !(wsChar c || quoteCh c)) with
      | nil => exact absurd hrc hrn
      | cons rh rt =>
        have hmem : rh ∈ m := by
          rw [← hm, hrc]
          simp
        have hpred : quoteCh rh = false := by
          have h3 := List.mem_takeWhile_imp
            (show rh ∈ r.takeWhile (fun c => !(wsChar c || quoteCh c)) from by
              rw [hrc]; exact List.mem_cons_self rh rt)
          simp only [Bool.not_eq_true', Bool.or_eq_false_iff] at h3
          exact h3.2
        exact stripQuotes_ne_of_mem hmem hpred

/-- A recovered URL is never the empty string. -/
theorem urlOfCommand_ne_nil {cmd u : Str} (h : urlOfCommand cmd = some u) : u ≠ [] := by
  unfold urlOfCommand at h
  cases hq : scanFirst matchUrlQuotedAt cmd with
  | some m =>
    rw [hq] at h
    injection h with hm
    obtain ⟨t, ht⟩ := scanFirst_some hq
    rw [← hm]
    exact matchUrlQuotedAt_stripQuotes_ne ht
  | none =>
    rw [hq] at h
    cases hu : scanFirst matchUrlUnquotedAt cmd with
    | some m =>
      rw [hu] at h
      injection h with hm
      obtain ⟨t, ht⟩ := scanFirst_some hu
      rw [← hm]
      exact matchUrlUnquotedAt_stripQuotes_ne ht
    | none => rw [hu] at h; exact Option.noConfusion h

/-- The structured branch accepts exactly a truthy url field, carrying its
string coercion; the truthiness guard rules out the empty string, so the
carried url field is never the empty string (though a truthy non-string
value, such as an empty array, can still coerce to empty text). -/
theorem configOfJson_url {p : Json} {cfg : HttpRequestConfig}
    (h : configOfJson p = some cfg) :
    ∃ fs v, p = Json.obj fs ∧ lookupField fs (str "url") = some v ∧
      jsTruthy v = true ∧ v ≠ Json.str [] ∧ cfg.url = jsToString v := by
  unfold configOfJson at h
  split at h
  · rename_i fs
    split at h
    · rename_i v hv
      split at h
      · rename_i ht
        injection h with hc
        refine ⟨fs, v, rfl, hv, ht, ?_, by rw [← hc]⟩
        intro he
        rw [he] at ht
        simp [jsTruthy] at ht
      · exact Option.noConfusion h
    · exact Option.noConfusion h
  · exact Option.noConfusion h

/-- The shell-command branch only returns a URL recovered by the patterns. -/
theorem parseCurlCommand_url_ne_nil {t : Str} {cfg : HttpRequestConfig}
    (h : parseCurlCommand t = some cfg) : cfg.url ≠ [] := by
  simp only [parseCurlCommand] at h
  cases hu : urlOfCommand (curlNormalize t) with
  | none => rw [hu] at h; exact Option.noConfusion h
  | some u =>
    rw [hu] at h
    injection h with hc
    rw [← hc]
    exact urlOfCommand_ne_nil hu

/-- Normalization ignores an outer trim. -/
theorem curlNormalize_jsTrim (t : Str) : curlNormalize (jsTrim t) = curlNormalize t := by
  unfold curlNormalize
  rw [jsTrim_idem]

/-- C3 amended: when neither URL pattern matches anywhere in the normalized
text and in addition the structured branch yields no config (non-JSON input,
undecodable input, or a url field that is absent or falsy), request parsing
returns null; the shell-command branch never returns a RequestSpec with an
empty url; and the structured branch returns a config exactly for a truthy
url field, which is never the empty string — a truthy non-string value (for
example a number) is accepted and carried by its string coercion. -/
theorem parse_no_url_amended (t : Str) :
    ((jsonParse (jsTrim t)).bind configOfJson = none →
      urlOfCommand (curlNormalize t) = none →
      parseHttpRequest t = none) ∧
    (∀ cfg, parseCurlCommand t = some cfg → cfg.url ≠ []) ∧
    (∀ p cfg, configOfJson p = some cfg →
      ∃ fs v, p = Json.obj fs ∧ lookupField fs (str "url") = some v ∧
        jsTruthy v = true ∧ v ≠ Json.str [] ∧ cfg.url = jsToString v) := by
  have hcurl : urlOfCommand (curlNormalize t) = none →
      parseCurlCommand (jsTrim t) = none := by
    intro hurl
    simp only [parseCurlCommand, curlNormalize_jsTrim, hurl]
  refine ⟨?_, ?_, ?_⟩
  · intro hjson hurl
    simp only [parseHttpRequest]
    split
    · rw [hjson, hcurl hurl]
    · exact hcurl hurl
  · intro cfg hcfg
    exact parseCurlCommand_url_ne_nil hcfg
  · intro p cfg h
    exact configOfJson_url h

/-- C3 amended witness: a text with no URL anywhere parses to null; a shell
command's recovered url is non-empty at a concrete input; the structured
branch accepts a truthy numeric url field, carrying its coercion "5". -/
theorem parse_no_url_amended_witness :
    ((jsonParse (jsTrim (str "curl -X GET"))).bind configOfJson = none ∧
      urlOfCommand (curlNormalize (str "curl -X GET")) = none ∧
      parseHttpRequest (str "curl -X GET") = none) ∧
    (parseHttpRequest (str "hello") = none) ∧
    (str "http://a.b" : Str) ≠ [] ∧
    (configOfJson (Json.obj [(str "url", Json.num 5)]) =
      some { method := some (str "GET"), url := str "5", headers := [], body := none } ∧
     ∃ fs v, (Json.obj [(str "url", Json.num 5)]) = Json.obj fs ∧
       lookupField fs (str "url") = some v ∧ jsTruthy v = true ∧ v ≠ Json.str [] ∧
       (str "5" : Str) = jsToString v) ∧
    (parseHttpRequest (str "\x7b\"url\":5\x7d")).map (fun cfg => cfg.url) = some (str "5") :=
  ⟨⟨rfl, rfl, (parse_no_url_amended (str "curl -X GET")).1 rfl rfl⟩,
   (parse_no_url_amended (str "hello")).1 rfl rfl,
   (parse_no_url_amended (str "curl http://a.b")).2.1
     { method := some (str "GET"), url := str "http://a.b", headers := [], body := none } rfl,
   ⟨rfl, (parse_no_url_amended (str "x")).2.2 (Json.obj [(str "url", Json.num 5)])
     { method := some (str "GET"), url := str "5", headers := [], body := none } rfl⟩,
   rfl⟩

/-- Is the url field of the decoded value present and truthy? -/
def urlFieldTruthy : Json → Bool
  | Json.obj fs =>
    (match lookupField fs (str "url") with
     | some v => jsTruthy v
     | none => false)
  | _ => false

/-- Without a truthy url field the structured branch yields nothing. -/
theorem configOfJson_none_of_falsy {p : Json} (h : urlFieldTruthy p = false) :
    configOfJson p = none := by
  cases p with
  | obj fs =>
    simp only [urlFieldTruthy] at h
    simp only [configOfJson]
    cases hl : lookupField fs (str "url") with
    | none => rfl
    | some v =>
      rw [hl] at h
      replace h : jsTruthy v = false := h
      simp [h]
  | null => rfl
  | bool b => rfl
  | num n => rfl
  | str s => rfl
  | arr xs => rfl

/-- C9: a brace- or bracket-led input that decodes as JSON without a truthy
url field is not rejected: parsing falls through to the shell-command parser
on the same trimmed text; concretely, a JSON document with no top-level url
but an embedded http URL in a string value parses to a RequestSpec carrying
that embedded URL. -/
theorem json_fallthrough_reparse :
    (∀ t p, ((jsTrim t).head? = some '\x7b' ∨ (jsTrim t).head? = some '[') →
      jsonParse (jsTrim t) = some p → urlFieldTruthy p = false →
      parseHttpRequest t = parseCurlCommand (jsTrim t)) ∧
    parseHttpRequest (str "\x7b\"note\":\"see http://ex.com/a\"\x7d") =
      some { method := some (str "GET"), url := str "http://ex.com/a", headers := [],
             body := none } := by
  constructor
  · intro t p hstart hparse hfalsy
    simp only [parseHttpRequest]
    have hb : (decide ((jsTrim t).head? = some '\x7b')
        || decide ((jsTrim t).head? = some '[')) = true := by
      rcases hstart with h | h <;> simp [h]
    rw [if_pos hb, hparse]
    rw [show (some p).bind configOfJson = configOfJson p from rfl]
    rw [configOfJson_none_of_falsy hfalsy]
  · rfl

/-- C9 witness: the fall-through equation instantiated at the concrete JSON
document without a url field. -/
theorem json_fallthrough_reparse_witness :
    (jsTrim (str "\x7b\"note\":\"see http://ex.com/a\"\x7d")).head? = some '\x7b' ∧
    jsonParse (jsTrim (str "\x7b\"note\":\"see http://ex.com/a\"\x7d")) =
      some (Json.obj [(str "note", Json.str (str "see http://ex.com/a"))]) ∧
    urlFieldTruthy (Json.obj [(str "note", Json.str (str "see http://ex.com/a"))]) = false ∧
    parseHttpRequest (str "\x7b\"note\":\"see http://ex.com/a\"\x7d") =
      parseCurlCommand (jsTrim (str "\x7b\"note\":\"see http://ex.com/a\"\x7d")) :=
  ⟨rfl, rfl, rfl,
    json_fallthrough_reparse.1 (str "\x7b\"note\":\"see http://ex.com/a\"\x7d")
      (Json.obj [(str "note", Json.str (str "see http://ex.com/a"))])
      (Or.inl rfl) rfl rfl⟩

/-- The header fold of the builder factors through its accumulator. -/
theorem foldl_emitH :
    ∀ (hs : List (Str × Str)) (acc : Str),
      hs.foldl (fun a kv => a ++ str " -H \"" ++ kv.1 ++ str ": " ++ escDq kv.2 ++ str "\"") acc
        = acc ++
          (hs.map (fun kv => str " -H \"" ++ kv.1 ++ str ": " ++ escDq kv.2 ++ str "\"")).flatten := by
  intro hs
  induction hs with
  | nil => intro acc; simp
  | cons kv rest ih =>
    intro acc
    simp only [List.foldl_cons, List.map_cons, List.flatten_cons]
    rw [ih]
    simp [List.append_assoc]

/-- The method-flag segment of the built command. -/
def methodSeg (cfg : HttpRequestConfig) : Str :=
  match cfg.method with
  | some m => if m ≠ [] ∧ m ≠ str "GET" then str " -X " ++ m else []
  | none => []

/-- The body segment of the built command. -/
def bodySeg (cfg : HttpRequestConfig) : Str :=
  match cfg.body with
  | some b => if jsTruthy b then str " -d '" ++ escSq (bodyStrOf b) ++ str "'" else []
  | none => []

/-- The header segment of the built command. -/
def headerSeg (cfg : HttpRequestConfig) : Str :=
  (cfg.headers.map (fun kv => str " -H \"" ++ kv.1 ++ str ": " ++ escDq kv.2 ++ str "\"")).flatten

/-- The built command decomposes into the fixed flag prelude with the
write-out marker, the method segment, the header and body segments, and the
quote-escaped URL as the final token. -/
theorem buildCurlCommand_decomp (cfg : HttpRequestConfig) :
    buildCurlCommand cfg =
      str "curl -i -s -S -w \"\\nHTTPSTATUS:%\x7bhttp_code\x7d\"" ++ methodSeg cfg
        ++ headerSeg cfg ++ bodySeg cfg ++ (str " \"" ++ escDq cfg.url ++ str "\"") := by
  simp only [buildCurlCommand, foldl_emitH]
  have hbase : str "curl" ++ str " -i" ++ str " -s" ++ str " -S"
      ++ str " -w \"\\nHTTPSTATUS:%\x7bhttp_code\x7d\""
      = str "curl -i -s -S -w \"\\nHTTPSTATUS:%\x7bhttp_code\x7d\"" := rfl
  cases hm : cfg.method with
  | none =>
    cases hb : cfg.body with
    | none =>
      simp only [methodSeg, hm, bodySeg, hb, headerSeg]
      rw [← hbase]
      simp [List.append_assoc]
    | some b =>
      simp only [methodSeg, hm, bodySeg, hb, headerSeg]
      by_cases ht : jsTruthy b = true
      · simp only [ht, if_true, if_pos rfl]
        rw [← hbase]
        simp [List.append_assoc]
      · simp only [Bool.not_eq_true] at ht
        simp only [ht, Bool.false_eq_true, if_false]
        rw [← hbase]
        simp [List.append_assoc]
  | some m =>
    by_cases hgm : m ≠ [] ∧ m ≠ str "GET"
    · cases hb : cfg.body with
      | none =>
        simp only [methodSeg, hm, bodySeg, hb, headerSeg, if_pos hgm]
        rw [← hbase]
        simp [List.append_assoc]
      | some b =>
        simp only [methodSeg, hm, bodySeg, hb, headerSeg, if_pos hgm]
        by_cases ht : jsTruthy b = true
        · simp only [ht, if_true]
          rw [← hbase]
          simp [List.append_assoc]
        · simp only [Bool.not_eq_true] at ht
          simp only [ht, Bool.false_eq_true, if_false]
          rw [← hbase]
          simp [List.append_assoc]
    · cases hb : cfg.body with
      | none =>
        simp only [methodSeg, hm, bodySeg, hb, headerSeg, if_neg hgm]
        rw [← hbase]
        simp [List.append_assoc]
      | some b =>
        simp only [methodSeg, hm, bodySeg, hb, headerSeg, if_neg hgm]
        by_cases ht : jsTruthy b = true
        · simp only [ht, if_true]
          rw [← hbase]
          simp [List.append_assoc]
        · simp only [Bool.not_eq_true] at ht
          simp only [ht, Bool.false_eq_true, if_false]
          rw [← hbase]
          simp [List.append_assoc]

/-- C4: every built invocation contains the header-inclusion, silent and
show-error flags and the write-out HTTPSTATUS marker flag; the quote-escaped
URL is the final token; the command decomposes around a method segment that
is the -X flag exactly when a method is present (truthy) and not GET, and is
empty otherwise. -/
theorem buildCurl_flags_url_spec (cfg : HttpRequestConfig) :
    containsSub (buildCurlCommand cfg) (str " -i") = true ∧
    containsSub (buildCurlCommand cfg) (str " -s") = true ∧
    containsSub (buildCurlCommand cfg) (str " -S") = true ∧
    containsSub (buildCurlCommand cfg) (str " -w \"\\nHTTPSTATUS:%\x7bhttp_code\x7d\"") = true ∧
    strEnds (buildCurlCommand cfg) (str " \"" ++ escDq cfg.url ++ str "\"") = true ∧
    buildCurlCommand cfg =
      str "curl -i -s -S -w \"\\nHTTPSTATUS:%\x7bhttp_code\x7d\"" ++ methodSeg cfg
        ++ headerSeg cfg ++ bodySeg cfg ++ (str " \"" ++ escDq cfg.url ++ str "\"") ∧
    (∀ m, cfg.method = some m → m ≠ [] → m ≠ str "GET" →
      methodSeg cfg = str " -X " ++ m ∧
      containsSub (buildCurlCommand cfg) (str " -X " ++ m) = true) ∧
    (cfg.method = none ∨ cfg.method = some [] ∨ cfg.method = some (str "GET") →
      methodSeg cfg = []) := by
  have hd := buildCurlCommand_decomp cfg
  have hbase : ∀ pat : Str, containsSub (str "curl -i -s -S -w \"\\nHTTPSTATUS:%\x7bhttp_code\x7d\"") pat = true →
      containsSub (buildCurlCommand cfg) pat = true := by
    intro pat hp
    rw [hd]
    rw [List.append_assoc, List.append_assoc, List.append_assoc]
    exact containsSub_append_left hp _
  refine ⟨hbase _ rfl, hbase _ rfl, hbase _ rfl, hbase _ rfl, ?_, hd, ?_, ?_⟩
  · rw [hd]
    exact strEnds_append _ _
  · intro m hm hne hng
    have hseg : methodSeg cfg = str " -X " ++ m := by
      unfold methodSeg
      rw [hm]
      show (if m ≠ [] ∧ m ≠ str "GET" then str " -X " ++ m else []) = str " -X " ++ m
      rw [if_pos ⟨hne, hng⟩]
    refine ⟨hseg, ?_⟩
    rw [hd, hseg]
    apply containsSub_iff.mpr
    exact ⟨str "curl -i -s -S -w \"\\nHTTPSTATUS:%\x7bhttp_code\x7d\"",
      headerSeg cfg ++ bodySeg cfg ++ (str " \"" ++ escDq cfg.url ++ str "\""),
      by simp [List.append_assoc]⟩
  · intro hcase
    unfold methodSeg
    rcases hcase with hc | hc | hc
    · rw [hc]
    · rw [hc]
      show (if ([] : Str) ≠ [] ∧ ([] : Str) ≠ str "GET" then str " -X " ++ [] else []) = []
      rw [if_neg]
      intro hand
      exact hand.1 rfl
    · rw [hc]
      show (if str "GET" ≠ [] ∧ str "GET" ≠ str "GET" then str " -X " ++ str "GET" else []) = []
      rw [if_neg]
      intro hand
      exact hand.2 rfl

/-- C4 witness: the flag and segment facts at a concrete POST request and the
empty method segment at a concrete GET request. -/
theorem buildCurl_flags_url_spec_witness :
    containsSub
      (buildCurlCommand
        { method := some (str "POST"), url := str "http://a", headers := [], body := none })
      (str " -X " ++ str "POST") = true ∧
    methodSeg { method := some (str "GET"), url := str "http://a", headers := [], body := none }
      = [] :=
  ⟨((buildCurl_flags_url_spec
      { method := some (str "POST"), url := str "http://a", headers := [], body := none }).2.2.2.2.2.2.1
      (str "POST") rfl (by decide) (by decide)).2,
   (buildCurl_flags_url_spec
      { method := some (str "GET"), url := str "http://a", headers := [], body := none }).2.2.2.2.2.2.2
      (Or.inr (Or.inr rfl))⟩

/-- Is a stored body the text variant? -/
def isTextBody : Option Json → Bool
  | some (Json.str _) => true
  | _ => false

/-- C6 counterexample: a structured input with an object body parses to a
RequestSpec whose stored body is the structured value itself, not its
serialized text form. -/
theorem body_not_normalized_counterexample :
    (parseHttpRequest (str "\x7b\"url\":\"http://a.com\",\"body\":\x7b\"k\":1\x7d\x7d")).map
      (fun cfg => cfg.body) = some (some (Json.obj [(str "k", Json.num 1)])) ∧
    (parseHttpRequest (str "\x7b\"url\":\"http://a.com\",\"body\":\x7b\"k\":1\x7d\x7d")).map
      (fun cfg => isTextBody cfg.body) = some false := by
  exact ⟨rfl, rfl⟩

/-- A non-text body serializes through the compact JSON printer. -/
theorem bodyStrOf_eq_stringifyC {v : Json} (h : isTextBody (some v) = false) :
    bodyStrOf v = stringifyC v := by
  cases v with
  | str s => simp [isTextBody] at h
  | null => rfl
  | bool b => rfl
  | num n => rfl
  | arr xs => rfl
  | obj fs => rfl

/-- C6 amended: request parsing carries the body field of the structured form
through verbatim (a structured value stays structured in the RequestSpec);
serialization to the canonical compact text form happens at the
CommandBuilder boundary, where a truthy structured body is embedded as
-d followed by its serialized text. -/
theorem body_serialized_at_builder_amended :
    (∀ (fs : List (Str × Json)) (cfg : HttpRequestConfig),
      configOfJson (Json.obj fs) = some cfg → cfg.body = lookupField fs (str "body")) ∧
    (∀ (cfg : HttpRequestConfig) (v : Json), cfg.body = some v → jsTruthy v = true →
      isTextBody (some v) = false →
      buildCurlCommand cfg =
        str "curl -i -s -S -w \"\\nHTTPSTATUS:%\x7bhttp_code\x7d\"" ++ methodSeg cfg
          ++ headerSeg cfg ++ (str " -d '" ++ escSq (stringifyC v) ++ str "'")
          ++ (str " \"" ++ escDq cfg.url ++ str "\"")) := by
  constructor
  · intro fs cfg h
    simp only [configOfJson] at h
    split at h
    · split at h
      · injection h with hc
        rw [← hc]
      · exact Option.noConfusion h
    · exact Option.noConfusion h
  · intro cfg v hb ht hs
    have hbs : bodySeg cfg = str " -d '" ++ escSq (stringifyC v) ++ str "'" := by
      unfold bodySeg
      rw [hb]
      show (if jsTruthy v = true then str " -d '" ++ escSq (bodyStrOf v) ++ str "'" else []) = _
      rw [if_pos ht, bodyStrOf_eq_stringifyC hs]
    rw [buildCurlCommand_decomp cfg, hbs]

/-- The concrete object-bodied request of the C6 instance. -/
def objBodyCfg : HttpRequestConfig :=
  { method := some (str "GET"), url := str "http://a.com", headers := [],
    body := some (Json.obj [(str "k", Json.num 1)]) }

/-- C6 amended witness: the carried-through body and its serialized embedding
at the concrete object-bodied request. -/
theorem body_serialized_at_builder_amended_witness :
    configOfJson (Json.obj [(str "url", Json.str (str "http://a.com")),
        (str "body", Json.obj [(str "k", Json.num 1)])]) = some objBodyCfg ∧
    objBodyCfg.body = lookupField [(str "url", Json.str (str "http://a.com")),
        (str "body", Json.obj [(str "k", Json.num 1)])] (str "body") ∧
    buildCurlCommand objBodyCfg =
      str "curl -i -s -S -w \"\\nHTTPSTATUS:%\x7bhttp_code\x7d\"" ++ methodSeg objBodyCfg
        ++ headerSeg objBodyCfg
        ++ (str " -d '" ++ escSq (stringifyC (Json.obj [(str "k", Json.num 1)])) ++ str "'")
        ++ (str " \"" ++ escDq objBodyCfg.url ++ str "\"") :=
  ⟨rfl,
   body_serialized_at_builder_amended.1
     [(str "url", Json.str (str "http://a.com")), (str "body", Json.obj [(str "k", Json.num 1)])]
     objBodyCfg rfl,
   body_serialized_at_builder_amended.2 objBodyCfg
     (Json.obj [(str "k", Json.num 1)]) rfl rfl rfl⟩

/-- Characters that can appear in a string produced by the JSON parser:
printable characters and the named control escapes. -/
def okChar (c : Char) : Bool :=
  (decide (0x20 ≤ c.toNat)) || c = '\n' || c = '\r' || c = '\t' || c = '\x08' || c = '\x0c'

/-- Is the key absent from the field list? -/
def keyAbsent (k : Str) : List (Str × Json) → Bool
  | [] => true
  | (k2, _) :: fs => (if k2 = k then false else true) && keyAbsent k fs

mutual

/-- Values in the image of the parser: strings hold only representable
characters and object keys are unique. -/
def wfJson : Json → Bool
  | Json.null => true
  | Json.bool _ => true
  | Json.num _ => true
  | Json.str s => s.all okChar
  | Json.arr xs => wfList xs
  | Json.obj fs => wfFields fs

/-- Well-formedness of array elements. -/
def wfList : List Json → Bool
  | [] => true
  | x :: xs => wfJson x && wfList xs

/-- Well-formedness of object fields, with key uniqueness. -/
def wfFields : List (Str × Json) → Bool
  | [] => true
  | (k, v) :: fs => k.all okChar && wfJson v && keyAbsent k fs && wfFields fs

end

/-- Escape resolution yields representable characters. -/
theorem unescapeChar_ok {e u : Char} (h : unescapeChar e = some u) : okChar u = true := by
  unfold unescapeChar at h
  split_ifs at h <;> first
    | exact Option.noConfusion h
    | (injection h with hu; subst hu; decide)

/-- String bodies parse to representable characters. -/
theorem parseStrBody_okChars :
    ∀ (n : Nat) (s : Str), s.length ≤ n → ∀ cs r, parseStrBody s = some (cs, r) →
      cs.all okChar = true := by
  intro n
  induction n with
  | zero =>
    intro s hlen cs r h
    cases s with
    | nil => exact Option.noConfusion h
    | cons c rest => simp at hlen
  | succ n ih =>
    intro s hlen cs r h
    cases s with
    | nil => exact Option.noConfusion h
    | cons c rest =>
      rw [parseStrBody.eq_def] at h
      simp only at h
      by_cases h1 : c = '"'
      · rw [if_pos h1] at h
        injection h with hp
        injection hp with hcs hr
        rw [← hcs]
        rfl
      · rw [if_neg h1] at h
        by_cases h2 : c = '\\'
        · rw [if_pos h2] at h
          cases rest with
          | nil => exact Option.noConfusion h
          | cons e rest2 =>
            replace h :
                (match unescapeChar e with
                 | none => none
                 | some u =>
                   match parseStrBody rest2 with
                   | none => none
                   | some (s, r) => some (u :: s, r)) = some (cs, r) := h
            cases hu : unescapeChar e with
            | none => rw [hu] at h; exact Option.noConfusion h
            | some u =>
              rw [hu] at h
              cases hp : parseStrBody rest2 with
              | none => rw [hp] at h; exact Option.noConfusion h
              | some pr =>
                obtain ⟨s2, r2⟩ := pr
                rw [hp] at h
                injection h with hp2
                injection hp2 with hcs hr
                rw [← hcs]
                simp only [List.all_cons, Bool.and_eq_true]
                refine ⟨unescapeChar_ok hu, ?_⟩
                refine ih rest2 ?_ s2 r2 hp
                simp only [List.length_cons] at hlen
                omega
        · rw [if_neg h2] at h
          by_cases h3 : c.toNat < 0x20
          · rw [if_pos h3] at h; exact Option.noConfusion h
          · rw [if_neg h3] at h
            cases hp : parseStrBody rest with
            | none => rw [hp] at h; exact Option.noConfusion h
            | some pr =>
              obtain ⟨s2, r2⟩ := pr
              rw [hp] at h
              injection h with hp2
              injection hp2 with hcs hr
              rw [← hcs]
              simp only [List.all_cons, Bool.and_eq_true]
              constructor
              · unfold okChar
                simp only [Bool.or_eq_true, decide_eq_true_eq]
                left
                left
                left
                left
                left
                omega
              · refine ih rest ?_ s2 r2 hp
                simp only [List.length_cons] at hlen
                omega

/-- Key projections are stable under the overwrite write. -/
theorem keyAbsent_map_overwrite (kk k : Str) (v : Json) (fs : List (Str × Json)) :
    keyAbsent kk (fs.map (fun p => if p.1 = k then (k, v) else p)) = keyAbsent kk fs := by
  induction fs with
  | nil => rfl
  | cons p rest ih =>
    obtain ⟨k2, v2⟩ := p
    simp only [List.map_cons]
    by_cases hk : k2 = k
    · rw [show (if ((k2, v2) : Str × Json).1 = k then (k, v) else (k2, v2)) = (k, v) by
        simp [hk]]
      simp only [keyAbsent, ih, hk]
    · rw [show (if ((k2, v2) : Str × Json).1 = k then (k, v) else (k2, v2)) = (k2, v2) by
        simp [hk]]
      simp only [keyAbsent, ih]

/-- Appending a fresh key preserves key absence of other keys. -/
theorem keyAbsent_append (kk k : Str) (v : Json) (fs : List (Str × Json)) (h : k ≠ kk) :
    keyAbsent kk (fs ++ [(k, v)]) = keyAbsent kk fs := by
  induction fs with
  | nil => simp [keyAbsent, if_neg h]
  | cons p rest ih =>
    obtain ⟨k2, v2⟩ := p
    simp only [List.cons_append, keyAbsent, List.append_eq, ih]

/-- The JavaScript object write preserves well-formedness. -/
theorem jsSet_wf {acc : List (Str × Json)} {k : Str} {v : Json}
    (ha : wfFields acc = true) (hk : k.all okChar = true) (hv : wfJson v = true) :
    wfFields (jsSet acc k v) = true := by
  unfold jsSet
  by_cases hx : acc.any (fun p => p.1 = k) = true
  · rw [if_pos hx]
    clear hx
    induction acc with
    | nil => rfl
    | cons p rest ih =>
      obtain ⟨k2, v2⟩ := p
      simp only [wfFields, Bool.and_eq_true] at ha
      obtain ⟨⟨⟨hk2, hv2⟩, habs⟩, hrest⟩ := ha
      simp only [List.map_cons]
      by_cases hkk : k2 = k
      · rw [show (if ((k2, v2) : Str × Json).1 = k then (k, v) else (k2, v2)) = (k, v) by
          simp [hkk]]
        simp only [wfFields, Bool.and_eq_true, keyAbsent_map_overwrite]
        subst hkk
        exact ⟨⟨⟨hk, hv⟩, habs⟩, ih hrest⟩
      · rw [show (if ((k2, v2) : Str × Json).1 = k then (k, v) else (k2, v2)) = (k2, v2) by
          simp [hkk]]
        simp only [wfFields, Bool.and_eq_true, keyAbsent_map_overwrite]
        exact ⟨⟨⟨hk2, hv2⟩, habs⟩, ih hrest⟩
  · rw [if_neg hx]
    have hx2 : ∀ p ∈ acc, p.1 ≠ k := by
      intro p hp he
      apply hx
      simp only [List.any_eq_true]
      exact ⟨p, hp, by simp [he]⟩
    clear hx
    induction acc with
    | nil => simp [wfFields, keyAbsent, hk, hv]
    | cons p rest ih =>
      obtain ⟨k2, v2⟩ := p
      simp only [wfFields, Bool.and_eq_true] at ha
      obtain ⟨⟨⟨hk2, hv2⟩, habs⟩, hrest⟩ := ha
      have hne : k ≠ k2 := fun he => hx2 (k2, v2) (by simp) he.symm
      simp only [List.cons_append, wfFields, Bool.and_eq_true, List.append_eq,
        keyAbsent_append k2 k v rest hne]
      exact ⟨⟨⟨hk2, hv2⟩, habs⟩, ih hrest (fun p hp => hx2 p (by simp [hp]))⟩

/-- Everything the fueled JSON parser returns is well-formed: string contents
are representable and object keys are unique. -/
theorem parse_wf_all : ∀ f : Nat,
    (∀ s v r, parseVal f s = some (v, r) → wfJson v = true) ∧
    (∀ s xs r, parseElems f s = some (xs, r) → wfList xs = true) ∧
    (∀ s acc fs r, wfFields acc = true → parseFields f acc s = some (fs, r) →
      wfFields fs = true) := by
  intro f
  induction f with
  | zero =>
    refine ⟨?_, ?_, ?_⟩
    · intro s v r h; exact Option.noConfusion h
    · intro s xs r h; exact Option.noConfusion h
    · intro s acc fs r _ h; exact Option.noConfusion h
  | succ f ih =>
    obtain ⟨ihV, ihE, ihF⟩ := ih
    refine ⟨?_, ?_, ?_⟩
    · intro s v r h
      rw [parseVal] at h
      split at h
      · exact Option.noConfusion h
      · rename_i c rest hws
        by_cases h1 : c = '"'
        · rw [if_pos h1] at h
          cases hp : parseStrBody rest with
          | none => rw [hp] at h; exact Option.noConfusion h
          | some pr =>
            obtain ⟨cs, r2⟩ := pr
            rw [hp, Option.map_some'] at h
            injection h with h2
            injection h2 with hv hr
            rw [← hv]
            exact parseStrBody_okChars rest.length rest le_rfl cs r2 hp
        · rw [if_neg h1] at h
          by_cases h2 : c = '['
          · rw [if_pos h2] at h
            by_cases hb : (skipWs rest).head? = some ']'
            · rw [if_pos hb] at h
              injection h with h3
              injection h3 with hv hr
              rw [← hv]
              rfl
            · rw [if_neg hb] at h
              cases hp : parseElems f (skipWs rest) with
              | none => rw [hp] at h; exact Option.noConfusion h
              | some pr =>
                obtain ⟨xs, r2⟩ := pr
                rw [hp, Option.map_some'] at h
                injection h with h3
                injection h3 with hv hr
                rw [← hv]
                exact ihE _ _ _ hp
          · rw [if_neg h2] at h
            by_cases h3 : c = '\x7b'
            · rw [if_pos h3] at h
              by_cases hb : (skipWs rest).head? = some '\x7d'
              · rw [if_pos hb] at h
                injection h with h4
                injection h4 with hv hr
                rw [← hv]
                rfl
              · rw [if_neg hb] at h
                cases hp : parseFields f [] (skipWs rest) with
                | none => rw [hp] at h; exact Option.noConfusion h
                | some pr =>
                  obtain ⟨fs2, r2⟩ := pr
                  rw [hp, Option.map_some'] at h
                  injection h with h4
                  injection h4 with hv hr
                  rw [← hv]
                  exact ihF _ [] _ _ rfl hp
            · rw [if_neg h3] at h
              by_cases h4 : c = 't'
              · rw [if_pos h4] at h
                by_cases hs : strStarts (str "rue") rest = true
                · rw [if_pos hs] at h
                  injection h with h5
                  injection h5 with hv hr
                  rw [← hv]
                  rfl
                · rw [if_neg hs] at h; exact Option.noConfusion h
              · rw [if_neg h4] at h
                by_cases h5 : c = 'f'
                · rw [if_pos h5] at h
                  by_cases hs : strStarts (str "alse") rest = true
                  · rw [if_pos hs] at h
                    injection h with h6
                    injection h6 with hv hr
                    rw [← hv]
                    rfl
                  · rw [if_neg hs] at h; exact Option.noConfusion h
                · rw [if_neg h5] at h
                  by_cases h6 : c = 'n'
                  · rw [if_pos h6] at h
                    by_cases hs : strStarts (str "ull") rest = true
                    · rw [if_pos hs] at h
                      injection h with h7
                      injection h7 with hv hr
                      rw [← hv]
                      rfl
                    · rw [if_neg hs] at h; exact Option.noConfusion h
                  · rw [if_neg h6] at h
                    cases hp : parseIntTok (c :: rest) with
                    | none => rw [hp] at h; exact Option.noConfusion h
                    | some pr =>
                      obtain ⟨n2, r2⟩ := pr
                      rw [hp, Option.map_some'] at h
                      injection h with h7
                      injection h7 with hv hr
                      rw [← hv]
                      rfl
    · intro s xs r h
      rw [parseElems] at h
      split at h
      · exact Option.noConfusion h
      · rename_i v r1 hv
        have hvwf := ihV _ _ _ hv
        split at h
        · exact Option.noConfusion h
        · rename_i c r2 hws
          by_cases hc : c = ','
          · rw [if_pos hc] at h
            split at h
            · exact Option.noConfusion h
            · rename_i ys r3 hE
              injection h with h2
              injection h2 with hxs hr
              rw [← hxs]
              simp only [wfList, Bool.and_eq_true]
              exact ⟨hvwf, ihE _ _ _ hE⟩
          · rw [if_neg hc] at h
            by_cases hc2 : c = ']'
            · rw [if_pos hc2] at h
              injection h with h2
              injection h2 with hxs hr
              rw [← hxs]
              simp only [wfList, Bool.and_eq_true]
              exact ⟨hvwf, trivial⟩
            · rw [if_neg hc2] at h; exact Option.noConfusion h
    · intro s acc fs r hacc h
      rw [parseFields] at h
      split at h
      · exact Option.noConfusion h
      · rename_i c rest hws
        by_cases hc : c = '"'
        · rw [if_pos hc] at h
          split at h
          · exact Option.noConfusion h
          · rename_i k r1 hk
            have hkok := parseStrBody_okChars rest.length rest le_rfl k r1 hk
            split at h
            · exact Option.noConfusion h
            · rename_i c2 r2 hws2
              by_cases hc2 : c2 = ':'
              · rw [if_pos hc2] at h
                split at h
                · exact Option.noConfusion h
                · rename_i v r3 hv
                  have hvwf := ihV _ _ _ hv
                  split at h
                  · exact Option.noConfusion h
                  · rename_i c3 r4 hws3
                    by_cases hc3 : c3 = ','
                    · rw [if_pos hc3] at h
                      exact ihF _ _ _ _ (jsSet_wf hacc hkok hvwf) h
                    · rw [if_neg hc3] at h
                      by_cases hc4 : c3 = '\x7d'
                      · rw [if_pos hc4] at h
                        injection h with h2
                        injection h2 with hfs hr
                        rw [← hfs]
                        exact jsSet_wf hacc hkok hvwf
                      · rw [if_neg hc4] at h; exact Option.noConfusion h
              · rw [if_neg hc2] at h; exact Option.noConfusion h
        · rw [if_neg hc] at h; exact Option.noConfusion h

/-- The top-level parser returns only well-formed values. -/
theorem jsonParse_wf {s : Str} {v : Json} (h : jsonParse s = some v) : wfJson v = true := by
  unfold jsonParse at h
  split at h
  · rename_i v2 r hp
    by_cases hr : skipWs r = []
    · rw [if_pos hr] at h
      injection h with hv
      rw [← hv]
      exact (parse_wf_all _).1 _ _ _ hp
    · rw [if_neg hr] at h; exact Option.noConfusion h
  · exact Option.noConfusion h

/-- A decimal digit character is a digit and is not whitespace. -/
theorem digitChar_spec : ∀ k, k < 10 →
    (digitChar k).isDigit = true ∧ jsonWs (digitChar k) = false ∧ wsChar (digitChar k) = false := by
  intro k hk
  interval_cases k <;> exact ⟨rfl, rfl, rfl⟩

/-- A decimal digit character differs from every JSON structural character. -/
theorem digitChar_ne : ∀ k, k < 10 →
    digitChar k ≠ '-' ∧ digitChar k ≠ '"' ∧ digitChar k ≠ '[' ∧ digitChar k ≠ ']' ∧
    digitChar k ≠ '\x7b' ∧ digitChar k ≠ '\x7d' ∧ digitChar k ≠ 't' ∧ digitChar k ≠ 'f' ∧
    digitChar k ≠ 'n' := by
  intro k hk
  interval_cases k <;> decide

/-- Numeric value of a decimal digit character. -/
theorem digitVal_digitChar : ∀ k, k < 10 → digitVal (digitChar k) = k := by
  intro k hk
  interval_cases k <;> decide

/-- JSON whitespace characters are not digits. -/
theorem jsonWs_not_digit {c : Char} (h : jsonWs c = true) : c.isDigit = false := by
  simp only [jsonWs, Bool.or_eq_true, decide_eq_true_eq] at h
  rcases h with ((h | h) | h) | h <;> subst h <;> decide

/-- JSON whitespace is JavaScript whitespace. -/
theorem jsonWs_imp_wsChar {c : Char} (h : jsonWs c = true) : wsChar c = true := by
  simp only [jsonWs, Bool.or_eq_true, decide_eq_true_eq] at h
  rcases h with ((h | h) | h) | h <;> subst h <;> decide

/-- takeWhile over an all-satisfying block followed by a failing head keeps
exactly the block. -/
theorem takeWhile_append_all {p : Char → Bool} : ∀ (a b : Str),
    (∀ c ∈ a, p c = true) → (∀ c, b.head? = some c → p c = false) →
    List.takeWhile p (a ++ b) = a := by
  intro a
  induction a with
  | nil =>
    intro b _ hb
    cases b with
    | nil => rfl
    | cons c cs => simp [List.takeWhile_cons, hb c rfl]
  | cons x xs ih =>
    intro b ha hb
    have hx : p x = true := ha x (List.mem_cons_self x xs)
    simp only [List.cons_append, List.takeWhile_cons, hx, if_true]
    rw [ih b (fun c hc => ha c (List.mem_cons_of_mem x hc)) hb]

/-- Skipping whitespace passes over an all-whitespace block. -/
theorem skipWs_append_ws : ∀ {a : Str}, (∀ c ∈ a, jsonWs c = true) →
    ∀ b, skipWs (a ++ b) = skipWs b := by
  intro a
  induction a with
  | nil => intro _ b; rfl
  | cons x xs ih =>
    intro h b
    have hx : jsonWs x = true := h x (List.mem_cons_self x xs)
    simp only [List.cons_append, skipWs, List.dropWhile_cons, hx, if_true]
    exact ih (fun c hc => h c (List.mem_cons_of_mem x hc)) b

/-- Skipping whitespace stops at a non-whitespace head. -/
theorem skipWs_cons {c : Char} (h : jsonWs c = false) (t : Str) : skipWs (c :: t) = c :: t := by
  simp [skipWs, List.dropWhile_cons, h]

/-- Indentation consists of whitespace only. -/
theorem ind_ws : ∀ d, ∀ c ∈ ind d, jsonWs c = true := by
  intro d c hc
  have := List.eq_of_mem_replicate hc
  subst this
  rfl

/-- Every character of a decimal representation is a digit character. -/
theorem natReprF_mem : ∀ fuel n, n < fuel → ∀ c ∈ natReprF fuel n, ∃ k, k < 10 ∧ c = digitChar k := by
  intro fuel
  induction fuel with
  | zero => intro n h; omega
  | succ f ih =>
    intro n h c hc
    rw [natReprF] at hc
    by_cases h10 : n < 10
    · rw [if_pos h10] at hc
      rcases List.mem_singleton.mp hc with rfl
      exact ⟨n, h10, rfl⟩
    · rw [if_neg h10] at hc
      rcases List.mem_append.mp hc with hc | hc
      · exact ih (n / 10) (by omega) c hc
      · rcases List.mem_singleton.mp hc with rfl
        exact ⟨n % 10, Nat.mod_lt n (by norm_num), rfl⟩

/-- A decimal representation is nonempty, with a digit character head. -/
theorem natReprF_head : ∀ fuel n, n < fuel →
    ∃ k t, k < 10 ∧ natReprF fuel n = digitChar k :: t := by
  intro fuel
  induction fuel with
  | zero => intro n h; omega
  | succ f ih =>
    intro n h
    rw [natReprF]
    by_cases h10 : n < 10
    · rw [if_pos h10]
      exact ⟨n, [], h10, rfl⟩
    · rw [if_neg h10]
      obtain ⟨k, t, hk, he⟩ := ih (n / 10) (by omega)
      exact ⟨k, t ++ [digitChar (n % 10)], hk, by rw [he]; rfl⟩

/-- Reading the digits of a decimal representation recovers the number. -/
theorem digitsToNat_natReprF : ∀ fuel n, n < fuel → digitsToNat (natReprF fuel n) = n := by
  intro fuel
  induction fuel with
  | zero => intro n h; omega
  | succ f ih =>
    intro n h
    rw [natReprF]
    by_cases h10 : n < 10
    · rw [if_pos h10]
      show 10 * 0 + digitVal (digitChar n) = n
      rw [digitVal_digitChar n h10]
      omega
    · rw [if_neg h10]
      have hdiv : n / 10 < f := by omega
      simp only [digitsToNat, List.foldl_append, List.foldl_cons, List.foldl_nil]
      have hA : List.foldl (fun a c => 10 * a + digitVal c) 0 (natReprF f (n / 10)) = n / 10 :=
        ih (n / 10) hdiv
      rw [hA, digitVal_digitChar (n % 10) (Nat.mod_lt n (by norm_num))]
      omega

/-- The decimal representation of a nonzero number does not start with 0. -/
theorem natReprF_head_ne_zero : ∀ fuel n, n < fuel → n ≠ 0 →
    ∀ c t, natReprF fuel n = c :: t → c ≠ '0' := by
  intro fuel
  induction fuel with
  | zero => intro n h; omega
  | succ f ih =>
    intro n h hne c t he
    rw [natReprF] at he
    by_cases h10 : n < 10
    · rw [if_pos h10] at he
      injection he with h1 _
      subst h1
      have h1 : 1 ≤ n := Nat.one_le_iff_ne_zero.mpr hne
      interval_cases n <;> decide
    · rw [if_neg h10] at he
      obtain ⟨k, t', hk, he'⟩ := natReprF_head f (n / 10) (by omega)
      rw [he', List.cons_append] at he
      injection he with h1 _
      subst h1
      exact ih (n / 10) (by omega) (by omega) (digitChar k) t' he'

/-- Reading an unsigned integer token back from its decimal representation. -/
theorem parseNatTok_natRepr (n : Nat) {rest : Str}
    (hrest : ∀ c, rest.head? = some c → c.isDigit = false) :
    parseNatTok (natRepr n ++ rest) = some (n, rest) := by
  by_cases h0 : n = 0
  · subst h0
    show parseNatTok ('0' :: rest) = some (0, rest)
    rw [parseNatTok, if_pos rfl]
  · have hn : n < n + 1 := Nat.lt_succ_self n
    obtain ⟨k, t, hk, he⟩ := natReprF_head (n + 1) n hn
    have hne0 := natReprF_head_ne_zero (n + 1) n hn h0 (digitChar k) t he
    have hall : ∀ c ∈ digitChar k :: t, c.isDigit = true := by
      intro c hc
      rw [← he] at hc
      obtain ⟨j, hj, rfl⟩ := natReprF_mem (n + 1) n hn c hc
      exact (digitChar_spec j hj).1
    unfold natRepr
    rw [he, List.cons_append, parseNatTok, if_neg hne0,
      if_pos (hall (digitChar k) (List.mem_cons_self _ _))]
    show some
      (digitsToNat ((digitChar k :: (t ++ rest)).takeWhile Char.isDigit),
       (digitChar k :: (t ++ rest)).drop
         ((digitChar k :: (t ++ rest)).takeWhile Char.isDigit).length) = some (n, rest)
    rw [show (digitChar k :: (t ++ rest) : Str) = (digitChar k :: t) ++ rest from rfl]
    rw [takeWhile_append_all _ _ hall hrest, List.drop_left, ← he,
      digitsToNat_natReprF (n + 1) n hn]

/-- Reading a signed integer token back from its decimal representation. -/
theorem parseIntTok_intRepr (i : Int) {rest : Str}
    (hrest : ∀ c, rest.head? = some c → c.isDigit = false) :
    parseIntTok (intRepr i ++ rest) = some (i, rest) := by
  cases i with
  | ofNat n =>
    have hn : n < n + 1 := Nat.lt_succ_self n
    obtain ⟨k, t, hk, he⟩ := natReprF_head (n + 1) n hn
    show parseIntTok (natRepr n ++ rest) = some (Int.ofNat n, rest)
    unfold natRepr
    rw [he, List.cons_append, parseIntTok, if_neg (digitChar_ne k hk).1]
    rw [show (digitChar k :: (t ++ rest) : Str) = (digitChar k :: t) ++ rest from rfl, ← he]
    rw [show (natReprF (n + 1) n ++ rest : Str) = natRepr n ++ rest from rfl]
    rw [parseNatTok_natRepr n hrest]
    rfl
  | negSucc m =>
    show parseIntTok (('-' :: natRepr (m + 1)) ++ rest) = some (Int.negSucc m, rest)
    rw [List.cons_append, parseIntTok, if_pos rfl, parseNatTok_natRepr (m + 1) hrest]
    show some (-(((m + 1 : Nat) : Int)), rest) = some (Int.negSucc m, rest)
    rw [Int.negSucc_eq]
    norm_num

/-- Reading a string literal body back from its escaped serialization. -/
theorem parseStrBody_cons (c : Char) (t : Str) :
    parseStrBody (c :: t) =
      (if c = '"' then some ([], t)
      else if c = '\\' then
        match t with
        | [] => none
        | e :: rest2 =>
          match unescapeChar e with
          | none => none
          | some u =>
            match parseStrBody rest2 with
            | none => none
            | some (s, r) => some (u :: s, r)
      else if c.toNat < 0x20 then none
      else
        match parseStrBody t with
        | none => none
        | some (s, r) => some (c :: s, r)) := by
  rw [parseStrBody.eq_def]
  rfl

theorem parseStrBody_quote : ∀ (cs : Str) (rest : Str), cs.all okChar = true →
    parseStrBody ((cs.map quoteEsc).flatten ++ '"' :: rest) = some (cs, rest) := by
  intro cs
  induction cs with
  | nil =>
    intro rest _
    simp only [List.map_nil, List.flatten_nil, List.nil_append]
    rw [parseStrBody_cons, if_pos rfl]
  | cons c cs ih =>
    intro rest h
    have hok : okChar c = true ∧ cs.all okChar = true := by simpa using h
    rw [show (((c :: cs).map quoteEsc).flatten : Str) =
        quoteEsc c ++ (cs.map quoteEsc).flatten from rfl, List.append_assoc]
    set X := (cs.map quoteEsc).flatten ++ '"' :: rest with hX
    by_cases q1 : c = '"'
    · subst q1
      rw [show quoteEsc '"' = ['\\', '"'] from rfl]
      rw [show parseStrBody (['\\', '"'] ++ X) =
        (match parseStrBody X with
         | none => none
         | some (s, r) => some ('"' :: s, r)) from rfl]
      rw [hX, ih rest hok.2]
    · by_cases q2 : c = '\\'
      · subst q2
        rw [show quoteEsc '\\' = ['\\', '\\'] from rfl]
        rw [show parseStrBody (['\\', '\\'] ++ X) =
          (match parseStrBody X with
           | none => none
           | some (s, r) => some ('\\' :: s, r)) from rfl]
        rw [hX, ih rest hok.2]
      · by_cases q3 : c = '\n'
        · subst q3
          rw [show quoteEsc '\n' = ['\\', 'n'] from rfl]
          rw [show parseStrBody (['\\', 'n'] ++ X) =
            (match parseStrBody X with
             | none => none
             | some (s, r) => some ('\n' :: s, r)) from rfl]
          rw [hX, ih rest hok.2]
        · by_cases q4 : c = '\r'
          · subst q4
            rw [show quoteEsc '\r' = ['\\', 'r'] from rfl]
            rw [show parseStrBody (['\\', 'r'] ++ X) =
              (match parseStrBody X with
               | none => none
               | some (s, r) => some ('\r' :: s, r)) from rfl]
            rw [hX, ih rest hok.2]
          · by_cases q5 : c = '\t'
            · subst q5
              rw [show quoteEsc '\t' = ['\\', 't'] from rfl]
              rw [show parseStrBody (['\\', 't'] ++ X) =
                (match parseStrBody X with
                 | none => none
                 | some (s, r) => some ('\t' :: s, r)) from rfl]
              rw [hX, ih rest hok.2]
            · by_cases q6 : c = '\x08'
              · subst q6
                rw [show quoteEsc '\x08' = ['\\', 'b'] from rfl]
                rw [show parseStrBody (['\\', 'b'] ++ X) =
                  (match parseStrBody X with
                   | none => none
                   | some (s, r) => some ('\x08' :: s, r)) from rfl]
                rw [hX, ih rest hok.2]
              · by_cases q7 : c = '\x0c'
                · subst q7
                  rw [show quoteEsc '\x0c' = ['\\', 'f'] from rfl]
                  rw [show parseStrBody (['\\', 'f'] ++ X) =
                    (match parseStrBody X with
                     | none => none
                     | some (s, r) => some ('\x0c' :: s, r)) from rfl]
                  rw [hX, ih rest hok.2]
                · have hq : quoteEsc c = [c] := by
                    unfold quoteEsc
                    rw [if_neg q1, if_neg q2, if_neg q3, if_neg q4, if_neg q5, if_neg q6, if_neg q7]
                  have hctl : ¬ (c.toNat < 0x20) := by
                    simp only [okChar, Bool.or_eq_true, decide_eq_true_eq] at hok
                    rcases hok.1 with ((((hh | hh) | hh) | hh) | hh) | hh
                    · omega
                    · exact absurd hh q3
                    · exact absurd hh q4
                    · exact absurd hh q5
                    · exact absurd hh q6
                    · exact absurd hh q7
                  rw [hq, List.singleton_append, parseStrBody_cons, if_neg q1, if_neg q2,
                    if_neg hctl, hX, ih rest hok.2]

/-- One step of the value parser, once the whitespace-skipped input is known. -/
theorem parseVal_step (f : Nat) {s : Str} {c : Char} {rest : Str} (h : skipWs s = c :: rest) :
    parseVal (Nat.succ f) s =
      (if c = '"' then (parseStrBody rest).map (fun p => (Json.str p.1, p.2))
      else if c = '[' then
        (if (skipWs rest).head? = some ']' then some (Json.arr [], (skipWs rest).tail)
         else (parseElems f (skipWs rest)).map (fun p => (Json.arr p.1, p.2)))
      else if c = '\x7b' then
        (if (skipWs rest).head? = some '\x7d' then some (Json.obj [], (skipWs rest).tail)
         else (parseFields f [] (skipWs rest)).map (fun p => (Json.obj p.1, p.2)))
      else if c = 't' then
        (if strStarts (str "rue") rest then some (Json.bool true, rest.drop 3) else none)
      else if c = 'f' then
        (if strStarts (str "alse") rest then some (Json.bool false, rest.drop 4) else none)
      else if c = 'n' then
        (if strStarts (str "ull") rest then some (Json.null, rest.drop 3) else none)
      else (parseIntTok (c :: rest)).map (fun p => (Json.num p.1, p.2))) := by
  rw [parseVal, h]

/-- One step of the array-elements parser, once the first element and the
following separator are known. -/
theorem parseElems_step (f : Nat) {s : Str} {v : Json} {r : Str} {c : Char} {r2 : Str}
    (h : parseVal f s = some (v, r)) (h2 : skipWs r = c :: r2) :
    parseElems (Nat.succ f) s =
      (if c = ',' then
        match parseElems f r2 with
        | none => none
        | some (xs, r3) => some (v :: xs, r3)
      else if c = ']' then some ([v], r2)
      else none) := by
  rw [parseElems, h]
  show (match skipWs r with
        | [] => none
        | c9 :: r9 =>
          if c9 = ',' then
            match parseElems f r9 with
            | none => none
            | some (xs, r3) => some (v :: xs, r3)
          else if c9 = ']' then some ([v], r9)
          else none) = _
  rw [h2]

/-- One step of the object-members parser, once the key, the value and the
following separator are known. -/
theorem parseFields_step (f : Nat) (acc : List (Str × Json)) {s rest k r r2 r3 r4 : Str}
    {v : Json} {c3 : Char}
    (h1 : skipWs s = '"' :: rest) (h2 : parseStrBody rest = some (k, r))
    (h3 : skipWs r = ':' :: r2) (h4 : parseVal f r2 = some (v, r3))
    (h5 : skipWs r3 = c3 :: r4) :
    parseFields (Nat.succ f) acc s =
      (if c3 = ',' then parseFields f (jsSet acc k v) r4
       else if c3 = '\x7d' then some (jsSet acc k v, r4)
       else none) := by
  rw [parseFields, h1]
  show (match parseStrBody rest with
        | none => none
        | some (k9, r9) =>
          match skipWs r9 with
          | [] => none
          | c9 :: r29 =>
            if c9 = ':' then
              match parseVal f r29 with
              | none => none
              | some (v9, r39) =>
                match skipWs r39 with
                | [] => none
                | c39 :: r49 =>
                  if c39 = ',' then parseFields f (jsSet acc k9 v9) r49
                  else if c39 = '\x7d' then some (jsSet acc k9 v9, r49)
                  else none
            else none) = _
  rw [h2]
  show (match skipWs r with
        | [] => none
        | c9 :: r29 =>
          if c9 = ':' then
            match parseVal f r29 with
            | none => none
            | some (v9, r39) =>
              match skipWs r39 with
              | [] => none
              | c39 :: r49 =>
                if c39 = ',' then parseFields f (jsSet acc k v9) r49
                else if c39 = '\x7d' then some (jsSet acc k v9, r49)
                else none
          else none) = _
  rw [h3]
  show (match parseVal f r2 with
        | none => none
        | some (v9, r39) =>
          match skipWs r39 with
          | [] => none
          | c39 :: r49 =>
            if c39 = ',' then parseFields f (jsSet acc k v9) r49
            else if c39 = '\x7d' then some (jsSet acc k v9, r49)
            else none) = _
  rw [h4]
  show (match skipWs r3 with
        | [] => none
        | c39 :: r49 =>
          if c39 = ',' then parseFields f (jsSet acc k v) r49
          else if c39 = '\x7d' then some (jsSet acc k v, r49)
          else none) = _
  rw [h5]

/-- The serialization of the elements after the first of a pretty-printed
array: empty when the element is last, otherwise a comma, a newline and the
remaining indented elements. -/
def itemsTail (d : Nat) : List Json → Str
  | [] => []
  | y :: ys => ',' :: '\n' :: stringifyPItems d (y :: ys)

/-- The serialization of the members after the first of a pretty-printed
object. -/
def fieldsTail (d : Nat) : List (Str × Json) → Str
  | [] => []
  | g :: gs => ',' :: '\n' :: stringifyPFields d (g :: gs)

/-- Decomposition of a nonempty pretty-printed element list. -/
theorem stringifyPItems_cons (d : Nat) (x : Json) (xs : List Json) :
    stringifyPItems d (x :: xs) = ind d ++ stringifyP d x ++ itemsTail d xs := by
  cases xs <;> simp [stringifyPItems, itemsTail]

/-- Decomposition of a nonempty pretty-printed member list. -/
theorem stringifyPFields_cons (d : Nat) (k : Str) (v : Json) (fs : List (Str × Json)) :
    stringifyPFields d ((k, v) :: fs) =
      ind d ++ quoteStr k ++ ':' :: ' ' :: stringifyP d v ++ fieldsTail d fs := by
  cases fs <;> simp [stringifyPFields, fieldsTail]

/-- A pretty-printed value starts with a non-whitespace character that is
neither a closing bracket nor a closing brace. -/
theorem stringifyP_head (d : Nat) (v : Json) :
    ∃ c cs, stringifyP d v = c :: cs ∧ jsonWs c = false ∧ wsChar c = false ∧
      c ≠ ']' ∧ c ≠ '\x7d' := by
  cases v with
  | null => exact ⟨'n', _, rfl, rfl, rfl, by decide, by decide⟩
  | bool b => cases b with
    | true => exact ⟨'t', _, rfl, rfl, rfl, by decide, by decide⟩
    | false => exact ⟨'f', _, rfl, rfl, rfl, by decide, by decide⟩
  | num i =>
    cases i with
    | ofNat n =>
      obtain ⟨k, t, hk, he⟩ := natReprF_head (n + 1) n (Nat.lt_succ_self n)
      refine ⟨digitChar k, t, ?_, (digitChar_spec k hk).2.1, (digitChar_spec k hk).2.2,
        (digitChar_ne k hk).2.2.2.1, (digitChar_ne k hk).2.2.2.2.2.1⟩
      show natRepr n = digitChar k :: t
      exact he
    | negSucc m => exact ⟨'-', _, rfl, rfl, rfl, by decide, by decide⟩
  | str s => exact ⟨'"', _, rfl, rfl, rfl, by decide, by decide⟩
  | arr xs =>
    cases xs with
    | nil => exact ⟨'[', _, rfl, rfl, rfl, by decide, by decide⟩
    | cons x xs => exact ⟨'[', _, rfl, rfl, rfl, by decide, by decide⟩
  | obj fs =>
    cases fs with
    | nil => exact ⟨'\x7b', _, rfl, rfl, rfl, by decide, by decide⟩
    | cons g gs => exact ⟨'\x7b', _, rfl, rfl, rfl, by decide, by decide⟩

mutual

/-- Parser fuel consumed by a value. -/
def jfuel : Json → Nat
  | Json.arr xs => jfuelItems xs + 1
  | Json.obj fs => jfuelFields fs + 1
  | _ => 1

/-- Parser fuel consumed by array elements. -/
def jfuelItems : List Json → Nat
  | [] => 0
  | x :: xs => jfuel x + jfuelItems xs + 1

/-- Parser fuel consumed by object members. -/
def jfuelFields : List (Str × Json) → Nat
  | [] => 0
  | (_, v) :: fs => jfuel v + jfuelFields fs + 1

end

/-- A list with the key absent reports no match under any. -/
theorem any_eq_false_of_keyAbsent {k : Str} : ∀ {acc : List (Str × Json)},
    keyAbsent k acc = true → acc.any (fun p => p.1 = k) = false := by
  intro acc
  induction acc with
  | nil => intro _; rfl
  | cons p rest ih =>
    obtain ⟨k2, v2⟩ := p
    intro h
    simp only [keyAbsent, Bool.and_eq_true] at h
    have hne : k2 ≠ k := by
      by_cases he : k2 = k
      · rw [if_pos he] at h
        exact absurd h.1 (by decide)
      · exact he
    rw [List.any_cons, ih h.2]
    simp [hne]

/-- Writing an absent key appends the pair at the end. -/
theorem jsSet_append_of_absent {acc : List (Str × Json)} {k : Str} (v : Json)
    (h : keyAbsent k acc = true) : jsSet acc k v = acc ++ [(k, v)] := by
  unfold jsSet
  rw [any_eq_false_of_keyAbsent h]
  rfl

/-- Members of a list with the key absent have a different key. -/
theorem keyAbsent_mem {k : Str} : ∀ {fs : List (Str × Json)},
    keyAbsent k fs = true → ∀ p ∈ fs, p.1 ≠ k := by
  intro fs
  induction fs with
  | nil => intro _ p hp; exact absurd hp (List.not_mem_nil p)
  | cons q rest ih =>
    obtain ⟨k2, v2⟩ := q
    intro h p hp
    simp only [keyAbsent, Bool.and_eq_true] at h
    rcases List.mem_cons.mp hp with rfl | hp
    · show k2 ≠ k
      by_cases he : k2 = k
      · rw [if_pos he] at h
        exact absurd h.1 (by decide)
      · exact he
    · exact ih h.2 p hp

/-- Destructuring of well-formedness of a nonempty member list. -/
theorem wfFields_cons_iff {k : Str} {v : Json} {fs : List (Str × Json)}
    (h : wfFields ((k, v) :: fs) = true) :
    k.all okChar = true ∧ wfJson v = true ∧ keyAbsent k fs = true ∧ wfFields fs = true := by
  simpa [wfFields, Bool.and_eq_true, and_assoc] using h

/-- Destructuring of well-formedness of a nonempty element list. -/
theorem wfList_cons_iff {x : Json} {xs : List Json} (h : wfList (x :: xs) = true) :
    wfJson x = true ∧ wfList xs = true := by
  simpa [wfList, Bool.and_eq_true] using h

/-- The value parser ignores leading whitespace. -/
theorem parseVal_ws (f : Nat) {a : Str} (ha : ∀ c ∈ a, jsonWs c = true) (s : Str) :
    parseVal f (a ++ s) = parseVal f s := by
  cases f with
  | zero => rfl
  | succ f => rw [parseVal, parseVal, skipWs_append_ws ha]

/-- The element parser ignores leading whitespace. -/
theorem parseElems_ws (f : Nat) {a : Str} (ha : ∀ c ∈ a, jsonWs c = true) (s : Str) :
    parseElems f (a ++ s) = parseElems f s := by
  cases f with
  | zero => rfl
  | succ f => rw [parseElems, parseElems, parseVal_ws f ha]

/-- The member parser ignores leading whitespace. -/
theorem parseFields_ws (f : Nat) (acc : List (Str × Json)) {a : Str}
    (ha : ∀ c ∈ a, jsonWs c = true) (s : Str) :
    parseFields f acc (a ++ s) = parseFields f acc s := by
  cases f with
  | zero => rfl
  | succ f => rw [parseFields, parseFields, skipWs_append_ws ha]

/-- Every value consumes at least one unit of parser fuel. -/
theorem jfuel_pos : ∀ v, 1 ≤ jfuel v := by
  intro v
  cases v <;> (simp only [jfuel]; omega)

/-- A newline followed by indentation is all JSON whitespace. -/
theorem nl_ind_ws (d : Nat) : ∀ c ∈ ('\n' :: ind d : Str), jsonWs c = true := by
  intro c hc
  rcases List.mem_cons.mp hc with rfl | hc
  · rfl
  · exact ind_ws d c hc

/-- The text following an element inside a pretty-printed array starts with a
comma, whitespace or the closing bracket, never a digit. -/
theorem itemsTail_head_not_digit (d : Nat) (xs : List Json) (wsc final : Str)
    (hwsc : ∀ c ∈ wsc, jsonWs c = true) :
    ∀ c, (itemsTail d xs ++ (wsc ++ ']' :: final)).head? = some c → c.isDigit = false := by
  intro c hc
  cases xs with
  | nil =>
    cases wsc with
    | nil =>
      simp only [itemsTail, List.nil_append, List.head?_cons, Option.some.injEq] at hc
      subst hc
      decide
    | cons w ws =>
      simp only [itemsTail, List.nil_append, List.cons_append, List.head?_cons,
        Option.some.injEq] at hc
      subst hc
      exact jsonWs_not_digit (hwsc w (List.mem_cons_self _ _))
  | cons y ys =>
    simp only [itemsTail, List.cons_append, List.head?_cons, Option.some.injEq] at hc
    subst hc
    decide

/-- The text following a member value inside a pretty-printed object starts
with a comma, whitespace or the closing brace, never a digit. -/
theorem fieldsTail_head_not_digit (d : Nat) (fs : List (Str × Json)) (wsc final : Str)
    (hwsc : ∀ c ∈ wsc, jsonWs c = true) :
    ∀ c, (fieldsTail d fs ++ (wsc ++ '\x7d' :: final)).head? = some c → c.isDigit = false := by
  intro c hc
  cases fs with
  | nil =>
    cases wsc with
    | nil =>
      simp only [fieldsTail, List.nil_append, List.head?_cons, Option.some.injEq] at hc
      subst hc
      decide
    | cons w ws =>
      simp only [fieldsTail, List.nil_append, List.cons_append, List.head?_cons,
        Option.some.injEq] at hc
      subst hc
      exact jsonWs_not_digit (hwsc w (List.mem_cons_self _ _))
  | cons g gs =>
    simp only [fieldsTail, List.cons_append, List.head?_cons, Option.some.injEq] at hc
    subst hc
    decide


/-- Joint fuel-indexed round-trip statement for the three JSON parsers: at
fuel at least the value's fuel requirement, parsing the pretty serialization
recovers the value (and likewise for element lists and member lists). -/
theorem roundtrip_all : ∀ f : Nat,
    (∀ (v : Json) (d : Nat) (tail : Str), wfJson v = true → jfuel v ≤ f →
      (∀ c, tail.head? = some c → c.isDigit = false) →
      parseVal f (stringifyP d v ++ tail) = some (v, tail)) ∧
    (∀ (x : Json) (xs : List Json) (d : Nat) (wsc final : Str),
      wfList (x :: xs) = true → jfuelItems (x :: xs) ≤ f →
      (∀ c ∈ wsc, jsonWs c = true) →
      parseElems f (stringifyP d x ++ (itemsTail d xs ++ (wsc ++ ']' :: final))) =
        some (x :: xs, final)) ∧
    (∀ (k : Str) (v : Json) (fs acc : List (Str × Json)) (d : Nat) (wsc final : Str),
      wfFields ((k, v) :: fs) = true → jfuelFields ((k, v) :: fs) ≤ f →
      (∀ c ∈ wsc, jsonWs c = true) →
      (∀ p ∈ (k, v) :: fs, keyAbsent p.1 acc = true) →
      parseFields f acc (quoteStr k ++ (':' :: ' ' :: stringifyP d v ++
        (fieldsTail d fs ++ (wsc ++ '\x7d' :: final)))) =
        some (acc ++ (k, v) :: fs, final)) := by
  intro f
  induction f with
  | zero =>
    refine ⟨?_, ?_, ?_⟩
    · intro v d tail _ hf _
      exact absurd hf (by have := jfuel_pos v; omega)
    · intro x xs d wsc final _ hf _
      exact absurd hf (by
        have he1 : jfuelItems (x :: xs) = jfuel x + jfuelItems xs + 1 := rfl
        omega)
    · intro k v fs acc d wsc final _ hf _ _
      exact absurd hf (by
        have he1 : jfuelFields ((k, v) :: fs) = jfuel v + jfuelFields fs + 1 := rfl
        omega)
  | succ f' ih =>
    obtain ⟨ihV, ihI, ihF⟩ := ih
    refine ⟨?_, ?_, ?_⟩
    · intro v d tail hwf hf hrest
      cases v with
      | null => rfl
      | bool b =>
        cases b with
        | true => rfl
        | false => rfl
      | num i =>
        cases i with
        | ofNat n =>
          obtain ⟨k, t, hk, he⟩ := natReprF_head (n + 1) n (Nat.lt_succ_self n)
          have hs : stringifyP d (Json.num (Int.ofNat n)) ++ tail = digitChar k :: (t ++ tail) := by
            show natReprF (n + 1) n ++ tail = _
            rw [he]
            rfl
          have hskip : skipWs (digitChar k :: (t ++ tail)) = digitChar k :: (t ++ tail) :=
            skipWs_cons (digitChar_spec k hk).2.1 _
          rw [hs, parseVal_step f' hskip]
          rw [if_neg (digitChar_ne k hk).2.1, if_neg (digitChar_ne k hk).2.2.1,
            if_neg (digitChar_ne k hk).2.2.2.2.1, if_neg (digitChar_ne k hk).2.2.2.2.2.2.1,
            if_neg (digitChar_ne k hk).2.2.2.2.2.2.2.1, if_neg (digitChar_ne k hk).2.2.2.2.2.2.2.2]
          rw [show (digitChar k :: (t ++ tail) : Str) = (digitChar k :: t) ++ tail from rfl, ← he]
          rw [show (natReprF (n + 1) n ++ tail : Str) = intRepr (Int.ofNat n) ++ tail from rfl]
          rw [parseIntTok_intRepr (Int.ofNat n) hrest]
          rfl
        | negSucc m =>
          have hs : stringifyP d (Json.num (Int.negSucc m)) ++ tail =
              '-' :: (natRepr (m + 1) ++ tail) := rfl
          have hskip : skipWs ('-' :: (natRepr (m + 1) ++ tail)) =
              '-' :: (natRepr (m + 1) ++ tail) := skipWs_cons (by rfl) _
          rw [hs, parseVal_step f' hskip]
          rw [if_neg (by decide : ¬ ('-' : Char) = '"'), if_neg (by decide : ¬ ('-' : Char) = '['),
            if_neg (by decide : ¬ ('-' : Char) = '\x7b'), if_neg (by decide : ¬ ('-' : Char) = 't'),
            if_neg (by decide : ¬ ('-' : Char) = 'f'), if_neg (by decide : ¬ ('-' : Char) = 'n')]
          rw [show ('-' :: (natRepr (m + 1) ++ tail) : Str) = intRepr (Int.negSucc m) ++ tail from rfl]
          rw [parseIntTok_intRepr (Int.negSucc m) hrest]
          rfl
      | str cs =>
        have hwf' : cs.all okChar = true := hwf
        have hs : stringifyP d (Json.str cs) ++ tail =
            '"' :: (((cs.map quoteEsc).flatten ++ ['"']) ++ tail) := rfl
        have hskip : skipWs ('"' :: (((cs.map quoteEsc).flatten ++ ['"']) ++ tail)) =
            '"' :: (((cs.map quoteEsc).flatten ++ ['"']) ++ tail) := skipWs_cons (by rfl) _
        rw [hs, parseVal_step f' hskip, if_pos rfl]
        rw [show (((cs.map quoteEsc).flatten ++ ['"']) ++ tail : Str) =
            (cs.map quoteEsc).flatten ++ '"' :: tail from by simp [List.append_assoc]]
        rw [parseStrBody_quote cs tail hwf']
        rfl
      | arr xs =>
        cases xs with
        | nil => rfl
        | cons x xs =>
          have hx : wfJson x = true := (wfList_cons_iff hwf).1
          have hfI : jfuelItems (x :: xs) ≤ f' := by
            have he1 : jfuel (Json.arr (x :: xs)) = jfuelItems (x :: xs) + 1 := rfl
            omega
          have hs : stringifyP d (Json.arr (x :: xs)) ++ tail =
              '[' :: ('\n' :: (stringifyPItems (d + 1) (x :: xs) ++
                ('\n' :: (ind d ++ (']' :: tail))))) := by
            show ((('[' :: '\n' :: stringifyPItems (d + 1) (x :: xs)) ++ ('\n' :: ind d)) ++ [']'])
                ++ tail = _
            simp [List.append_assoc]
          have hskip1 : skipWs ('[' :: ('\n' :: (stringifyPItems (d + 1) (x :: xs) ++
              ('\n' :: (ind d ++ (']' :: tail)))))) =
              '[' :: ('\n' :: (stringifyPItems (d + 1) (x :: xs) ++
                ('\n' :: (ind d ++ (']' :: tail))))) := skipWs_cons (by rfl) _
          obtain ⟨c, cs, hhead, hws, _, hne1, hne2⟩ := stringifyP_head (d + 1) x
          have hskip2 : skipWs ('\n' :: (stringifyPItems (d + 1) (x :: xs) ++
              ('\n' :: (ind d ++ (']' :: tail))))) =
              stringifyP (d + 1) x ++ (itemsTail (d + 1) xs ++ (('\n' :: ind d) ++ ']' :: tail)) := by
            have h1 : ('\n' :: (stringifyPItems (d + 1) (x :: xs) ++
                ('\n' :: (ind d ++ (']' :: tail)))) : Str) =
                ('\n' :: ind (d + 1)) ++ (stringifyP (d + 1) x ++
                  (itemsTail (d + 1) xs ++ (('\n' :: ind d) ++ ']' :: tail))) := by
              rw [stringifyPItems_cons]
              simp [List.append_assoc]
            rw [h1, skipWs_append_ws (nl_ind_ws (d + 1)), hhead, List.cons_append]
            exact skipWs_cons hws _
          rw [hs, parseVal_step f' hskip1]
          rw [if_neg (by decide : ¬ ('[' : Char) = '"'), if_pos rfl]
          rw [hskip2]
          have hcond : ¬ ((stringifyP (d + 1) x ++ (itemsTail (d + 1) xs ++
              (('\n' :: ind d) ++ ']' :: tail))).head? = some ']') := by
            rw [hhead, List.cons_append]
            simp only [List.head?_cons, Option.some.injEq]
            exact hne1
          rw [if_neg hcond]
          rw [ihI x xs (d + 1) ('\n' :: ind d) tail hwf hfI (nl_ind_ws d)]
          rfl
      | obj fs =>
        cases fs with
        | nil => rfl
        | cons g gs =>
          obtain ⟨k, v⟩ := g
          have hfF : jfuelFields ((k, v) :: gs) ≤ f' := by
            have he1 : jfuel (Json.obj ((k, v) :: gs)) = jfuelFields ((k, v) :: gs) + 1 := rfl
            omega
          have hs : stringifyP d (Json.obj ((k, v) :: gs)) ++ tail =
              '\x7b' :: ('\n' :: (stringifyPFields (d + 1) ((k, v) :: gs) ++
                ('\n' :: (ind d ++ ('\x7d' :: tail))))) := by
            show ((('\x7b' :: '\n' :: stringifyPFields (d + 1) ((k, v) :: gs)) ++ ('\n' :: ind d))
                ++ ['\x7d']) ++ tail = _
            simp [List.append_assoc]
          have hskip1 : skipWs ('\x7b' :: ('\n' :: (stringifyPFields (d + 1) ((k, v) :: gs) ++
              ('\n' :: (ind d ++ ('\x7d' :: tail)))))) =
              '\x7b' :: ('\n' :: (stringifyPFields (d + 1) ((k, v) :: gs) ++
                ('\n' :: (ind d ++ ('\x7d' :: tail))))) := skipWs_cons (by rfl) _
          have hskip2 : skipWs ('\n' :: (stringifyPFields (d + 1) ((k, v) :: gs) ++
              ('\n' :: (ind d ++ ('\x7d' :: tail))))) =
              quoteStr k ++ (':' :: ' ' :: stringifyP (d + 1) v ++
                (fieldsTail (d + 1) gs ++ (('\n' :: ind d) ++ '\x7d' :: tail))) := by
            have h1 : ('\n' :: (stringifyPFields (d + 1) ((k, v) :: gs) ++
                ('\n' :: (ind d ++ ('\x7d' :: tail)))) : Str) =
                ('\n' :: ind (d + 1)) ++ (quoteStr k ++ (':' :: ' ' :: stringifyP (d + 1) v ++
                  (fieldsTail (d + 1) gs ++ (('\n' :: ind d) ++ '\x7d' :: tail)))) := by
              rw [stringifyPFields_cons]
              simp [List.append_assoc]
            rw [h1, skipWs_append_ws (nl_ind_ws (d + 1))]
            exact skipWs_cons (by rfl) _
          rw [hs, parseVal_step f' hskip1]
          rw [if_neg (by decide : ¬ ('\x7b' : Char) = '"'),
            if_neg (by decide : ¬ ('\x7b' : Char) = '['), if_pos rfl]
          rw [hskip2]
          have hcond : ¬ ((quoteStr k ++ (':' :: ' ' :: stringifyP (d + 1) v ++
              (fieldsTail (d + 1) gs ++ (('\n' :: ind d) ++ '\x7d' :: tail)))).head? =
              some '\x7d') := by
            rw [show ((quoteStr k ++ (':' :: ' ' :: stringifyP (d + 1) v ++
              (fieldsTail (d + 1) gs ++ (('\n' :: ind d) ++ '\x7d' :: tail)))).head? : Option Char) =
              some '"' from rfl]
            decide
          rw [if_neg hcond]
          rw [ihF k v gs [] (d + 1) ('\n' :: ind d) tail hwf hfF (nl_ind_ws d)
            (fun p _ => rfl)]
          rfl
    · intro x xs d wsc final hwf hf hwsc
      have hx : wfJson x = true := (wfList_cons_iff hwf).1
      have hxs : wfList xs = true := (wfList_cons_iff hwf).2
      have hfx : jfuel x ≤ f' := by
        have he1 : jfuelItems (x :: xs) = jfuel x + jfuelItems xs + 1 := rfl
        omega
      have hval : parseVal f' (stringifyP d x ++ (itemsTail d xs ++ (wsc ++ ']' :: final))) =
          some (x, itemsTail d xs ++ (wsc ++ ']' :: final)) :=
        ihV x d _ hx hfx (itemsTail_head_not_digit d xs wsc final hwsc)
      cases xs with
      | nil =>
        have hsep : skipWs (itemsTail d ([] : List Json) ++ (wsc ++ ']' :: final)) =
            ']' :: final := by
          show skipWs ([] ++ (wsc ++ ']' :: final)) = ']' :: final
          rw [List.nil_append, skipWs_append_ws hwsc]
          exact skipWs_cons (by rfl) _
        rw [parseElems_step f' hval hsep]
        rw [if_neg (by decide : ¬ (']' : Char) = ','), if_pos rfl]
      | cons y ys =>
        have hsep : skipWs (itemsTail d (y :: ys) ++ (wsc ++ ']' :: final)) =
            ',' :: ('\n' :: (stringifyPItems d (y :: ys) ++ (wsc ++ ']' :: final))) := by
          show skipWs ((',' :: '\n' :: stringifyPItems d (y :: ys)) ++ (wsc ++ ']' :: final)) = _
          exact skipWs_cons (by rfl) _
        rw [parseElems_step f' hval hsep, if_pos rfl]
        have h1 : ('\n' :: (stringifyPItems d (y :: ys) ++ (wsc ++ ']' :: final)) : Str) =
            ('\n' :: ind d) ++ (stringifyP d y ++ (itemsTail d ys ++ (wsc ++ ']' :: final))) := by
          rw [stringifyPItems_cons]
          simp [List.append_assoc]
        rw [h1, parseElems_ws f' (nl_ind_ws d) _]
        rw [ihI y ys d wsc final hxs (by
          have he1 : jfuelItems (x :: y :: ys) = jfuel x + jfuelItems (y :: ys) + 1 := rfl
          have he2 := jfuel_pos x
          omega) hwsc]
    · intro k v fs acc d wsc final hwf hf hwsc habs
      obtain ⟨hk, hv, habsk, hwffs⟩ := wfFields_cons_iff hwf
      have hfv : jfuel v ≤ f' := by
        have he1 : jfuelFields ((k, v) :: fs) = jfuel v + jfuelFields fs + 1 := rfl
        omega
      have h1 : skipWs (quoteStr k ++ (':' :: ' ' :: stringifyP d v ++
          (fieldsTail d fs ++ (wsc ++ '\x7d' :: final)))) =
          '"' :: (((k.map quoteEsc).flatten ++ ['"']) ++ (':' :: ' ' :: stringifyP d v ++
            (fieldsTail d fs ++ (wsc ++ '\x7d' :: final)))) := skipWs_cons (by rfl) _
      have h2 : parseStrBody (((k.map quoteEsc).flatten ++ ['"']) ++ (':' :: ' ' :: stringifyP d v ++
          (fieldsTail d fs ++ (wsc ++ '\x7d' :: final)))) =
          some (k, ':' :: ' ' :: stringifyP d v ++ (fieldsTail d fs ++ (wsc ++ '\x7d' :: final))) := by
        rw [show (((k.map quoteEsc).flatten ++ ['"']) ++ (':' :: ' ' :: stringifyP d v ++
            (fieldsTail d fs ++ (wsc ++ '\x7d' :: final))) : Str) =
          (k.map quoteEsc).flatten ++ '"' :: (':' :: ' ' :: stringifyP d v ++
            (fieldsTail d fs ++ (wsc ++ '\x7d' :: final))) from by simp [List.append_assoc]]
        exact parseStrBody_quote k _ hk
      have h3 : skipWs (':' :: ' ' :: stringifyP d v ++
          (fieldsTail d fs ++ (wsc ++ '\x7d' :: final))) =
          ':' :: (' ' :: (stringifyP d v ++ (fieldsTail d fs ++ (wsc ++ '\x7d' :: final)))) :=
        skipWs_cons (by rfl) _
      have h4 : parseVal f' (' ' :: (stringifyP d v ++
          (fieldsTail d fs ++ (wsc ++ '\x7d' :: final)))) =
          some (v, fieldsTail d fs ++ (wsc ++ '\x7d' :: final)) := by
        rw [show (' ' :: (stringifyP d v ++ (fieldsTail d fs ++ (wsc ++ '\x7d' :: final))) : Str) =
          [' '] ++ (stringifyP d v ++ (fieldsTail d fs ++ (wsc ++ '\x7d' :: final))) from rfl]
        rw [parseVal_ws f' (by intro c hc; rcases List.mem_singleton.mp hc with rfl; rfl) _]
        exact ihV v d _ hv hfv (fieldsTail_head_not_digit d fs wsc final hwsc)
      cases fs with
      | nil =>
        have h5 : skipWs (fieldsTail d ([] : List (Str × Json)) ++ (wsc ++ '\x7d' :: final)) =
            '\x7d' :: final := by
          show skipWs ([] ++ (wsc ++ '\x7d' :: final)) = '\x7d' :: final
          rw [List.nil_append, skipWs_append_ws hwsc]
          exact skipWs_cons (by rfl) _
        rw [parseFields_step f' acc h1 h2 h3 h4 h5]
        rw [if_neg (by decide : ¬ ('\x7d' : Char) = ','), if_pos rfl]
        rw [jsSet_append_of_absent v (habs (k, v) (List.mem_cons_self _ _))]
      | cons g gs =>
        obtain ⟨k2, v2⟩ := g
        have h5 : skipWs (fieldsTail d ((k2, v2) :: gs) ++ (wsc ++ '\x7d' :: final)) =
            ',' :: ('\n' :: (stringifyPFields d ((k2, v2) :: gs) ++ (wsc ++ '\x7d' :: final))) := by
          show skipWs ((',' :: '\n' :: stringifyPFields d ((k2, v2) :: gs)) ++
            (wsc ++ '\x7d' :: final)) = _
          exact skipWs_cons (by rfl) _
        rw [parseFields_step f' acc h1 h2 h3 h4 h5, if_pos rfl]
        have h6 : ('\n' :: (stringifyPFields d ((k2, v2) :: gs) ++ (wsc ++ '\x7d' :: final)) : Str) =
            ('\n' :: ind d) ++ (quoteStr k2 ++ (':' :: ' ' :: stringifyP d v2 ++
              (fieldsTail d gs ++ (wsc ++ '\x7d' :: final)))) := by
          rw [stringifyPFields_cons]
          simp [List.append_assoc]
        rw [h6, parseFields_ws f' _ (nl_ind_ws d) _]
        rw [jsSet_append_of_absent v (habs (k, v) (List.mem_cons_self _ _))]
        rw [ihF k2 v2 gs (acc ++ [(k, v)]) d wsc final hwffs (by
            have he1 : jfuelFields ((k, v) :: (k2, v2) :: gs) =
                jfuel v + jfuelFields ((k2, v2) :: gs) + 1 := rfl
            omega) hwsc (by
            intro p hp
            rw [keyAbsent_append p.1 k v acc (by
              have hne := keyAbsent_mem habsk p hp
              exact fun he => hne he.symm)]
            exact habs p (List.mem_cons_of_mem _ hp))]
        simp [List.append_assoc]

/-- Parsing the pretty serialization of a well-formed value recovers the
value, leaving the trailing text (which must not start with a digit)
untouched. -/
theorem roundtripVal (v : Json) (d : Nat) (tail : Str) (f : Nat)
    (hwf : wfJson v = true) (hf : jfuel v ≤ f)
    (hrest : ∀ c, tail.head? = some c → c.isDigit = false) :
    parseVal f (stringifyP d v ++ tail) = some (v, tail) :=
  (roundtrip_all f).1 v d tail hwf hf hrest

/-- Joint bound: the parser fuel required by a value is at most twice the
length of its pretty serialization (elements need indentation depth at least
one, as produced by the serializer). -/
theorem jfuel_le_len : ∀ N : Nat,
    (∀ (v : Json) (d : Nat), jfuel v ≤ N → jfuel v ≤ 2 * (stringifyP d v).length) ∧
    (∀ (x : Json) (xs : List Json) (d : Nat), jfuelItems (x :: xs) ≤ N → 1 ≤ d →
      jfuelItems (x :: xs) ≤ 2 * (stringifyPItems d (x :: xs)).length) ∧
    (∀ (k : Str) (v : Json) (fs : List (Str × Json)) (d : Nat),
      jfuelFields ((k, v) :: fs) ≤ N →
      jfuelFields ((k, v) :: fs) ≤ 2 * (stringifyPFields d ((k, v) :: fs)).length) := by
  intro N
  induction N with
  | zero =>
    refine ⟨?_, ?_, ?_⟩
    · intro v d hf
      exact absurd hf (by have := jfuel_pos v; omega)
    · intro x xs d hf _
      exact absurd hf (by
        have he1 : jfuelItems (x :: xs) = jfuel x + jfuelItems xs + 1 := rfl
        omega)
    · intro k v fs d hf
      exact absurd hf (by
        have he1 : jfuelFields ((k, v) :: fs) = jfuel v + jfuelFields fs + 1 := rfl
        omega)
  | succ N ih =>
    obtain ⟨ihV, ihI, ihF⟩ := ih
    refine ⟨?_, ?_, ?_⟩
    · intro v d hf
      cases v with
      | null =>
        have h1 : (stringifyP d Json.null).length = 4 := rfl
        have h2 : jfuel Json.null = 1 := rfl
        omega
      | bool b =>
        cases b with
        | true =>
          have h1 : (stringifyP d (Json.bool true)).length = 4 := rfl
          have h2 : jfuel (Json.bool true) = 1 := rfl
          omega
        | false =>
          have h1 : (stringifyP d (Json.bool false)).length = 5 := rfl
          have h2 : jfuel (Json.bool false) = 1 := rfl
          omega
      | num i =>
        obtain ⟨c, cs, hhead, _, _, _, _⟩ := stringifyP_head d (Json.num i)
        have h1 : jfuel (Json.num i) = 1 := rfl
        rw [hhead]
        simp only [List.length_cons]
        omega
      | str s =>
        obtain ⟨c, cs, hhead, _, _, _, _⟩ := stringifyP_head d (Json.str s)
        have h1 : jfuel (Json.str s) = 1 := rfl
        rw [hhead]
        simp only [List.length_cons]
        omega
      | arr xs =>
        cases xs with
        | nil =>
          have h1 : (stringifyP d (Json.arr [])).length = 2 := rfl
          have h2 : jfuel (Json.arr []) = 1 := rfl
          omega
        | cons x xs =>
          have h1 : jfuel (Json.arr (x :: xs)) = jfuelItems (x :: xs) + 1 := rfl
          have hlen : (stringifyP d (Json.arr (x :: xs))).length =
              (stringifyPItems (d + 1) (x :: xs)).length + 2 * d + 4 := by
            show ((('[' :: '\n' :: stringifyPItems (d + 1) (x :: xs)) ++ ('\n' :: ind d))
              ++ [']']).length = _
            simp only [List.length_append, List.length_cons, ind, List.length_replicate,
              List.length_nil]
            omega
          have hI : jfuelItems (x :: xs) ≤ 2 * (stringifyPItems (d + 1) (x :: xs)).length := by
            refine ihI x xs (d + 1) ?_ (by omega)
            omega
          omega
      | obj fs =>
        cases fs with
        | nil =>
          have h1 : (stringifyP d (Json.obj [])).length = 2 := rfl
          have h2 : jfuel (Json.obj []) = 1 := rfl
          omega
        | cons g gs =>
          obtain ⟨k, v⟩ := g
          have h1 : jfuel (Json.obj ((k, v) :: gs)) = jfuelFields ((k, v) :: gs) + 1 := rfl
          have hlen : (stringifyP d (Json.obj ((k, v) :: gs))).length =
              (stringifyPFields (d + 1) ((k, v) :: gs)).length + 2 * d + 4 := by
            show ((('\x7b' :: '\n' :: stringifyPFields (d + 1) ((k, v) :: gs)) ++ ('\n' :: ind d))
              ++ ['\x7d']).length = _
            simp only [List.length_append, List.length_cons, ind, List.length_replicate,
              List.length_nil]
            omega
          have hF : jfuelFields ((k, v) :: gs) ≤
              2 * (stringifyPFields (d + 1) ((k, v) :: gs)).length := by
            refine ihF k v gs (d + 1) ?_
            omega
          omega
    · intro x xs d hf hd
      have he1 : jfuelItems (x :: xs) = jfuel x + jfuelItems xs + 1 := rfl
      have hV : jfuel x ≤ 2 * (stringifyP d x).length := by
        refine ihV x d ?_
        omega
      cases xs with
      | nil =>
        have hlen : (stringifyPItems d [x]).length = 2 * d + (stringifyP d x).length := by
          show (ind d ++ stringifyP d x).length = _
          simp only [List.length_append, ind, List.length_replicate]
        have he2 : jfuelItems [x] = jfuel x + 1 := rfl
        omega
      | cons y ys =>
        have he2 : jfuelItems (y :: ys) = jfuel y + jfuelItems ys + 1 := rfl
        have hI : jfuelItems (y :: ys) ≤ 2 * (stringifyPItems d (y :: ys)).length := by
          refine ihI y ys d ?_ hd
          have := jfuel_pos x
          omega
        have hlen : (stringifyPItems d (x :: y :: ys)).length =
            2 * d + (stringifyP d x).length + 2 + (stringifyPItems d (y :: ys)).length := by
          show ((ind d ++ stringifyP d x) ++
            (',' :: '\n' :: stringifyPItems d (y :: ys))).length = _
          simp only [List.length_append, List.length_cons, ind, List.length_replicate]
          omega
        omega
    · intro k v fs d hf
      have he1 : jfuelFields ((k, v) :: fs) = jfuel v + jfuelFields fs + 1 := rfl
      have hV : jfuel v ≤ 2 * (stringifyP d v).length := by
        refine ihV v d ?_
        omega
      cases fs with
      | nil =>
        have hlen : (stringifyPFields d [(k, v)]).length =
            2 * d + (quoteStr k).length + 2 + (stringifyP d v).length := by
          show (((ind d ++ quoteStr k) ++ (':' :: ' ' :: stringifyP d v))).length = _
          simp only [List.length_append, List.length_cons, ind, List.length_replicate]
          omega
        have he2 : jfuelFields [(k, v)] = jfuel v + 1 := rfl
        omega
      | cons g gs =>
        obtain ⟨k2, v2⟩ := g
        have he2 : jfuelFields ((k2, v2) :: gs) = jfuel v2 + jfuelFields gs + 1 := rfl
        have hF : jfuelFields ((k2, v2) :: gs) ≤
            2 * (stringifyPFields d ((k2, v2) :: gs)).length := by
          refine ihF k2 v2 gs d ?_
          have := jfuel_pos v
          omega
        have hlen : (stringifyPFields d ((k, v) :: (k2, v2) :: gs)).length =
            2 * d + (quoteStr k).length + 2 + (stringifyP d v).length + 2 +
              (stringifyPFields d ((k2, v2) :: gs)).length := by
          show ((((ind d ++ quoteStr k) ++ (':' :: ' ' :: stringifyP d v))) ++
            (',' :: '\n' :: stringifyPFields d ((k2, v2) :: gs))).length = _
          simp only [List.length_append, List.length_cons, ind, List.length_replicate]
          omega
        omega

/-- The parser fuel a value requires is within the fuel budget jsonParse
grants its serialization. -/
theorem jfuel_le_stringifyP (v : Json) (d : Nat) : jfuel v ≤ 2 * (stringifyP d v).length :=
  (jfuel_le_len (jfuel v)).1 v d le_rfl

/-- Parsing the two-space pretty serialization of a well-formed value
recovers the value exactly. -/
theorem jsonParse_pretty (v : Json) (hwf : wfJson v = true) :
    jsonParse (jsonPretty v) = some v := by
  unfold jsonParse
  have hb : jfuel v ≤ 2 * (stringifyP 0 v).length + 2 := by
    have := jfuel_le_stringifyP v 0
    omega
  have h := roundtripVal v 0 [] (2 * (stringifyP 0 v).length + 2) hwf hb
    (fun c hc => by simp at hc)
  rw [List.append_nil] at h
  rw [show jsonPretty v = stringifyP 0 v from rfl, h]
  rfl

/-- The last character of a decimal representation is a digit character. -/
theorem natReprF_last : ∀ fuel n, n < fuel →
    ∃ k, k < 10 ∧ (natReprF fuel n).getLast? = some (digitChar k) := by
  intro fuel
  induction fuel with
  | zero => intro n h; omega
  | succ f ih =>
    intro n h
    rw [natReprF]
    by_cases h10 : n < 10
    · rw [if_pos h10]
      exact ⟨n, h10, rfl⟩
    · rw [if_neg h10]
      exact ⟨n % 10, Nat.mod_lt n (by norm_num), List.getLast?_concat _⟩

/-- A pretty-printed value ends with a non-whitespace character. -/
theorem stringifyP_last (d : Nat) (v : Json) :
    ∃ c, (stringifyP d v).getLast? = some c ∧ wsChar c = false := by
  cases v with
  | null => exact ⟨'l', rfl, rfl⟩
  | bool b =>
    cases b with
    | true => exact ⟨'e', rfl, rfl⟩
    | false => exact ⟨'e', rfl, rfl⟩
  | num i =>
    cases i with
    | ofNat n =>
      obtain ⟨k, hk, he⟩ := natReprF_last (n + 1) n (Nat.lt_succ_self n)
      exact ⟨digitChar k, he, (digitChar_spec k hk).2.2⟩
    | negSucc m =>
      obtain ⟨k, hk, he⟩ := natReprF_last (m + 2) (m + 1) (Nat.lt_succ_self _)
      refine ⟨digitChar k, ?_, (digitChar_spec k hk).2.2⟩
      show (('-' :: natReprF (m + 2) (m + 1) : Str)).getLast? = some (digitChar k)
      rw [show ('-' :: natReprF (m + 2) (m + 1) : Str) = ['-'] ++ natReprF (m + 2) (m + 1)
        from rfl]
      rw [List.getLast?_append_of_ne_nil, he]
      intro hnil
      rw [hnil] at he
      exact Option.noConfusion he
  | str s =>
    refine ⟨'"', ?_, rfl⟩
    show (('"' :: ((s.map quoteEsc).flatten ++ ['"']) : Str)).getLast? = some '"'
    rw [show ('"' :: ((s.map quoteEsc).flatten ++ ['"']) : Str) =
      ('"' :: (s.map quoteEsc).flatten) ++ ['"'] from by simp]
    exact List.getLast?_concat _
  | arr xs =>
    cases xs with
    | nil => exact ⟨']', rfl, rfl⟩
    | cons x xs =>
      refine ⟨']', ?_, rfl⟩
      show ((('[' :: '\n' :: stringifyPItems (d + 1) (x :: xs)) ++ ('\n' :: ind d))
        ++ [']']).getLast? = some ']'
      exact List.getLast?_concat _
  | obj fs =>
    cases fs with
    | nil => exact ⟨'\x7d', rfl, rfl⟩
    | cons g gs =>
      obtain ⟨k, v⟩ := g
      refine ⟨'\x7d', ?_, rfl⟩
      show ((('\x7b' :: '\n' :: stringifyPFields (d + 1) ((k, v) :: gs)) ++ ('\n' :: ind d))
        ++ ['\x7d']).getLast? = some '\x7d'
      exact List.getLast?_concat _

/-- A pretty-printed value is untouched by JavaScript trim. -/
theorem jsTrim_jsonPretty (v : Json) : jsTrim (jsonPretty v) = jsonPretty v := by
  obtain ⟨c, cs, hhead, _, hws, _, _⟩ := stringifyP_head 0 v
  obtain ⟨e, hlast, hlws⟩ := stringifyP_last 0 v
  refine jsTrim_eq_self ?_ ?_
  · intro c2 hc2
    rw [show jsonPretty v = stringifyP 0 v from rfl, hhead] at hc2
    simp only [List.head?_cons, Option.some.injEq] at hc2
    subst hc2
    exact hws
  · intro c2 hc2
    rw [show jsonPretty v = stringifyP 0 v from rfl, hlast] at hc2
    injection hc2 with hc2
    subst hc2
    exact hlws

/-- A pretty-printed value is nonempty. -/
theorem jsonPretty_ne_nil (v : Json) : jsonPretty v ≠ [] := by
  obtain ⟨c, cs, hhead, _, _, _, _⟩ := stringifyP_head 0 v
  rw [show jsonPretty v = stringifyP 0 v from rfl, hhead]
  exact List.cons_ne_nil c cs

/-- A successful parse of a brace-led text yields an object. -/
theorem jsonParse_obj_of_head {s : Str} {v : Json} (h : jsonParse s = some v)
    (hh : s.head? = some '\x7b') : ∃ fs, v = Json.obj fs := by
  cases s with
  | nil => exact Option.noConfusion hh
  | cons c cs =>
    injection hh with hh
    subst hh
    unfold jsonParse at h
    obtain ⟨F, hF⟩ : ∃ F, 2 * ('\x7b' :: cs : Str).length + 2 = Nat.succ F :=
      ⟨2 * ('\x7b' :: cs : Str).length + 1, rfl⟩
    rw [hF, parseVal_step F (skipWs_cons (by rfl) cs)] at h
    rw [if_neg (by decide : ¬ ('\x7b' : Char) = '"'),
      if_neg (by decide : ¬ ('\x7b' : Char) = '['), if_pos rfl] at h
    by_cases hb : (skipWs cs).head? = some '\x7d'
    · rw [if_pos hb] at h
      split at h
      · rename_i v2 r2 heq
        injection heq with heq1
        injection heq1 with hv hr
        split at h
        · injection h with h
          exact ⟨[], by rw [← h, ← hv]⟩
        · exact Option.noConfusion h
      · rename_i heq
        exact Option.noConfusion heq
    · rw [if_neg hb] at h
      split at h
      · rename_i v2 r2 heq
        rcases Option.map_eq_some'.mp heq with ⟨q, hq, hpair⟩
        injection hpair with hv hr
        split at h
        · injection h with h
          exact ⟨q.1, by rw [← h, ← hv]⟩
        · exact Option.noConfusion h
      · exact Option.noConfusion h

/-- A successful parse of a bracket-led text yields an array. -/
theorem jsonParse_arr_of_head {s : Str} {v : Json} (h : jsonParse s = some v)
    (hh : s.head? = some '[') : ∃ xs, v = Json.arr xs := by
  cases s with
  | nil => exact Option.noConfusion hh
  | cons c cs =>
    injection hh with hh
    subst hh
    unfold jsonParse at h
    obtain ⟨F, hF⟩ : ∃ F, 2 * ('[' :: cs : Str).length + 2 = Nat.succ F :=
      ⟨2 * ('[' :: cs : Str).length + 1, rfl⟩
    rw [hF, parseVal_step F (skipWs_cons (by rfl) cs)] at h
    rw [if_neg (by decide : ¬ ('[' : Char) = '"'), if_pos rfl] at h
    by_cases hb : (skipWs cs).head? = some ']'
    · rw [if_pos hb] at h
      split at h
      · rename_i v2 r2 heq
        injection heq with heq1
        injection heq1 with hv hr
        split at h
        · injection h with h
          exact ⟨[], by rw [← h, ← hv]⟩
        · exact Option.noConfusion h
      · rename_i heq
        exact Option.noConfusion heq
    · rw [if_neg hb] at h
      split at h
      · rename_i v2 r2 heq
        rcases Option.map_eq_some'.mp heq with ⟨q, hq, hpair⟩
        injection hpair with hv hr
        split at h
        · injection h with h
          exact ⟨q.1, by rw [← h, ← hv]⟩
        · exact Option.noConfusion h
      · exact Option.noConfusion h

/-- The pretty form of an object is brace-delimited. -/
theorem jsonPretty_obj_shape (fs : List (Str × Json)) :
    (jsonPretty (Json.obj fs)).head? = some '\x7b' ∧
    strEnds (jsonPretty (Json.obj fs)) (str "\x7d") = true := by
  cases fs with
  | nil => exact ⟨rfl, rfl⟩
  | cons g gs =>
    obtain ⟨k, v⟩ := g
    refine ⟨rfl, ?_⟩
    show strEnds ((('\x7b' :: '\n' :: stringifyPFields 1 ((k, v) :: gs)) ++ ('\n' :: ind 0))
      ++ ['\x7d']) ['\x7d'] = true
    exact strEnds_append _ _

/-- The pretty form of an array is bracket-delimited. -/
theorem jsonPretty_arr_shape (xs : List Json) :
    (jsonPretty (Json.arr xs)).head? = some '[' ∧
    strEnds (jsonPretty (Json.arr xs)) (str "]") = true := by
  cases xs with
  | nil => exact ⟨rfl, rfl⟩
  | cons x xs =>
    refine ⟨rfl, ?_⟩
    show strEnds ((('[' :: '\n' :: stringifyPItems 1 (x :: xs)) ++ ('\n' :: ind 0))
      ++ [']']) [']'] = true
    exact strEnds_append _ _

/-- Does the text contain a greater-than sign immediately followed by a
newline? -/
def hasGtNl : Str → Bool
  | [] => false
  | c :: cs => (c = '>' && cs.head? = some '\n') || hasGtNl cs

/-- The marker pair is preserved by consing. -/
theorem hasGtNl_cons_of {c : Char} {cs : Str} (h : hasGtNl cs = true) :
    hasGtNl (c :: cs) = true := by
  simp [hasGtNl, h]

/-- The marker pair survives behind a head that is not a greater-than sign. -/
theorem hasGtNl_cons_elim {c : Char} {cs : Str} (h : hasGtNl (c :: cs) = true)
    (hc : c ≠ '>') : hasGtNl cs = true := by
  simp only [hasGtNl, Bool.or_eq_true, Bool.and_eq_true, decide_eq_true_eq] at h
  rcases h with ⟨h1, _⟩ | h
  · exact absurd h1 hc
  · exact h

/-- The marker pair survives dropping a front block without greater-than
signs. -/
theorem hasGtNl_drop_front : ∀ (a : Str) {b : Str}, (∀ c ∈ a, c ≠ '>') →
    hasGtNl (a ++ b) = true → hasGtNl b = true := by
  intro a
  induction a with
  | nil => intro b _ h; exact h
  | cons x xs ih =>
    intro b ha h
    exact ih (fun c hc => ha c (List.mem_cons_of_mem x hc))
      (hasGtNl_cons_elim h (ha x (List.mem_cons_self x xs)))

/-- The marker pair survives dropWhile for predicates failing on the
greater-than sign. -/
theorem hasGtNl_dropWhile {p : Char → Bool} (hp : p '>' = false) : ∀ {s : Str},
    hasGtNl s = true → hasGtNl (s.dropWhile p) = true := by
  intro s
  induction s with
  | nil => intro h; exact h
  | cons c cs ih =>
    intro h
    rw [List.dropWhile_cons]
    by_cases hc : p c = true
    · rw [if_pos hc]
      refine ih (hasGtNl_cons_elim h ?_)
      intro he
      rw [he] at hc
      rw [hc] at hp
      exact Bool.noConfusion hp
    · rw [if_neg hc]
      exact h

/-- Dropping the length of the takeWhile block is dropWhile. -/
theorem drop_takeWhile_length (p : Char → Bool) : ∀ l : Str,
    l.drop (l.takeWhile p).length = l.dropWhile p := by
  intro l
  induction l with
  | nil => rfl
  | cons c cs ih =>
    rw [List.takeWhile_cons, List.dropWhile_cons]
    by_cases hc : p c = true
    · rw [if_pos hc, if_pos hc]
      simpa using ih
    · rw [if_neg hc, if_neg hc]
      rfl

/-- The string-body parser never consumes the marker pair. -/
theorem parseStrBody_gtnl : ∀ (N : Nat) (s : Str), s.length ≤ N → ∀ k r,
    parseStrBody s = some (k, r) → hasGtNl s = true → hasGtNl r = true := by
  intro N
  induction N with
  | zero =>
    intro s hlen k r h hg
    have : s = [] := List.eq_nil_of_length_eq_zero (by omega)
    rw [this] at h
    exact Option.noConfusion h
  | succ N ih =>
    intro s hlen k r h hg
    cases s with
    | nil => exact Option.noConfusion h
    | cons c cs =>
      rw [parseStrBody_cons] at h
      by_cases h1 : c = '"'
      · rw [if_pos h1] at h
        injection h with h2
        injection h2 with hk hr
        rw [← hr]
        exact hasGtNl_cons_elim hg (by rw [h1]; decide)
      · rw [if_neg h1] at h
        by_cases h2 : c = '\\'
        · rw [if_pos h2] at h
          cases cs with
          | nil => exact Option.noConfusion h
          | cons e rest2 =>
            replace h : (match unescapeChar e with
              | none => none
              | some u =>
                match parseStrBody rest2 with
                | none => none
                | some (s, r) => some (u :: s, r)) = some (k, r) := h
            cases hu : unescapeChar e with
            | none => rw [hu] at h; exact Option.noConfusion h
            | some u =>
              rw [hu] at h
              cases hp : parseStrBody rest2 with
              | none => rw [hp] at h; exact Option.noConfusion h
              | some q =>
                obtain ⟨s2, r2⟩ := q
                rw [hp] at h
                injection h with h3
                injection h3 with hk hr
                rw [← hr]
                have he : e ≠ '>' := by
                  intro heq
                  rw [heq] at hu
                  exact Option.noConfusion hu
                have hg2 : hasGtNl (e :: rest2) = true :=
                  hasGtNl_cons_elim hg (by rw [h2]; decide)
                refine ih rest2 (by
                  simp only [List.length_cons] at hlen ⊢
                  omega) s2 r2 hp (hasGtNl_cons_elim hg2 he)
        · rw [if_neg h2] at h
          by_cases h3 : c.toNat < 0x20
          · rw [if_pos h3] at h
            exact Option.noConfusion h
          · rw [if_neg h3] at h
            cases hp : parseStrBody cs with
            | none => rw [hp] at h; exact Option.noConfusion h
            | some q =>
              obtain ⟨s2, r2⟩ := q
              rw [hp] at h
              injection h with h4
              injection h4 with hk hr
              rw [← hr]
              by_cases hc : c = '>'
              · subst hc
                simp only [hasGtNl, Bool.or_eq_true, Bool.and_eq_true, decide_eq_true_eq] at hg
                rcases hg with ⟨_, hhd⟩ | hg
                · exfalso
                  cases cs with
                  | nil => exact Option.noConfusion hhd
                  | cons c2 cs2 =>
                    injection hhd with hhd
                    subst hhd
                    rw [show parseStrBody ('\n' :: cs2) = none from by
                      rw [parseStrBody_cons, if_neg (by decide), if_neg (by decide),
                        if_pos (by decide)]] at hp
                    exact Option.noConfusion hp
                · exact ih cs (by simp only [List.length_cons] at hlen; omega) s2 r2 hp hg
              · exact ih cs (by simp only [List.length_cons] at hlen; omega) s2 r2 hp
                  (hasGtNl_cons_elim hg hc)

/-- The unsigned-integer token parser never consumes the marker pair. -/
theorem parseNatTok_gtnl {s r : Str} {n : Nat} (h : parseNatTok s = some (n, r))
    (hg : hasGtNl s = true) : hasGtNl r = true := by
  cases s with
  | nil => exact Option.noConfusion h
  | cons c cs =>
    rw [parseNatTok] at h
    by_cases h1 : c = '0'
    · rw [if_pos h1] at h
      injection h with h2
      injection h2 with hn hr
      rw [← hr]
      exact hasGtNl_cons_elim hg (by rw [h1]; decide)
    · rw [if_neg h1] at h
      by_cases h2 : c.isDigit = true
      · rw [if_pos h2] at h
        injection h with h3
        injection h3 with hn hr
        rw [← hr, drop_takeWhile_length]
        exact hasGtNl_dropWhile (by decide) hg
      · rw [if_neg h2] at h
        exact Option.noConfusion h

/-- The signed-integer token parser never consumes the marker pair. -/
theorem parseIntTok_gtnl {s r : Str} {i : Int} (h : parseIntTok s = some (i, r))
    (hg : hasGtNl s = true) : hasGtNl r = true := by
  cases s with
  | nil => exact Option.noConfusion h
  | cons c cs =>
    rw [parseIntTok] at h
    by_cases h1 : c = '-'
    · rw [if_pos h1] at h
      cases hp : parseNatTok cs with
      | none => rw [hp] at h; exact Option.noConfusion h
      | some q =>
        obtain ⟨n2, r2⟩ := q
        rw [hp, Option.map_some'] at h
        injection h with h2
        injection h2 with hn hr
        rw [← hr]
        exact parseNatTok_gtnl hp (hasGtNl_cons_elim hg (by rw [h1]; decide))
    · rw [if_neg h1] at h
      cases hp : parseNatTok (c :: cs) with
      | none => rw [hp] at h; exact Option.noConfusion h
      | some q =>
        obtain ⟨n2, r2⟩ := q
        rw [hp, Option.map_some'] at h
        injection h with h2
        injection h2 with hn hr
        rw [← hr]
        exact parseNatTok_gtnl hp hg

/-- None of the three JSON parsers ever consumes a greater-than/newline marker
pair: a pair present in the input is still present in the remainder. -/
theorem parse_gtnl_all : ∀ f : Nat,
    (∀ s v r, parseVal f s = some (v, r) → hasGtNl s = true → hasGtNl r = true) ∧
    (∀ s xs r, parseElems f s = some (xs, r) → hasGtNl s = true → hasGtNl r = true) ∧
    (∀ s acc fs r, parseFields f acc s = some (fs, r) → hasGtNl s = true → hasGtNl r = true) := by
  intro f
  induction f with
  | zero =>
    refine ⟨?_, ?_, ?_⟩
    · intro s v r h _; exact Option.noConfusion h
    · intro s xs r h _; exact Option.noConfusion h
    · intro s acc fs r h _; exact Option.noConfusion h
  | succ f ih =>
    obtain ⟨ihV, ihE, ihF⟩ := ih
    refine ⟨?_, ?_, ?_⟩
    · intro s v r h hg
      rw [parseVal] at h
      split at h
      · exact Option.noConfusion h
      · rename_i c rest hws
        have hcr : hasGtNl (c :: rest) = true := by
          rw [← hws]
          exact hasGtNl_dropWhile (by decide) hg
        by_cases h1 : c = '"'
        · rw [if_pos h1] at h
          cases hp : parseStrBody rest with
          | none => rw [hp] at h; exact Option.noConfusion h
          | some pr =>
            obtain ⟨cs2, r2⟩ := pr
            rw [hp, Option.map_some'] at h
            injection h with h2
            injection h2 with hv hr
            rw [← hr]
            exact parseStrBody_gtnl rest.length rest le_rfl cs2 r2 hp
              (hasGtNl_cons_elim hcr (by rw [h1]; decide))
        · rw [if_neg h1] at h
          by_cases h2 : c = '['
          · rw [if_pos h2] at h
            have hgr : hasGtNl (skipWs rest) = true :=
              hasGtNl_dropWhile (by decide)
                (hasGtNl_cons_elim hcr (by rw [h2]; decide))
            by_cases hb : (skipWs rest).head? = some ']'
            · rw [if_pos hb] at h
              injection h with h3
              injection h3 with hv hr
              rw [← hr]
              cases hsr : skipWs rest with
              | nil =>
                rw [hsr] at hb
                exact Option.noConfusion hb
              | cons a as =>
                rw [hsr] at hb hgr
                injection hb with hb
                exact hasGtNl_cons_elim hgr (by rw [hb]; decide)
            · rw [if_neg hb] at h
              cases hp : parseElems f (skipWs rest) with
              | none => rw [hp] at h; exact Option.noConfusion h
              | some pr =>
                obtain ⟨xs2, r2⟩ := pr
                rw [hp, Option.map_some'] at h
                injection h with h3
                injection h3 with hv hr
                rw [← hr]
                exact ihE _ _ _ hp hgr
          · rw [if_neg h2] at h
            by_cases h3 : c = '\x7b'
            · rw [if_pos h3] at h
              have hgr : hasGtNl (skipWs rest) = true :=
                hasGtNl_dropWhile (by decide)
                  (hasGtNl_cons_elim hcr (by rw [h3]; decide))
              by_cases hb : (skipWs rest).head? = some '\x7d'
              · rw [if_pos hb] at h
                injection h with h4
                injection h4 with hv hr
                rw [← hr]
                cases hsr : skipWs rest with
                | nil =>
                  rw [hsr] at hb
                  exact Option.noConfusion hb
                | cons a as =>
                  rw [hsr] at hb hgr
                  injection hb with hb
                  exact hasGtNl_cons_elim hgr (by rw [hb]; decide)
              · rw [if_neg hb] at h
                cases hp : parseFields f [] (skipWs rest) with
                | none => rw [hp] at h; exact Option.noConfusion h
                | some pr =>
                  obtain ⟨fs2, r2⟩ := pr
                  rw [hp, Option.map_some'] at h
                  injection h with h4
                  injection h4 with hv hr
                  rw [← hr]
                  exact ihF _ [] _ _ hp hgr
            · rw [if_neg h3] at h
              by_cases h4 : c = 't'
              · rw [if_pos h4] at h
                by_cases hs : strStarts (str "rue") rest = true
                · rw [if_pos hs] at h
                  injection h with h5
                  injection h5 with hv hr
                  rw [← hr]
                  rcases strStarts_iff.mp hs with ⟨q, hq⟩
                  have hdrop : rest.drop 3 = q := by rw [hq]; rfl
                  rw [hdrop]
                  have hrest2 : hasGtNl rest = true := hasGtNl_cons_elim hcr (by rw [h4]; decide)
                  rw [hq] at hrest2
                  refine hasGtNl_drop_front (str "rue") ?_ hrest2
                  intro ch hc
                  rw [show str "rue" = (['r', 'u', 'e'] : Str) from rfl] at hc
                  simp only [List.mem_cons, List.not_mem_nil, or_false] at hc
                  rcases hc with rfl | rfl | rfl <;> decide
                · rw [if_neg hs] at h; exact Option.noConfusion h
              · rw [if_neg h4] at h
                by_cases h5 : c = 'f'
                · rw [if_pos h5] at h
                  by_cases hs : strStarts (str "alse") rest = true
                  · rw [if_pos hs] at h
                    injection h with h6
                    injection h6 with hv hr
                    rw [← hr]
                    rcases strStarts_iff.mp hs with ⟨q, hq⟩
                    have hdrop : rest.drop 4 = q := by rw [hq]; rfl
                    rw [hdrop]
                    have hrest2 : hasGtNl rest = true :=
                      hasGtNl_cons_elim hcr (by rw [h5]; decide)
                    rw [hq] at hrest2
                    refine hasGtNl_drop_front (str "alse") ?_ hrest2
                    intro ch hc
                    rw [show str "alse" = (['a', 'l', 's', 'e'] : Str) from rfl] at hc
                    simp only [List.mem_cons, List.not_mem_nil, or_false] at hc
                    rcases hc with rfl | rfl | rfl | rfl <;> decide
                  · rw [if_neg hs] at h; exact Option.noConfusion h
                · rw [if_neg h5] at h
                  by_cases h6 : c = 'n'
                  · rw [if_pos h6] at h
                    by_cases hs : strStarts (str "ull") rest = true
                    · rw [if_pos hs] at h
                      injection h with h7
                      injection h7 with hv hr
                      rw [← hr]
                      rcases strStarts_iff.mp hs with ⟨q, hq⟩
                      have hdrop : rest.drop 3 = q := by rw [hq]; rfl
                      rw [hdrop]
                      have hrest2 : hasGtNl rest = true :=
                        hasGtNl_cons_elim hcr (by rw [h6]; decide)
                      rw [hq] at hrest2
                      refine hasGtNl_drop_front (str "ull") ?_ hrest2
                      intro ch hc
                      rw [show str "ull" = (['u', 'l', 'l'] : Str) from rfl] at hc
                      simp only [List.mem_cons, List.not_mem_nil, or_false] at hc
                      rcases hc with rfl | rfl | rfl <;> decide
                    · rw [if_neg hs] at h; exact Option.noConfusion h
                  · rw [if_neg h6] at h
                    cases hp : parseIntTok (c :: rest) with
                    | none => rw [hp] at h; exact Option.noConfusion h
                    | some pr =>
                      obtain ⟨n2, r2⟩ := pr
                      rw [hp, Option.map_some'] at h
                      injection h with h7
                      injection h7 with hv hr
                      rw [← hr]
                      exact parseIntTok_gtnl hp hcr
    · intro s xs r h hg
      rw [parseElems] at h
      split at h
      · exact Option.noConfusion h
      · rename_i v r1 hv
        have hg1 : hasGtNl r1 = true := ihV _ _ _ hv hg
        split at h
        · exact Option.noConfusion h
        · rename_i c r2 hws
          have hcr : hasGtNl (c :: r2) = true := by
            rw [← hws]
            exact hasGtNl_dropWhile (by decide) hg1
          by_cases hc : c = ','
          · rw [if_pos hc] at h
            split at h
            · exact Option.noConfusion h
            · rename_i ys r3 hE
              injection h with h2
              injection h2 with hxs hr
              rw [← hr]
              exact ihE _ _ _ hE (hasGtNl_cons_elim hcr (by rw [hc]; decide))
          · rw [if_neg hc] at h
            by_cases hc2 : c = ']'
            · rw [if_pos hc2] at h
              injection h with h2
              injection h2 with hxs hr
              rw [← hr]
              exact hasGtNl_cons_elim hcr (by rw [hc2]; decide)
            · rw [if_neg hc2] at h; exact Option.noConfusion h
    · intro s acc fs r h hg
      rw [parseFields] at h
      split at h
      · exact Option.noConfusion h
      · rename_i c rest hws
        have hcr : hasGtNl (c :: rest) = true := by
          rw [← hws]
          exact hasGtNl_dropWhile (by decide) hg
        by_cases hc : c = '"'
        · rw [if_pos hc] at h
          split at h
          · exact Option.noConfusion h
          · rename_i k2 r1 hk
            have hg1 : hasGtNl r1 = true :=
              parseStrBody_gtnl rest.length rest le_rfl k2 r1 hk
                (hasGtNl_cons_elim hcr (by rw [hc]; decide))
            split at h
            · exact Option.noConfusion h
            · rename_i c2 r2 hws2
              have hcr2 : hasGtNl (c2 :: r2) = true := by
                rw [← hws2]
                exact hasGtNl_dropWhile (by decide) hg1
              by_cases hc2 : c2 = ':'
              · rw [if_pos hc2] at h
                split at h
                · exact Option.noConfusion h
                · rename_i v r3 hv
                  have hg3 : hasGtNl r3 = true :=
                    ihV _ _ _ hv (hasGtNl_cons_elim hcr2 (by rw [hc2]; decide))
                  split at h
                  · exact Option.noConfusion h
                  · rename_i c3 r4 hws3
                    have hcr3 : hasGtNl (c3 :: r4) = true := by
                      rw [← hws3]
                      exact hasGtNl_dropWhile (by decide) hg3
                    by_cases hc3 : c3 = ','
                    · rw [if_pos hc3] at h
                      exact ihF _ _ _ _ h (hasGtNl_cons_elim hcr3 (by rw [hc3]; decide))
                    · rw [if_neg hc3] at h
                      by_cases hc4 : c3 = '\x7d'
                      · rw [if_pos hc4] at h
                        injection h with h2
                        injection h2 with hfs hr
                        rw [← hr]
                        exact hasGtNl_cons_elim hcr3 (by rw [hc4]; decide)
                      · rw [if_neg hc4] at h; exact Option.noConfusion h
              · rw [if_neg hc2] at h; exact Option.noConfusion h
        · rw [if_neg hc] at h; exact Option.noConfusion h

/-- A text containing a greater-than sign immediately followed by a newline is
never valid JSON. -/
theorem jsonParse_none_of_hasGtNl {s : Str} (hg : hasGtNl s = true) : jsonParse s = none := by
  unfold jsonParse
  cases hp : parseVal (2 * s.length + 2) s with
  | none => rfl
  | some pr =>
    obtain ⟨v, r⟩ := pr
    have hgr : hasGtNl r = true := (parse_gtnl_all _).1 _ _ _ hp hg
    have hsw : hasGtNl (skipWs r) = true := hasGtNl_dropWhile (by decide) hgr
    show (if skipWs r = [] then some v else none) = none
    rw [if_neg]
    intro he
    rw [he] at hsw
    exact Bool.noConfusion hsw

/-- No greater-than sign immediately followed by a less-than sign. -/
def noGtLt : Str → Bool
  | [] => true
  | c :: cs => !(c = '>' && cs.head? = some '<') && noGtLt cs

/-- No greater-than sign followed by a whitespace run and a less-than sign
(the pattern the compression pass removes). -/
def compOk : Str → Bool
  | [] => true
  | c :: cs => !(c = '>' && headWs cs && (cs.dropWhile wsChar).head? = some '<') && compOk cs

/-- Componentwise reading of noGtLt on a cons cell. -/
theorem noGtLt_cons_iff {c : Char} {cs : Str} :
    noGtLt (c :: cs) = true ↔ ¬(c = '>' ∧ cs.head? = some '<') ∧ noGtLt cs = true := by
  simp [noGtLt, Bool.and_eq_true, not_and]
  tauto

/-- Componentwise reading of compOk on a cons cell. -/
theorem compOk_cons_iff {c : Char} {cs : Str} :
    compOk (c :: cs) = true ↔
      ¬(c = '>' ∧ headWs cs = true ∧ (cs.dropWhile wsChar).head? = some '<') ∧
      compOk cs = true := by
  show (!(c = '>' && headWs cs && (cs.dropWhile wsChar).head? = some '<')
    && compOk cs) = true ↔ _
  rw [Bool.and_eq_true, Bool.not_eq_true']
  constructor
  · intro ⟨h1, h2⟩
    refine ⟨?_, h2⟩
    intro ⟨g1, g2, g3⟩
    rw [g1, g2, g3] at h1
    simp at h1
  · intro ⟨h1, h2⟩
    refine ⟨?_, h2⟩
    by_cases g1 : c = '>'
    · by_cases g2 : headWs cs = true
      · by_cases g3 : (cs.dropWhile wsChar).head? = some '<'
        · exact absurd ⟨g1, g2, g3⟩ h1
        · simp [g3]
      · have g2f : headWs cs = false := by
          cases hh : headWs cs
          · rfl
          · exact absurd hh g2
        simp [g2f]
    · simp [g1]

/-- Dropping all-satisfying prefixes commutes out of dropWhile. -/
theorem dropWhile_append_all {p : Char → Bool} : ∀ {a : Str} (b : Str),
    (∀ c ∈ a, p c = true) → (a ++ b).dropWhile p = b.dropWhile p := by
  intro a
  induction a with
  | nil => intro b _; rfl
  | cons x xs ih =>
    intro b h
    rw [List.cons_append, List.dropWhile_cons, if_pos (h x (List.mem_cons_self x xs))]
    exact ih b (fun c hc => h c (List.mem_cons_of_mem x hc))

/-- Lists without greater-than signs satisfy noGtLt. -/
theorem noGtLt_of_no_gt : ∀ {s : Str}, (∀ c ∈ s, c ≠ '>') → noGtLt s = true := by
  intro s
  induction s with
  | nil => intro _; rfl
  | cons c cs ih =>
    intro h
    rw [noGtLt_cons_iff]
    exact ⟨fun hc => h c (List.mem_cons_self c cs) hc.1,
      ih (fun c2 hc2 => h c2 (List.mem_cons_of_mem c hc2))⟩

/-- An adjacency in the left part survives appending on the right. -/
theorem noGtLt_false_append_right_ws : ∀ {t b : Str}, noGtLt (t ++ b) = false →
    (∀ c ∈ b, wsChar c = true) → noGtLt t = false := by
  intro t
  induction t with
  | nil =>
    intro b h hb
    exfalso
    rw [noGtLt_of_no_gt (fun c hc heq => by
      have := hb c hc
      rw [heq] at this
      exact Bool.noConfusion this)] at h
    exact Bool.noConfusion h
  | cons c u ih =>
    intro b h hb
    by_cases hg : c = '>' ∧ (u ++ b).head? = some '<'
    · cases u with
      | nil =>
        exfalso
        rcases hg with ⟨_, hh⟩
        rw [List.nil_append] at hh
        cases b with
        | nil => exact Option.noConfusion hh
        | cons b0 bs =>
          injection hh with hh
          have := hb b0 (List.mem_cons_self b0 bs)
          rw [hh] at this
          exact Bool.noConfusion this
      | cons u0 us =>
        rcases hg with ⟨hc, hh⟩
        rw [List.cons_append, List.head?_cons] at hh
        injection hh with hh
        rw [show noGtLt (c :: u0 :: us) = false from by
          rw [hc, hh]
          simp [noGtLt]]
    · have h2 : noGtLt (u ++ b) = false := by
        by_contra hcon
        have h3 : noGtLt (c :: (u ++ b)) = true := by
          rw [noGtLt_cons_iff]
          exact ⟨hg, by
            cases he : noGtLt (u ++ b)
            · exact absurd he hcon
            · rfl⟩
        rw [List.cons_append] at h
        rw [h3] at h
        exact Bool.noConfusion h
      have h4 : noGtLt u = false := ih h2 hb
      cases he : noGtLt (c :: u)
      · rfl
      · rw [noGtLt_cons_iff] at he
        rw [h4] at he
        exact Bool.noConfusion he.2

/-- An adjacency survives dropping an all-whitespace front block. -/
theorem noGtLt_false_append_left_ws : ∀ {a t : Str}, noGtLt (a ++ t) = false →
    (∀ c ∈ a, wsChar c = true) → noGtLt t = false := by
  intro a
  induction a with
  | nil => intro t h _; exact h
  | cons x xs ih =>
    intro t h ha
    rw [List.cons_append] at h
    have hx : x ≠ '>' := by
      intro he
      have := ha x (List.mem_cons_self x xs)
      rw [he] at this
      exact Bool.noConfusion this
    have h2 : noGtLt (xs ++ t) = false := by
      cases he : noGtLt (xs ++ t)
      · rfl
      · exfalso
        have h3 : noGtLt (x :: (xs ++ t)) = true := by
          rw [noGtLt_cons_iff]
          exact ⟨fun hc => hx hc.1, he⟩
        rw [h3] at h
        exact Bool.noConfusion h
    exact ih h2 (fun c hc => ha c (List.mem_cons_of_mem x hc))

/-- compOk transfers from a right-extended list. -/
theorem compOk_append_right_ws : ∀ {t b : Str}, compOk (t ++ b) = true →
    (∀ c ∈ b, wsChar c = true) → compOk t = true := by
  intro t
  induction t with
  | nil => intro b _ _; rfl
  | cons c u ih =>
    intro b h hb
    rw [List.cons_append, compOk_cons_iff] at h
    rw [compOk_cons_iff]
    refine ⟨?_, ih h.2 hb⟩
    intro ⟨hc, hw, hd⟩
    refine h.1 ⟨hc, ?_, ?_⟩
    · cases u with
      | nil => exact absurd hw (by decide)
      | cons u0 us => exact hw
    · have hne : u.dropWhile wsChar ≠ [] := by
        intro he
        rw [he] at hd
        exact Option.noConfusion hd
      rw [List.dropWhile_append, if_neg (by
        intro he
        exact hne (List.isEmpty_iff.mp he))]
      cases hdw : u.dropWhile wsChar with
      | nil => exact absurd hdw hne
      | cons w ws =>
        rw [hdw] at hd
        rw [List.cons_append, List.head?_cons]
        injection hd with hd
        rw [hd]

/-- compOk transfers to any suffix. -/
theorem compOk_append_left : ∀ (a : Str) {t : Str}, compOk (a ++ t) = true → compOk t = true := by
  intro a
  induction a with
  | nil => intro t h; exact h
  | cons x xs ih =>
    intro t h
    rw [List.cons_append, compOk_cons_iff] at h
    exact ih h.2

/-- The head of a JavaScript-trimmed string is not whitespace. -/
theorem jsTrim_head_not_ws {s : Str} {c : Char} (h : (jsTrim s).head? = some c) :
    wsChar c = false := by
  unfold jsTrim at h
  rcases trimRight_head (trimLeft s) with he | he
  · rw [he] at h
    exact Option.noConfusion h
  · rw [he] at h
    exact dropWhile_head_not h

/-- The last character of a JavaScript-trimmed string is not whitespace. -/
theorem jsTrim_last_not_ws {s : Str} {c : Char} (h : (jsTrim s).getLast? = some c) :
    wsChar c = false := by
  unfold jsTrim trimRight at h
  rw [List.getLast?_reverse] at h
  exact dropWhile_head_not h

/-- The whitespace-trim decomposition of a string: an all-whitespace prefix,
the trimmed core, and an all-whitespace suffix. -/
theorem jsTrim_decomp (s : Str) : ∃ a b, s = a ++ jsTrim s ++ b ∧
    (∀ c ∈ a, wsChar c = true) ∧ (∀ c ∈ b, wsChar c = true) := by
  refine ⟨s.takeWhile wsChar, ((trimLeft s).reverse.takeWhile wsChar).reverse, ?_, ?_, ?_⟩
  · unfold jsTrim trimRight trimLeft
    conv_lhs => rw [← List.takeWhile_append_dropWhile wsChar s]
    rw [List.append_assoc]
    congr 1
    conv_lhs => rw [← List.reverse_reverse (s.dropWhile wsChar),
      ← List.takeWhile_append_dropWhile wsChar (s.dropWhile wsChar).reverse,
      List.reverse_append]
  · intro c hc
    exact List.mem_takeWhile_imp hc
  · intro c hc
    rw [List.mem_reverse] at hc
    exact List.mem_takeWhile_imp hc

/-- One step of the compression pass. -/
theorem xmlCompressF_step (f : Nat) (c : Char) (cs : Str) :
    xmlCompressF (Nat.succ f) (c :: cs) =
      (if c = '>' then
        (if headWs cs ∧ (cs.dropWhile wsChar).head? = some '<' then
          '>' :: xmlCompressF f (cs.dropWhile wsChar)
        else '>' :: xmlCompressF f cs)
      else c :: xmlCompressF f cs) := rfl

/-- One step of the indentation pass. -/
theorem xmlInsertF_step (f : Nat) (c : Char) (cs : Str) (d : Nat) :
    xmlInsertF (Nat.succ f) (c :: cs) d =
      (if c = '>' ∧ cs.head? = some '<' then
        (if (cs.tail).takeWhile (fun x => x = '/') = ['/'] then
          (if d = 0 then none
           else (xmlInsertF f ((cs.tail).drop ((cs.tail).takeWhile (fun x => x = '/')).length)
              (d - 1)).map
            (fun t => '>' :: '\n' :: (ind (d - 1) ++ '<' ::
              (cs.tail).takeWhile (fun x => x = '/') ++ t)))
        else (xmlInsertF f ((cs.tail).drop ((cs.tail).takeWhile (fun x => x = '/')).length)
            (d + 1)).map
          (fun t => '>' :: '\n' :: (ind d ++ '<' ::
            (cs.tail).takeWhile (fun x => x = '/') ++ t)))
      else (xmlInsertF f cs d).map (fun t => c :: t)) := rfl

/-- Compression of the empty string. -/
theorem xmlCompressF_nil : ∀ fuel, xmlCompressF fuel [] = [] := by
  intro fuel
  cases fuel with
  | zero => rfl
  | succ f => rfl

/-- Compression preserves the first character. -/
theorem xmlCompressF_head : ∀ fuel (s : Str), (xmlCompressF fuel s).head? = s.head? := by
  intro fuel
  cases fuel with
  | zero => intro s; rfl
  | succ f =>
    intro s
    cases s with
    | nil => rfl
    | cons c cs =>
      rw [xmlCompressF_step]
      by_cases hc : c = '>'
      · rw [if_pos hc]
        by_cases hb : (headWs cs = true ∧ (cs.dropWhile wsChar).head? = some '<')
        · rw [if_pos hb, List.head?_cons, hc]
          rfl
        · rw [if_neg hb, List.head?_cons, hc]
          rfl
      · rw [if_neg hc]
        rfl

/-- The indentation pass preserves the first character. -/
theorem xmlInsertF_head : ∀ fuel (s : Str) (d : Nat) (t : Str),
    xmlInsertF fuel s d = some t → t.head? = s.head? := by
  intro fuel
  cases fuel with
  | zero =>
    intro s d t h
    injection h with h
    rw [h]
  | succ f =>
    intro s d t h
    cases s with
    | nil =>
      injection h with h
      rw [← h]
    | cons c cs =>
      rw [xmlInsertF_step] at h
      by_cases hg : c = '>' ∧ cs.head? = some '<'
      · rw [if_pos hg] at h
        by_cases hsl : (cs.tail).takeWhile (fun x => x = '/') = ['/']
        · rw [if_pos hsl] at h
          by_cases hd : d = 0
          · rw [if_pos hd] at h
            exact Option.noConfusion h
          · rw [if_neg hd] at h
            cases hi : xmlInsertF f ((cs.tail).drop
                ((cs.tail).takeWhile (fun x => x = '/')).length) (d - 1) with
            | none => rw [hi] at h; exact Option.noConfusion h
            | some u =>
              rw [hi, Option.map_some'] at h
              injection h with h
              rw [← h, List.head?_cons, hg.1]
              rfl
        · rw [if_neg hsl] at h
          cases hi : xmlInsertF f ((cs.tail).drop
              ((cs.tail).takeWhile (fun x => x = '/')).length) (d + 1) with
          | none => rw [hi] at h; exact Option.noConfusion h
          | some u =>
            rw [hi, Option.map_some'] at h
            injection h with h
            rw [← h, List.head?_cons, hg.1]
            rfl
      · rw [if_neg hg] at h
        cases hi : xmlInsertF f cs d with
        | none => rw [hi] at h; exact Option.noConfusion h
        | some u =>
          rw [hi, Option.map_some'] at h
          injection h with h
          rw [← h]
          rfl

/-- Compression passes over a block without greater-than signs. -/
theorem xmlCompressF_copy : ∀ (a : Str) (fuel : Nat) (u : Str), a.length ≤ fuel →
    (∀ c ∈ a, c ≠ '>') →
    xmlCompressF fuel (a ++ u) = a ++ xmlCompressF (fuel - a.length) u := by
  intro a
  induction a with
  | nil => intro fuel u _ _; rfl
  | cons x xs ih =>
    intro fuel u hl h
    cases fuel with
    | zero => simp at hl
    | succ f =>
      rw [List.cons_append, xmlCompressF_step, if_neg (h x (List.mem_cons_self x xs))]
      rw [ih f u (by simp at hl; omega) (fun c hc => h c (List.mem_cons_of_mem x hc))]
      rw [show (Nat.succ f - (x :: xs : Str).length) = f - xs.length from by
        simp [List.length_cons]]
      rfl

/-- The indentation pass passes over a block without greater-than signs. -/
theorem xmlInsertF_copy : ∀ (a : Str) (fuel : Nat) (u : Str) (d : Nat), a.length ≤ fuel →
    (∀ c ∈ a, c ≠ '>') →
    xmlInsertF fuel (a ++ u) d =
      (xmlInsertF (fuel - a.length) u d).map (fun t => a ++ t) := by
  intro a
  induction a with
  | nil =>
    intro fuel u d _ _
    simp
  | cons x xs ih =>
    intro fuel u d hl h
    cases fuel with
    | zero => simp at hl
    | succ f =>
      rw [List.cons_append, xmlInsertF_step, if_neg (by
        intro hg
        exact h x (List.mem_cons_self x xs) hg.1)]
      rw [ih f u d (by simp at hl; omega) (fun c hc => h c (List.mem_cons_of_mem x hc))]
      rw [Option.map_map]
      rw [show (Nat.succ f - (x :: xs : Str).length) = f - xs.length from by
        simp [List.length_cons]]
      rfl

/-- An adjacency at the head refutes noGtLt. -/
theorem noGtLt_false_head {cs : Str} (h : cs.head? = some '<') :
    noGtLt ('>' :: cs) = false := by
  simp [noGtLt, h]

/-- noGtLt fails on a cons if it fails on the tail. -/
theorem noGtLt_false_cons (c : Char) {cs : Str} (h : noGtLt cs = false) :
    noGtLt (c :: cs) = false := by
  simp [noGtLt, h]

/-- The indentation pass either returns an adjacency-free input unchanged or
produces a marker pair. -/
theorem xmlInsertF_disj : ∀ fuel (s : Str) (d : Nat) (t : Str), s.length ≤ fuel →
    xmlInsertF fuel s d = some t → (t = s ∧ noGtLt s = true) ∨ hasGtNl t = true := by
  intro fuel
  induction fuel with
  | zero =>
    intro s d t hl h
    have hs : s = [] := List.eq_nil_of_length_eq_zero (by omega)
    injection h with h
    subst hs
    rw [← h]
    exact Or.inl ⟨rfl, rfl⟩
  | succ f ih =>
    intro s d t hl h
    cases s with
    | nil =>
      injection h with h
      rw [← h]
      exact Or.inl ⟨rfl, rfl⟩
    | cons c cs =>
      rw [xmlInsertF_step] at h
      by_cases hg : c = '>' ∧ cs.head? = some '<'
      · rw [if_pos hg] at h
        right
        by_cases hsl : (cs.tail).takeWhile (fun x => x = '/') = ['/']
        · rw [if_pos hsl] at h
          by_cases hd : d = 0
          · rw [if_pos hd] at h
            exact Option.noConfusion h
          · rw [if_neg hd] at h
            cases hi : xmlInsertF f ((cs.tail).drop
                ((cs.tail).takeWhile (fun x => x = '/')).length) (d - 1) with
            | none => rw [hi] at h; exact Option.noConfusion h
            | some u =>
              rw [hi, Option.map_some'] at h
              injection h with h
              rw [← h]
              simp [hasGtNl]
        · rw [if_neg hsl] at h
          cases hi : xmlInsertF f ((cs.tail).drop
              ((cs.tail).takeWhile (fun x => x = '/')).length) (d + 1) with
          | none => rw [hi] at h; exact Option.noConfusion h
          | some u =>
            rw [hi, Option.map_some'] at h
            injection h with h
            rw [← h]
            simp [hasGtNl]
      · rw [if_neg hg] at h
        cases hi : xmlInsertF f cs d with
        | none => rw [hi] at h; exact Option.noConfusion h
        | some u =>
          rw [hi, Option.map_some'] at h
          injection h with h
          rcases ih cs d u (by simp at hl; omega) hi with ⟨hu, hn⟩ | hgt
          · left
            refine ⟨by rw [← h, hu], ?_⟩
            rw [noGtLt_cons_iff]
            exact ⟨hg, hn⟩
          · right
            rw [← h]
            exact hasGtNl_cons_of hgt

/-- Compression either changes nothing or creates an adjacency. -/
theorem xmlCompressF_disj : ∀ fuel (s : Str),
    xmlCompressF fuel s = s ∨ noGtLt (xmlCompressF fuel s) = false := by
  intro fuel
  induction fuel with
  | zero => intro s; exact Or.inl rfl
  | succ f ih =>
    intro s
    cases s with
    | nil => exact Or.inl rfl
    | cons c cs =>
      rw [xmlCompressF_step]
      by_cases hc : c = '>'
      · rw [if_pos hc]
        by_cases hb : (headWs cs = true ∧ (cs.dropWhile wsChar).head? = some '<')
        · rw [if_pos hb]
          right
          refine noGtLt_false_head ?_
          rw [xmlCompressF_head]
          exact hb.2
        · rw [if_neg hb]
          rcases ih cs with he | hn
          · left
            rw [he, hc]
          · right
            exact noGtLt_false_cons _ hn
      · rw [if_neg hc]
        rcases ih cs with he | hn
        · left
          rw [he]
        · right
          exact noGtLt_false_cons _ hn

/-- takeWhile never lengthens a list. -/
theorem takeWhile_length_le (p : Char → Bool) : ∀ l : Str,
    (l.takeWhile p).length ≤ l.length := by
  intro l
  induction l with
  | nil => exact le_rfl
  | cons c cs ih =>
    rw [List.takeWhile_cons]
    by_cases hc : p c = true
    · rw [if_pos hc]
      simp only [List.length_cons]
      omega
    · rw [if_neg hc]
      simp

/-- JavaScript whitespace is not a greater-than sign. -/
theorem wsChar_ne_gt {c : Char} (h : wsChar c = true) : c ≠ '>' := by
  intro he
  rw [he] at h
  exact Bool.noConfusion h

/-- The output of the compression pass has no greater-than, whitespace-run,
less-than pattern left. -/
theorem xmlCompressF_compOk : ∀ fuel (s : Str), s.length ≤ fuel →
    compOk (xmlCompressF fuel s) = true := by
  intro fuel
  induction fuel with
  | zero =>
    intro s hl
    have hs : s = [] := List.eq_nil_of_length_eq_zero (by omega)
    rw [hs]
    rfl
  | succ f ih =>
    intro s hl
    cases s with
    | nil => rfl
    | cons c cs =>
      have hlcs : cs.length ≤ f := by simp at hl; omega
      rw [xmlCompressF_step]
      by_cases hc : c = '>'
      · by_cases hb : (headWs cs = true ∧ (cs.dropWhile wsChar).head? = some '<')
        · rw [if_pos hc, if_pos hb]
          rw [compOk_cons_iff]
          refine ⟨?_, ih (cs.dropWhile wsChar)
            (le_trans (dropWhile_length_le wsChar cs) hlcs)⟩
          intro ⟨_, hw, _⟩
          have hh : (xmlCompressF f (cs.dropWhile wsChar)).head? = some '<' := by
            rw [xmlCompressF_head]
            exact hb.2
          cases hx : xmlCompressF f (cs.dropWhile wsChar) with
          | nil => rw [hx] at hh; exact Option.noConfusion hh
          | cons r0 rs =>
            rw [hx] at hh hw
            injection hh with hh
            rw [show headWs (r0 :: rs) = wsChar r0 from rfl, hh] at hw
            exact Bool.noConfusion hw
        · rw [if_pos hc, if_neg hb]
          rw [compOk_cons_iff]
          refine ⟨?_, ih cs hlcs⟩
          intro ⟨_, hw, hd⟩
          by_cases hwcs : headWs cs = true
          · refine hb ⟨hwcs, ?_⟩
            have hcsW : ∀ ch ∈ cs.takeWhile wsChar, ch ≠ '>' :=
              fun ch hch => wsChar_ne_gt (List.mem_takeWhile_imp hch)
            have hcopy : xmlCompressF f cs =
                cs.takeWhile wsChar ++
                  xmlCompressF (f - (cs.takeWhile wsChar).length) (cs.dropWhile wsChar) := by
              conv_lhs => rw [← List.takeWhile_append_dropWhile wsChar cs]
              exact xmlCompressF_copy _ f _
                (le_trans (takeWhile_length_le wsChar cs) hlcs) hcsW
            have hdw : (xmlCompressF f cs).dropWhile wsChar =
                (xmlCompressF (f - (cs.takeWhile wsChar).length)
                  (cs.dropWhile wsChar)).dropWhile wsChar := by
              rw [hcopy]
              exact dropWhile_append_all _ (fun ch hch => List.mem_takeWhile_imp hch)
            rw [hdw] at hd
            cases hcs2 : cs.dropWhile wsChar with
            | nil =>
              rw [hcs2, xmlCompressF_nil] at hd
              exact Option.noConfusion hd
            | cons e es =>
              have hie : (xmlCompressF (f - (cs.takeWhile wsChar).length)
                  (cs.dropWhile wsChar)).head? = some e := by
                rw [xmlCompressF_head, hcs2]
                rfl
              have hens : wsChar e = false :=
                dropWhile_head_not (show ((cs.dropWhile wsChar).head? = some e) from by
                  rw [hcs2]; rfl)
              have hself : (xmlCompressF (f - (cs.takeWhile wsChar).length)
                  (cs.dropWhile wsChar)).dropWhile wsChar =
                  xmlCompressF (f - (cs.takeWhile wsChar).length) (cs.dropWhile wsChar) := by
                refine dropWhile_eq_self_of_head ?_
                intro ch hch
                rw [hie] at hch
                injection hch with hch
                rw [← hch]
                exact hens
              rw [hself, hie] at hd
              injection hd with hd
              rw [List.head?_cons, hd]
          · have hhe : (xmlCompressF f cs).head? = cs.head? := xmlCompressF_head f cs
            cases hcsE : cs with
            | nil =>
              rw [hcsE, xmlCompressF_nil] at hw
              exact absurd hw (by decide)
            | cons e es =>
              have hhe2 : (xmlCompressF f cs).head? = some e := by
                rw [hhe, hcsE]
                rfl
              cases hR : xmlCompressF f cs with
              | nil => rw [hR] at hhe2; exact Option.noConfusion hhe2
              | cons r0 rs =>
                rw [hR] at hhe2 hw
                injection hhe2 with hhe2
                rw [show headWs (r0 :: rs) = wsChar r0 from rfl, hhe2] at hw
                refine hwcs ?_
                rw [hcsE]
                exact hw
      · rw [if_neg hc]
        rw [compOk_cons_iff]
        exact ⟨fun hx => hc hx.1, ih cs hlcs⟩

/-- The indentation pass on the empty string. -/
theorem xmlInsertF_nil : ∀ fuel d, xmlInsertF fuel [] d = some [] := by
  intro fuel d
  cases fuel with
  | zero => rfl
  | succ f => rfl

/-- A newline followed by an indent is JavaScript whitespace. -/
theorem nl_ind_wsChar (d : Nat) : ∀ c ∈ ('\n' :: ind d : Str), wsChar c = true := by
  intro c hc
  rcases List.mem_cons.mp hc with rfl | hc
  · rfl
  · have := List.eq_of_mem_replicate hc
    subst this
    rfl

/-- Slash-run characters are not greater-than signs. -/
theorem slash_run_ne_gt (cs2 : Str) :
    ∀ c ∈ '<' :: cs2.takeWhile (fun x => x = '/'), c ≠ '>' := by
  intro c hc
  rcases List.mem_cons.mp hc with rfl | hc
  · decide
  · have := List.mem_takeWhile_imp hc
    simp only [decide_eq_true_eq] at this
    subst this
    decide

/-- Compressing the output of the indentation pass recovers its input, when
that input is free of greater-than, whitespace, less-than patterns. -/
theorem xmlCompressF_xmlInsertF : ∀ N : Nat, ∀ (s : Str) (fi fc d : Nat) (t : Str),
    s.length ≤ N → s.length ≤ fi → t.length ≤ fc → compOk s = true →
    xmlInsertF fi s d = some t → xmlCompressF fc t = s := by
  intro N
  induction N with
  | zero =>
    intro s fi fc d t hN _ _ _ h
    have hs : s = [] := List.eq_nil_of_length_eq_zero (by omega)
    subst hs
    rw [xmlInsertF_nil] at h
    injection h with h
    rw [← h]
    exact xmlCompressF_nil fc
  | succ N ih =>
    intro s fi fc d t hN hfi hfc hok h
    cases fi with
    | zero =>
      have hs : s = [] := List.eq_nil_of_length_eq_zero (by omega)
      subst hs
      injection h with h
      rw [← h]
      exact xmlCompressF_nil fc
    | succ f =>
      cases s with
      | nil =>
        injection h with h
        rw [← h]
        exact xmlCompressF_nil fc
      | cons c cs =>
        rw [xmlInsertF_step] at h
        by_cases hg : c = '>' ∧ cs.head? = some '<'
        · obtain ⟨hc, hh⟩ := hg
          subst hc
          rw [if_pos ⟨rfl, hh⟩] at h
          cases cs with
          | nil => exact Option.noConfusion hh
          | cons c2 cs2 =>
            injection hh with hc2
            subst hc2
            simp only [List.tail_cons, drop_takeWhile_length] at h
            have hok2 : compOk cs2 = true :=
              (compOk_cons_iff.mp ((compOk_cons_iff.mp hok).2)).2
            have hdec : cs2.takeWhile (fun x => x = '/') ++
                cs2.dropWhile (fun x => x = '/') = cs2 :=
              List.takeWhile_append_dropWhile _ cs2
            have hlen2 : (cs2.takeWhile (fun x => x = '/')).length +
                (cs2.dropWhile (fun x => x = '/')).length = cs2.length := by
              rw [← List.length_append, hdec]
            have hokr : compOk (cs2.dropWhile (fun x => x = '/')) = true := by
              refine compOk_append_left (cs2.takeWhile (fun x => x = '/')) ?_
              rw [hdec]
              exact hok2
            have hNr : (cs2.dropWhile (fun x => x = '/')).length ≤ N := by
              simp only [List.length_cons] at hN
              omega
            have hfir : (cs2.dropWhile (fun x => x = '/')).length ≤ f := by
              simp only [List.length_cons] at hfi
              omega
            have hfin : (('<' :: cs2.takeWhile (fun x => x = '/')) ++
                cs2.dropWhile (fun x => x = '/') : Str) = '<' :: cs2 := by
              rw [List.cons_append, hdec]
            by_cases hsl : cs2.takeWhile (fun x => x = '/') = ['/']
            · rw [if_pos hsl] at h
              by_cases hd0 : d = 0
              · rw [if_pos hd0] at h
                exact Option.noConfusion h
              · rw [if_neg hd0] at h
                cases hi : xmlInsertF f (cs2.dropWhile (fun x => x = '/')) (d - 1) with
                | none => rw [hi] at h; exact Option.noConfusion h
                | some u =>
                  rw [hi, Option.map_some'] at h
                  injection h with h
                  cases fc with
                  | zero =>
                    exfalso
                    rw [← h] at hfc
                    simp at hfc
                  | succ fc =>
                    have hfcu : u.length ≤
                        fc - ('<' :: cs2.takeWhile (fun x => x = '/')).length ∧
                        ('<' :: cs2.takeWhile (fun x => x = '/') : Str).length ≤ fc := by
                      rw [← h] at hfc
                      simp only [List.length_cons, List.length_append, ind,
                        List.length_replicate] at hfc ⊢
                      omega
                    rw [← h, xmlCompressF_step, if_pos rfl]
                    have hdw : (('\n' :: (ind (d - 1) ++ '<' ::
                        cs2.takeWhile (fun x => x = '/') ++ u) : Str)).dropWhile wsChar =
                        ('<' :: cs2.takeWhile (fun x => x = '/')) ++ u := by
                      rw [show ('\n' :: (ind (d - 1) ++ '<' ::
                          cs2.takeWhile (fun x => x = '/') ++ u) : Str) =
                          ('\n' :: ind (d - 1)) ++
                            (('<' :: cs2.takeWhile (fun x => x = '/')) ++ u) from by
                        simp [List.append_assoc]]
                      rw [dropWhile_append_all _ (nl_ind_wsChar (d - 1))]
                      rw [List.cons_append, List.dropWhile_cons, if_neg (by decide)]
                    rw [if_pos (show headWs ('\n' :: (ind (d - 1) ++ '<' ::
                        cs2.takeWhile (fun x => x = '/') ++ u)) = true ∧
                        ((('\n' :: (ind (d - 1) ++ '<' ::
                          cs2.takeWhile (fun x => x = '/') ++ u) : Str)).dropWhile
                          wsChar).head? = some '<' from by
                      refine ⟨rfl, ?_⟩
                      rw [hdw, List.cons_append, List.head?_cons])]
                    rw [hdw, xmlCompressF_copy ('<' :: cs2.takeWhile (fun x => x = '/'))
                      fc u hfcu.2 (slash_run_ne_gt cs2)]
                    rw [ih (cs2.dropWhile (fun x => x = '/')) f
                      (fc - ('<' :: cs2.takeWhile (fun x => x = '/')).length) (d - 1) u
                      hNr hfir hfcu.1 hokr hi]
                    rw [hfin]
            · rw [if_neg hsl] at h
              cases hi : xmlInsertF f (cs2.dropWhile (fun x => x = '/')) (d + 1) with
              | none => rw [hi] at h; exact Option.noConfusion h
              | some u =>
                rw [hi, Option.map_some'] at h
                injection h with h
                cases fc with
                | zero =>
                  exfalso
                  rw [← h] at hfc
                  simp at hfc
                | succ fc =>
                  have hfcu : u.length ≤
                      fc - ('<' :: cs2.takeWhile (fun x => x = '/')).length ∧
                      ('<' :: cs2.takeWhile (fun x => x = '/') : Str).length ≤ fc := by
                    rw [← h] at hfc
                    simp only [List.length_cons, List.length_append, ind,
                      List.length_replicate] at hfc ⊢
                    omega
                  rw [← h, xmlCompressF_step, if_pos rfl]
                  have hdw : (('\n' :: (ind d ++ '<' ::
                      cs2.takeWhile (fun x => x = '/') ++ u) : Str)).dropWhile wsChar =
                      ('<' :: cs2.takeWhile (fun x => x = '/')) ++ u := by
                    rw [show ('\n' :: (ind d ++ '<' ::
                        cs2.takeWhile (fun x => x = '/') ++ u) : Str) =
                        ('\n' :: ind d) ++
                          (('<' :: cs2.takeWhile (fun x => x = '/')) ++ u) from by
                      simp [List.append_assoc]]
                    rw [dropWhile_append_all _ (nl_ind_wsChar d)]
                    rw [List.cons_append, List.dropWhile_cons, if_neg (by decide)]
                  rw [if_pos (show headWs ('\n' :: (ind d ++ '<' ::
                      cs2.takeWhile (fun x => x = '/') ++ u)) = true ∧
                      ((('\n' :: (ind d ++ '<' ::
                        cs2.takeWhile (fun x => x = '/') ++ u) : Str)).dropWhile
                        wsChar).head? = some '<' from by
                    refine ⟨rfl, ?_⟩
                    rw [hdw, List.cons_append, List.head?_cons])]
                  rw [hdw, xmlCompressF_copy ('<' :: cs2.takeWhile (fun x => x = '/'))
                    fc u hfcu.2 (slash_run_ne_gt cs2)]
                  rw [ih (cs2.dropWhile (fun x => x = '/')) f
                    (fc - ('<' :: cs2.takeWhile (fun x => x = '/')).length) (d + 1) u
                    hNr hfir hfcu.1 hokr hi]
                  rw [hfin]
        · rw [if_neg hg] at h
          cases hi : xmlInsertF f cs d with
          | none => rw [hi] at h; exact Option.noConfusion h
          | some u =>
            rw [hi, Option.map_some'] at h
            injection h with h
            cases fc with
            | zero =>
              exfalso
              rw [← h] at hfc
              simp at hfc
            | succ fc =>
              have hNc : cs.length ≤ N := by
                simp only [List.length_cons] at hN
                omega
              have hfic : cs.length ≤ f := by
                simp only [List.length_cons] at hfi
                omega
              have hfcc : u.length ≤ fc := by
                rw [← h] at hfc
                simp only [List.length_cons] at hfc
                omega
              rw [← h, xmlCompressF_step]
              have hokcs : compOk cs = true := (compOk_cons_iff.mp hok).2
              by_cases hc : c = '>'
              · subst hc
                rw [if_pos rfl]
                by_cases hwcs : headWs cs = true
                · have hdecw : cs.takeWhile wsChar ++ cs.dropWhile wsChar = cs :=
                    List.takeWhile_append_dropWhile wsChar cs
                  have hlenw : (cs.takeWhile wsChar).length +
                      (cs.dropWhile wsChar).length = cs.length := by
                    rw [← List.length_append, hdecw]
                  have hwne : ∀ ch ∈ cs.takeWhile wsChar, ch ≠ '>' :=
                    fun ch hch => wsChar_ne_gt (List.mem_takeWhile_imp hch)
                  have hcopyi : xmlInsertF f cs d =
                      (xmlInsertF (f - (cs.takeWhile wsChar).length)
                        (cs.dropWhile wsChar) d).map
                        (fun t2 => cs.takeWhile wsChar ++ t2) := by
                    conv_lhs => rw [← hdecw]
                    refine xmlInsertF_copy _ f _ d ?_ hwne
                    omega
                  rw [hcopyi] at hi
                  cases hi2 : xmlInsertF (f - (cs.takeWhile wsChar).length)
                      (cs.dropWhile wsChar) d with
                  | none => rw [hi2] at hi; exact Option.noConfusion hi
                  | some u2 =>
                    rw [hi2, Option.map_some'] at hi
                    injection hi with hi
                    have hu2h : u2.head? = (cs.dropWhile wsChar).head? :=
                      xmlInsertF_head _ _ _ _ hi2
                    have hguard : ¬ (headWs u = true ∧
                        (u.dropWhile wsChar).head? = some '<') := by
                      intro ⟨_, hdw2⟩
                      have hdu : u.dropWhile wsChar = u2.dropWhile wsChar := by
                        rw [← hi]
                        exact dropWhile_append_all _
                          (fun ch hch => List.mem_takeWhile_imp hch)
                      rw [hdu] at hdw2
                      cases hcs2 : cs.dropWhile wsChar with
                      | nil =>
                        rw [hcs2] at hu2h
                        have hu2n : u2 = [] := by
                          cases u2 with
                          | nil => rfl
                          | cons a as => exact Option.noConfusion hu2h
                        rw [hu2n] at hdw2
                        exact Option.noConfusion hdw2
                      | cons e es =>
                        have hens : wsChar e = false :=
                          dropWhile_head_not
                            (show (cs.dropWhile wsChar).head? = some e from by
                              rw [hcs2]; rfl)
                        cases u2 with
                        | nil => rw [hcs2] at hu2h; exact Option.noConfusion hu2h
                        | cons a as =>
                          rw [hcs2] at hu2h
                          injection hu2h with hu2h
                          rw [show (a :: as : Str).dropWhile wsChar = a :: as from by
                            rw [List.dropWhile_cons,
                              if_neg (by rw [hu2h]; simp [hens])]] at hdw2
                          injection hdw2 with hdw2
                          refine (compOk_cons_iff.mp hok).1 ⟨rfl, hwcs, ?_⟩
                          rw [hcs2, List.head?_cons, ← hu2h, hdw2]
                    rw [if_neg hguard]
                    rw [← hi]
                    rw [xmlCompressF_copy (cs.takeWhile wsChar) fc u2 (by
                      rw [← h, ← hi] at hfc
                      simp only [List.length_cons, List.length_append] at hfc
                      omega) hwne]
                    rw [ih (cs.dropWhile wsChar) (f - (cs.takeWhile wsChar).length)
                      (fc - (cs.takeWhile wsChar).length) d u2 (by omega) (by omega) (by
                        rw [← h, ← hi] at hfc
                        simp only [List.length_cons, List.length_append] at hfc
                        omega) (by
                        refine compOk_append_left (cs.takeWhile wsChar) ?_
                        rw [hdecw]
                        exact hokcs) hi2]
                    rw [hdecw]
                · have hguard : ¬ (headWs u = true ∧
                      (u.dropWhile wsChar).head? = some '<') := by
                    intro ⟨hwu, _⟩
                    have huh : u.head? = cs.head? := xmlInsertF_head _ _ _ _ hi
                    cases hcsE : cs with
                    | nil =>
                      rw [hcsE] at huh
                      have hun : u = [] := by
                        cases u with
                        | nil => rfl
                        | cons a as => exact Option.noConfusion huh
                      rw [hun] at hwu
                      exact absurd hwu (by decide)
                    | cons e es =>
                      cases u with
                      | nil => rw [hcsE] at huh; exact Option.noConfusion huh
                      | cons a as =>
                        rw [hcsE] at huh
                        injection huh with huh
                        rw [show headWs (a :: as) = wsChar a from rfl, huh] at hwu
                        refine hwcs ?_
                        rw [hcsE]
                        exact hwu
                  rw [if_neg hguard]
                  rw [ih cs f fc d u hNc hfic hfcc hokcs hi]
              · rw [if_neg hc]
                rw [ih cs f fc d u hNc hfic hfcc hokcs hi]

/-- The indentation pass preserves the last character. -/
theorem xmlInsertF_last : ∀ fuel (s : Str) (d : Nat) (t : Str),
    xmlInsertF fuel s d = some t → t.getLast? = s.getLast? := by
  intro fuel
  induction fuel with
  | zero =>
    intro s d t h
    injection h with h
    rw [h]
  | succ f ih =>
    intro s d t h
    cases s with
    | nil =>
      injection h with h
      rw [← h]
    | cons c cs =>
      rw [xmlInsertF_step] at h
      by_cases hg : c = '>' ∧ cs.head? = some '<'
      · obtain ⟨hc, hh⟩ := hg
        subst hc
        rw [if_pos ⟨rfl, hh⟩] at h
        cases cs with
        | nil => exact Option.noConfusion hh
        | cons c2 cs2 =>
          injection hh with hc2
          subst hc2
          simp only [List.tail_cons, drop_takeWhile_length] at h
          have hdec : cs2.takeWhile (fun x => x = '/') ++
              cs2.dropWhile (fun x => x = '/') = cs2 :=
            List.takeWhile_append_dropWhile _ cs2
          have hlast2 : ∃ w, ('<' :: cs2.takeWhile (fun x => x = '/') : Str).getLast? =
              some w := by
            cases hE : ('<' :: cs2.takeWhile (fun x => x = '/') : Str).getLast? with
            | none => exact absurd (List.getLast?_eq_none_iff.mp hE) (by simp)
            | some w => exact ⟨w, rfl⟩
          obtain ⟨w, hw⟩ := hlast2
          by_cases hsl : cs2.takeWhile (fun x => x = '/') = ['/']
          · rw [if_pos hsl] at h
            by_cases hd0 : d = 0
            · rw [if_pos hd0] at h
              exact Option.noConfusion h
            · rw [if_neg hd0] at h
              cases hi : xmlInsertF f (cs2.dropWhile (fun x => x = '/')) (d - 1) with
              | none => rw [hi] at h; exact Option.noConfusion h
              | some u =>
                rw [hi, Option.map_some'] at h
                injection h with h
                rw [← h]
                have hu := ih _ _ _ hi
                rw [show ('>' :: '\n' :: (ind (d - 1) ++ '<' ::
                    cs2.takeWhile (fun x => x = '/') ++ u) : Str) =
                    (('>' :: '\n' :: ind (d - 1)) ++
                      ('<' :: cs2.takeWhile (fun x => x = '/'))) ++ u from by
                  simp [List.append_assoc]]
                rw [show ('>' :: '<' :: cs2 : Str) =
                    (['>'] ++ ('<' :: cs2.takeWhile (fun x => x = '/'))) ++
                      cs2.dropWhile (fun x => x = '/') from by
                  simp [List.append_assoc, hdec]]
                rw [List.getLast?_append, List.getLast?_append, hu]
                rw [List.getLast?_append, List.getLast?_append, hw]
                rfl
          · rw [if_neg hsl] at h
            cases hi : xmlInsertF f (cs2.dropWhile (fun x => x = '/')) (d + 1) with
            | none => rw [hi] at h; exact Option.noConfusion h
            | some u =>
              rw [hi, Option.map_some'] at h
              injection h with h
              rw [← h]
              have hu := ih _ _ _ hi
              rw [show ('>' :: '\n' :: (ind d ++ '<' ::
                  cs2.takeWhile (fun x => x = '/') ++ u) : Str) =
                  (('>' :: '\n' :: ind d) ++
                    ('<' :: cs2.takeWhile (fun x => x = '/'))) ++ u from by
                simp [List.append_assoc]]
              rw [show ('>' :: '<' :: cs2 : Str) =
                  (['>'] ++ ('<' :: cs2.takeWhile (fun x => x = '/'))) ++
                    cs2.dropWhile (fun x => x = '/') from by
                simp [List.append_assoc, hdec]]
              rw [List.getLast?_append, List.getLast?_append, hu]
              rw [List.getLast?_append, List.getLast?_append, hw]
              rfl
      · rw [if_neg hg] at h
        cases hi : xmlInsertF f cs d with
        | none => rw [hi] at h; exact Option.noConfusion h
        | some u =>
          rw [hi, Option.map_some'] at h
          injection h with h
          rw [← h, List.getLast?_cons, List.getLast?_cons, ih _ _ _ hi]

/-- A string whose head is not whitespace trims to a nonempty string. -/
theorem jsTrim_ne_nil {s : Str} {c : Char} (h : s.head? = some c) (hc : wsChar c = false) :
    jsTrim s ≠ [] := by
  unfold jsTrim
  rw [show trimLeft s = s from dropWhile_eq_self_of_head (fun c2 hc2 => by
    rw [h] at hc2
    injection hc2 with hc2
    rw [← hc2]
    exact hc)]
  intro he
  unfold trimRight at he
  have h2 : s.reverse.dropWhile wsChar = [] := by
    have := congrArg List.reverse he
    rw [List.reverse_reverse] at this
    rw [this]
    rfl
  rw [List.dropWhile_eq_nil_iff] at h2
  cases s with
  | nil => exact Option.noConfusion h
  | cons a as =>
    injection h with h
    have hwa := h2 a (by simp)
    rw [h] at hwa
    rw [hwa] at hc
    exact Bool.noConfusion hc

/-- Stability of formatXML: a successful format of a trimmed input is itself
trimmed, formats to itself, and is the input unchanged unless it contains a
greater-than/newline pair. -/
theorem formatXML_stable {tb out : Str} (htb : jsTrim tb = tb)
    (h : formatXML tb = some out) :
    jsTrim out = out ∧ formatXML out = some out ∧ (out = tb ∨ hasGtNl out = true) := by
  unfold formatXML at h
  unfold xmlInsert at h
  have hcomp : compOk (xmlCompressF tb.length tb) = true :=
    xmlCompressF_compOk tb.length tb le_rfl
  obtain ⟨a, b, hdec, ha, hb⟩ := jsTrim_decomp (xmlCompress tb)
  have hctb : compOk (jsTrim (xmlCompress tb)) = true := by
    refine compOk_append_right_ws ?_ hb
    refine compOk_append_left a ?_
    rw [← List.append_assoc, ← hdec]
    exact hcomp
  have hrecover : xmlCompressF out.length out = jsTrim (xmlCompress tb) :=
    xmlCompressF_xmlInsertF (jsTrim (xmlCompress tb)).length _
      (jsTrim (xmlCompress tb)).length out.length 0 out le_rfl le_rfl le_rfl hctb h
  have hhead : out.head? = (jsTrim (xmlCompress tb)).head? :=
    xmlInsertF_head _ _ _ _ h
  have hlast : out.getLast? = (jsTrim (xmlCompress tb)).getLast? :=
    xmlInsertF_last _ _ _ _ h
  have htr : jsTrim out = out := by
    refine jsTrim_eq_self ?_ ?_
    · intro c hc
      rw [hhead] at hc
      exact jsTrim_head_not_ws hc
    · intro c hc
      rw [hlast] at hc
      exact jsTrim_last_not_ws hc
  refine ⟨htr, ?_, ?_⟩
  · unfold formatXML
    rw [show xmlCompress out = xmlCompressF out.length out from rfl, hrecover, jsTrim_idem]
    exact h
  · rcases xmlInsertF_disj _ _ _ _ le_rfl h with ⟨hout, hng⟩ | hgt
    · rcases xmlCompressF_disj tb.length tb with hcc | hfalse
      · left
        rw [hout]
        rw [show xmlCompress tb = xmlCompressF tb.length tb from rfl, hcc, htb]
      · exfalso
        have hng2 : noGtLt (jsTrim (xmlCompress tb)) = false := by
          refine noGtLt_false_append_right_ws ?_ hb
          refine noGtLt_false_append_left_ws ?_ ha
          rw [← List.append_assoc, ← hdec]
          exact hfalse
        rw [hng] at hng2
        exact Bool.noConfusion hng2
    · right
      exact hgt

/-- Unfolding of formatResponseBody for non-blank bodies. -/
theorem formatResponseBody_else (body : Str) (ct : Option Str)
    (h : ¬(body = [] ∨ jsTrim body = [])) :
    formatResponseBody body ct =
      (match (if jsonBranchCond (jsTrim body) ct
              then (jsonParse (jsTrim body)).map jsonPretty else none) with
       | some out => out
       | none =>
         if xmlBranchCond (jsTrim body) ct then
           match formatXML (jsTrim body) with
           | some out => out
           | none => body
         else body) := by
  unfold formatResponseBody
  rw [if_neg h]

/-- The content-type component of the JSON guard. -/
def ctHasJson (ct : Option Str) : Bool :=
  match ct with
  | some c => containsSub c (str "application/json")
  | none => false

/-- The three ways the JSON guard can hold. -/
theorem jsonBranchCond_parts {tb : Str} {ct : Option Str} (h : jsonBranchCond tb ct = true) :
    ctHasJson ct = true ∨
    (tb.head? = some '\x7b' ∧ strEnds tb (str "\x7d") = true) ∨
    (tb.head? = some '[' ∧ strEnds tb (str "]") = true) := by
  cases ct with
  | none =>
    unfold jsonBranchCond at h
    simp only [Bool.or_eq_true, Bool.and_eq_true, decide_eq_true_eq, Bool.false_eq_true,
      false_or] at h
    right
    exact h
  | some c =>
    unfold jsonBranchCond at h
    simp only [Bool.or_eq_true, Bool.and_eq_true, decide_eq_true_eq] at h
    rcases h with (hA | hB) | hC
    · left
      exact hA
    · right
      left
      exact hB
    · right
      right
      exact hC

/-- The JSON guard holds when the content type names JSON. -/
theorem jsonBranchCond_intro_ct (tb : Str) {ct : Option Str}
    (h : ctHasJson ct = true) : jsonBranchCond tb ct = true := by
  cases ct with
  | none => exact Bool.noConfusion h
  | some c =>
    have h2 : containsSub c (str "application/json") = true := h
    simp [jsonBranchCond, h2]

/-- The JSON guard holds for a brace-delimited body. -/
theorem jsonBranchCond_intro_obj {tb : Str} {ct : Option Str} (h1 : tb.head? = some '\x7b')
    (h2 : strEnds tb (str "\x7d") = true) : jsonBranchCond tb ct = true := by
  unfold jsonBranchCond
  simp [h1, h2]

/-- The JSON guard holds for a bracket-delimited body. -/
theorem jsonBranchCond_intro_arr {tb : Str} {ct : Option Str} (h1 : tb.head? = some '[')
    (h2 : strEnds tb (str "]") = true) : jsonBranchCond tb ct = true := by
  unfold jsonBranchCond
  simp [h1, h2]

/-- A successful XML format of a body with a non-whitespace first character is
nonempty. -/
theorem formatXML_ne_nil {tb out : Str} {c : Char} (hh : tb.head? = some c)
    (hc : wsChar c = false) (h : formatXML tb = some out) : out ≠ [] := by
  unfold formatXML at h
  have hch : (xmlCompress tb).head? = some c := by
    rw [show xmlCompress tb = xmlCompressF tb.length tb from rfl, xmlCompressF_head]
    exact hh
  have hctb : jsTrim (xmlCompress tb) ≠ [] := jsTrim_ne_nil hch hc
  have hoh : out.head? = (jsTrim (xmlCompress tb)).head? := xmlInsertF_head _ _ _ _ h
  cases hct : jsTrim (xmlCompress tb) with
  | nil => exact absurd hct hctb
  | cons e es =>
    rw [hct] at hoh
    cases out with
    | nil => exact Option.noConfusion hoh
    | cons o os => exact List.cons_ne_nil o os

/-- Body formatting is idempotent. -/
theorem formatResponseBody_idem (body : Str) (ct : Option Str) :
    formatResponseBody (formatResponseBody body ct) ct = formatResponseBody body ct := by
  by_cases h0 : body = [] ∨ jsTrim body = []
  · rw [show formatResponseBody body ct = body from by
      unfold formatResponseBody
      rw [if_pos h0]]
    unfold formatResponseBody
    rw [if_pos h0]
  · cases hjson : (if jsonBranchCond (jsTrim body) ct
        then (jsonParse (jsTrim body)).map jsonPretty else none) with
    | some out =>
      have hFb2 : formatResponseBody body ct = out := by
        rw [formatResponseBody_else body ct h0, hjson]
      have hcond : jsonBranchCond (jsTrim body) ct = true := by
        cases hE : jsonBranchCond (jsTrim body) ct
        · rw [if_neg (by rw [hE]; exact Bool.noConfusion)] at hjson
          exact Option.noConfusion hjson
        · rfl
      rw [if_pos hcond] at hjson
      rcases Option.map_eq_some'.mp hjson with ⟨v, hv, hout⟩
      subst hout
      have hwf := jsonParse_wf hv
      rw [hFb2]
      have htr := jsTrim_jsonPretty v
      have hne := jsonPretty_ne_nil v
      have h0b : ¬(jsonPretty v = [] ∨ jsTrim (jsonPretty v) = []) := by
        intro hor
        rcases hor with hh | hh
        · exact hne hh
        · rw [htr] at hh
          exact hne hh
      rw [formatResponseBody_else _ ct h0b]
      have hcond2 : jsonBranchCond (jsonPretty v) ct = true := by
        rcases jsonBranchCond_parts hcond with hA | ⟨hB1, hB2⟩ | ⟨hC1, hC2⟩
        · exact jsonBranchCond_intro_ct _ hA
        · obtain ⟨fs, rfl⟩ := jsonParse_obj_of_head hv hB1
          exact jsonBranchCond_intro_obj (jsonPretty_obj_shape fs).1
            (jsonPretty_obj_shape fs).2
        · obtain ⟨xs, rfl⟩ := jsonParse_arr_of_head hv hC1
          exact jsonBranchCond_intro_arr (jsonPretty_arr_shape xs).1
            (jsonPretty_arr_shape xs).2
      rw [htr, if_pos hcond2, jsonParse_pretty v hwf]
      rfl
    | none =>
      by_cases hxml : xmlBranchCond (jsTrim body) ct = true
      · cases hfx : formatXML (jsTrim body) with
        | none =>
          have hFb2 : formatResponseBody body ct = body := by
            rw [formatResponseBody_else body ct h0, hjson]
            show (if xmlBranchCond (jsTrim body) ct then
                (match formatXML (jsTrim body) with
                 | some out2 => out2
                 | none => body)
              else body) = body
            rw [if_pos hxml, hfx]
          rw [hFb2]
          exact hFb2
        | some out =>
          have hFb2 : formatResponseBody body ct = out := by
            rw [formatResponseBody_else body ct h0, hjson]
            show (if xmlBranchCond (jsTrim body) ct then
                (match formatXML (jsTrim body) with
                 | some out2 => out2
                 | none => body)
              else body) = out
            rw [if_pos hxml, hfx]
          rw [hFb2]
          obtain ⟨htr2, hfx2, hdisj⟩ := formatXML_stable (jsTrim_idem body) hfx
          have htbne : jsTrim body ≠ [] := fun hh => h0 (Or.inr hh)
          obtain ⟨c0, hc0⟩ : ∃ c0, (jsTrim body).head? = some c0 := by
            cases hE : jsTrim body with
            | nil => exact absurd hE htbne
            | cons e es => exact ⟨e, rfl⟩
          have hc0w : wsChar c0 = false := jsTrim_head_not_ws hc0
          have houtne : out ≠ [] := formatXML_ne_nil hc0 hc0w hfx
          have h0c : ¬(out = [] ∨ jsTrim out = []) := by
            intro hor
            rcases hor with hh | hh
            · exact houtne hh
            · rw [htr2] at hh
              exact houtne hh
          rw [formatResponseBody_else out ct h0c]
          have hjson2 : (if jsonBranchCond (jsTrim out) ct
              then (jsonParse (jsTrim out)).map jsonPretty else none) = none := by
            rw [htr2]
            rcases hdisj with rfl | hgt
            · exact hjson
            · cases hc2 : jsonBranchCond out ct
              · rfl
              · rw [if_pos rfl, jsonParse_none_of_hasGtNl hgt]
                rfl
          rw [hjson2]
          show (if xmlBranchCond (jsTrim out) ct then
              (match formatXML (jsTrim out) with
               | some out2 => out2
               | none => out)
            else out) = out
          by_cases hx2 : xmlBranchCond (jsTrim out) ct = true
          · rw [if_pos hx2, htr2, hfx2]
          · rw [if_neg hx2]
      · have hFb2 : formatResponseBody body ct = body := by
          rw [formatResponseBody_else body ct h0, hjson]
          show (if xmlBranchCond (jsTrim body) ct then
              (match formatXML (jsTrim body) with
               | some out2 => out2
               | none => body)
            else body) = body
          rw [if_neg hxml]
        rw [hFb2]
        exact hFb2

/-- C8: Body formatting with input \x7b"a":1\x7d and content type
application/json returns the two-space-indented serialization (open brace,
newline, two spaces, "a": 1, newline, close brace); for every body and
content type selecting neither the JSON nor the XML branch the body is
returned unchanged; and formatting is idempotent: formatting a body twice
with the same content type equals formatting it once. -/
theorem formatResponseBody_spec :
    (formatResponseBody (str "\x7b\"a\":1\x7d") (some (str "application/json")) =
      str "\x7b\n  \"a\": 1\n\x7d") ∧
    (∀ (body : Str) (ct : Option Str),
      jsonBranchCond (jsTrim body) ct = false → xmlBranchCond (jsTrim body) ct = false →
      formatResponseBody body ct = body) ∧
    (∀ (body : Str) (ct : Option Str),
      formatResponseBody (formatResponseBody body ct) ct = formatResponseBody body ct) := by
  refine ⟨by rfl, ?_, formatResponseBody_idem⟩
  intro body ct h1 h2
  by_cases h0 : body = [] ∨ jsTrim body = []
  · unfold formatResponseBody
    rw [if_pos h0]
  · rw [formatResponseBody_else body ct h0]
    rw [show (if jsonBranchCond (jsTrim body) ct then
        (jsonParse (jsTrim body)).map jsonPretty else none) = none from
      if_neg (fun he => Bool.noConfusion (he.symm.trans h1))]
    show (if xmlBranchCond (jsTrim body) ct then
        (match formatXML (jsTrim body) with
         | some out2 => out2
         | none => body)
      else body) = body
    rw [if_neg (fun he => Bool.noConfusion (he.symm.trans h2))]

/-- Witness for C8: the neither-branch case on a plain text body with no
content type, and idempotency at the concrete JSON input. -/
theorem formatResponseBody_spec_witness :
    (jsonBranchCond (jsTrim (str "hello")) none = false ∧
     xmlBranchCond (jsTrim (str "hello")) none = false ∧
     formatResponseBody (str "hello") none = str "hello") ∧
    formatResponseBody (formatResponseBody (str "\x7b\"a\":1\x7d")
        (some (str "application/json"))) (some (str "application/json")) =
      formatResponseBody (str "\x7b\"a\":1\x7d") (some (str "application/json")) :=
  ⟨⟨rfl, rfl, formatResponseBody_spec.2.1 (str "hello") none rfl rfl⟩,
   formatResponseBody_spec.2.2 (str "\x7b\"a\":1\x7d") (some (str "application/json"))⟩
